import Mathlib

/-!
# st_protocol: a bit-banged Seatalk transceiver

A shallow embedding of `src/st_protocol.cpp` (and of the places where the
legacy variant `src/src/st_protocol.cpp` differs), followed by theorems about
it.

Conventions of the embedding.

* An array (`_tx_buffer`, `_rx_buffer`, a `datagram_t`) is a map from index to
  cell value, `Nat → Nat`.  The C code indexes its arrays with `uint8_t`
  counters and never checks them against the declared sizes, so the map keeps
  a cell for every index: an access at or beyond `SUP_BUFFER_SIZE`
  (`SUP_DATAGRAM_SIZE`) is an access outside the declared array, and stays
  visible in the model instead of being silently dropped.  Such a cell is
  memory behind the array, not a cell of it: where a theorem hands the
  contents of one buffer to another it does so for the `SUP_BUFFER_SIZE`
  declared cells only, and says nothing of the cells behind them.
* `uint8_t` counters that can wrap are reduced `% 256`, `uint16_t` values
  `% 65536`, `uint32_t` time stamps `% 4294967296`.
* A `while` loop whose exit depends on the data runs on fuel and returns
  `Option`; `none` means that the fuel ran out.
-/

namespace StProtocol

/-! ## Constants (`st_protocol.cpp` lines 10-19, `st_protocol.h` lines 12-13) -/

def BITS_PER_FRAME : Nat := 11
def LOG_MICROSECONDS_PER_TICK : Nat := 4
def MICROSECONDS_PER_BIT : Nat := 208
def MICROSECONDS_PER_FRAME : Nat := 2291
def TICKS_PER_BIT : Nat := 13
def TICKS_PER_FRAME : Nat := 143
def SUP : Nat := 1
def SUP_BUFFER_SIZE : Nat := 64
def SUP_DATAGRAM_SIZE : Nat := 12

/-- An array of the program, as a map from index to cell value.  The cells at
and beyond the declared size are the memory behind the array. -/
abbrev Cells := Nat → Nat

/-- The array `m` after the assignment `m[i] = v`. -/
def store (m : Cells) (i v : Nat) : Cells := fun j => if j = i then v else m j

/-! ## Transmit side: globals -/

/-- The globals and function statics of the transmit side: `_tx_buffer`,
`_tx_buffer_pointer_max`, the port register `*_tx_port`, the compare register
`OCR2A`, and the statics `tx_buffer_pointer`, `this_run_start_time`,
`this_run_duration` of `OCR2A_ISR`. -/
structure TxState where
  tx_buffer : Cells
  tx_buffer_pointer_max : Nat
  tx_port : Nat
  OCR2A : Nat
  tx_buffer_pointer : Nat
  this_run_start_time : Nat
  this_run_duration : Nat

/-! ## Transmit side: `tx_buffer_from_run`, `run_from_frame` -/

/-- `tx_buffer_from_run`: `_tx_buffer[*run_index] = run_length * MICROSECONDS_PER_BIT`. -/
def tx_buffer_from_run (run_length run_index : Nat) (tx_buffer : Cells) : Cells :=
  store tx_buffer run_index (run_length * MICROSECONDS_PER_BIT)

/-- The `for` loop of `run_from_frame`, with `n` iterations left.  The loop
state is `frame`, `run_length`, `run_value`, `*run_index` and `_tx_buffer`;
the result is the buffer, `*run_index` and `run_length` at loop exit. -/
def run_from_frame_loop : Nat → Nat → Nat → Nat → Nat → Cells → Cells × Nat × Nat
  | 0, _, run_length, _, run_index, tx_buffer => (tx_buffer, run_index, run_length)
  | n + 1, frame, run_length, run_value, run_index, tx_buffer =>
    let frame := frame >>> 1
    if (0x0001 &&& frame) = run_value then
      run_from_frame_loop n frame (run_length + 1) run_value run_index tx_buffer
    else
      run_from_frame_loop n frame 1 (run_value ^^^ 0x0001) ((run_index + 1) % 256)
        (tx_buffer_from_run run_length run_index tx_buffer)

/-- `run_from_frame`: the runs of `frame` are written to `_tx_buffer` from
`*run_index` on; returns the buffer and the new `*run_index`.  The loop
`for (i = 1; i < BITS_PER_FRAME; i++)` makes `BITS_PER_FRAME - 1` iterations. -/
def run_from_frame (frame run_index : Nat) (tx_buffer : Cells) : Cells × Nat :=
  let r := run_from_frame_loop (BITS_PER_FRAME - 1) frame 1 (frame &&& 0x0001) run_index tx_buffer
  (tx_buffer_from_run r.2.2 r.2.1 r.1, (r.2.1 + 1) % 256)

/-! ## Transmit side: `frame_from_datagram`, `send_datagram` -/

/-- The `while` loop of `frame_from_datagram`: every frame up to the
terminator is handed to `run_from_frame`.  Returns the buffer and `run_index`. -/
def frame_from_datagram_loop : Nat → Cells → Nat → Nat → Cells → Option (Cells × Nat)
  | 0, _, _, _, _ => none
  | fuel + 1, tx_datagram, frame_index, run_index, tx_buffer =>
    if tx_datagram frame_index ≠ 0xFFFF then
      let r := run_from_frame (tx_datagram frame_index) run_index tx_buffer
      frame_from_datagram_loop fuel tx_datagram ((frame_index + 1) % 256) r.2 r.1
    else some (tx_buffer, run_index)

/-- `frame_from_datagram`: runs the loop from `run_index = 0`, `frame_index = 0`
and then stores `run_index - 1` (a `uint8_t`) in `_tx_buffer_pointer_max`. -/
def frame_from_datagram (s : TxState) (tx_datagram : Cells) : Option TxState :=
  match frame_from_datagram_loop 256 tx_datagram 0 0 s.tx_buffer with
  | none => none
  | some (tx_buffer, run_index) =>
    some { s with tx_buffer := tx_buffer, tx_buffer_pointer_max := (run_index + 255) % 256 }

/-- The first `while` loop of `send_datagram`: `some true` when the marker rule
holds up to the terminator, `some false` when one of the two `return`s is taken. -/
def send_datagram_check : Nat → Cells → Nat → Option Bool
  | 0, _, _ => none
  | fuel + 1, tx_datagram, i =>
    if tx_datagram i ≠ 0xFFFF then
      if i = 0 ∧ (0x0100 &&& tx_datagram i) = 0 then some false
      else if i ≠ 0 ∧ (0x0100 &&& tx_datagram i) ≠ 0 then some false
      else send_datagram_check fuel tx_datagram ((i + 1) % 256)
    else some true

/-- The frame that `send_datagram` puts in place of the payload `p`:
`p << 1` (kept in a `uint16_t`), `&= 0x03FF`, `|= 0x0400`. -/
def frame_of_payload (p : Nat) : Nat :=
  ((((p <<< 1) % 65536) &&& 0x03FF) ||| 0x0400)

/-- The second `while` loop of `send_datagram`: payloads become frames, in place. -/
def send_datagram_frames : Nat → Cells → Nat → Option Cells
  | 0, _, _ => none
  | fuel + 1, tx_datagram, i =>
    if tx_datagram i ≠ 0xFFFF then
      send_datagram_frames fuel (store tx_datagram i (frame_of_payload (tx_datagram i)))
        ((i + 1) % 256)
    else some tx_datagram

/-- `send_datagram`: returns the globals and the caller's array on return.
The index `i` is a `uint8_t`, so a scan that has not met the terminator after
256 steps has visited every index: the fuel of each loop is 256. -/
def send_datagram (s : TxState) (tx_datagram : Cells) : Option (TxState × Cells) :=
  match send_datagram_check 256 tx_datagram 0 with
  | none => none
  | some false => some (s, tx_datagram)
  | some true =>
    match send_datagram_frames 256 tx_datagram 0 with
    | none => none
    | some frames =>
      match frame_from_datagram s frames with
      | none => none
      | some s1 => some (s1, frames)

/-- A datagram array holding the entries of `l`, then the terminator `0xFFFF`,
then the cells of `rest`. -/
def datagram_of (l : List Nat) (rest : Cells) : Cells :=
  fun i => if i < l.length then l.getD i 0 else if i = l.length then 0xFFFF else rest i

/-- A valid sequence of 7 payloads whose frames have 10 runs each: 70 runs. -/
def long_example : List Nat := [0x155, 0x0AA, 0x0AA, 0x0AA, 0x0AA, 0x0AA, 0x0AA]

/-- A transmit state with every cell and register 0. -/
def tx_zero : TxState :=
  { tx_buffer := fun _ => 0, tx_buffer_pointer_max := 0, tx_port := 0, OCR2A := 0,
    tx_buffer_pointer := 0, this_run_start_time := MICROSECONDS_PER_FRAME,
    this_run_duration := MICROSECONDS_PER_FRAME }

/-! ## Transmit side: `OCR2A_ISR` -/

/-- The value that `begin()` gives `_tx_bit_mask` (pin A5). -/
def tx_bit_mask : Nat := 0x20

/-- `OCR2A_ISR`, one firing of the timer-compare interrupt.
`*_tx_port &= ~_tx_bit_mask` clears the pin's bit of the 8-bit port register,
`*_tx_port |= _tx_bit_mask` sets it; `OCR2A` gets
`uint8_t((this_run_duration >> LOG_MICROSECONDS_PER_TICK) - SUP)`. -/
def OCR2A_ISR (s : TxState) : TxState :=
  if s.tx_buffer_pointer_max = 0 then
    { s with
      tx_port := s.tx_port &&& (255 - tx_bit_mask)
      OCR2A := TICKS_PER_FRAME
      tx_buffer_pointer := 0 }
  else
    let tx_port :=
      if (s.tx_buffer_pointer &&& 0x01) ≠ 0 then s.tx_port &&& (255 - tx_bit_mask)
      else s.tx_port ||| tx_bit_mask
    let this_run_duration := s.tx_buffer s.tx_buffer_pointer
    let OCR2A := ((this_run_duration >>> LOG_MICROSECONDS_PER_TICK) + 256 - SUP) % 256
    let this_run_start_time := (s.this_run_start_time + this_run_duration) % 4294967296
    let tx_buffer_pointer := (s.tx_buffer_pointer + 1) % 256
    { s with
      tx_port := tx_port
      OCR2A := OCR2A
      this_run_duration := this_run_duration
      this_run_start_time := this_run_start_time
      tx_buffer_pointer := tx_buffer_pointer
      tx_buffer_pointer_max :=
        if tx_buffer_pointer ≥ s.tx_buffer_pointer_max then 0 else s.tx_buffer_pointer_max }

/-- The logical level on the bus for a value of the port register.  The
hardware inverts the signal (`st_protocol.cpp` lines 5 and 93): the pin's bit
cleared is the idle state, logical 1; the bit set is logical 0. -/
def bus_level (tx_port : Nat) : Nat := if (tx_port &&& tx_bit_mask) = 0 then 1 else 0

/-- An example transmit state: three runs of 1, 2 and 3 bits to send, cursor 0. -/
def drain_example : TxState :=
  { tx_zero with tx_buffer := fun j => (j + 1) * 208, tx_buffer_pointer_max := 3 }

/-! ## Receive side -/

/-- The globals and function statics of the receive side: `_rx_buffer`,
`_rx_buffer_pointer_max`, and the statics `previous_run_start_time`,
`capturing`, `rx_buffer_pointer` of `PCINT_ISR`. -/
structure RxState where
  rx_buffer : Cells
  rx_buffer_pointer_max : Nat
  previous_run_start_time : Nat
  capturing : Bool
  rx_buffer_pointer : Nat

/-- `run_from_rx_buffer`: the run length, in bit intervals, of the duration
in `_rx_buffer[*run_index]`; the result is a `uint8_t`. -/
def run_from_rx_buffer (run_index : Nat) (rx_buffer : Cells) : Nat :=
  let this_run := rx_buffer run_index
  if this_run % MICROSECONDS_PER_BIT < MICROSECONDS_PER_BIT / 2 then
    (this_run / MICROSECONDS_PER_BIT) % 256
  else
    ((this_run / MICROSECONDS_PER_BIT) % 256 + 1) % 256

/-- The inner `for` loop of `frame_from_run`: `n` times `frame |= run_value;
frame = frame >> 1`. -/
def frame_from_run_shift : Nat → Nat → Nat → Nat
  | 0, _, frame => frame
  | n + 1, run_value, frame => frame_from_run_shift n run_value ((frame ||| run_value) >>> 1)

/-- The `do ... while ( bit_index < BITS_PER_FRAME )` loop of `frame_from_run`.
Returns `frame` and `*run_index` at loop exit. -/
def frame_from_run_loop : Nat → Cells → Nat → Nat → Nat → Nat → Option (Nat × Nat)
  | 0, _, _, _, _, _ => none
  | fuel + 1, rx_buffer, bit_index, run_value, frame, run_index =>
    let run_length := min (run_from_rx_buffer run_index rx_buffer) (BITS_PER_FRAME - bit_index)
    let frame := frame_from_run_shift run_length run_value frame
    let run_value := run_value ^^^ (1 <<< (BITS_PER_FRAME + 1))
    let bit_index := bit_index + run_length
    let run_index := (run_index + 1) % 256
    if bit_index < BITS_PER_FRAME then
      frame_from_run_loop fuel rx_buffer bit_index run_value frame run_index
    else some (frame, run_index)

/-- Fuel of the loop of `frame_from_run`.  A pass over all 256 values of the
`uint8_t` index that adds no bit repeats for ever, and the loop ends once 11
bits are added, so a loop that ends does so within `11 * 256` iterations. -/
def frame_from_run_fuel : Nat := 11 * 256

/-- `frame_from_run`: returns the frame and the new `*run_index`.  The
parameter `run_index_max` is not used by the function body. -/
def frame_from_run (run_index _run_index_max : Nat) (rx_buffer : Cells) : Option (Nat × Nat) :=
  match frame_from_run_loop frame_from_run_fuel rx_buffer 0 0 0 run_index with
  | none => none
  | some (frame, run_index) => some (frame >>> 1, run_index)

/-- The `do ... while` loop of `datagram_from_frame` and the store of the
terminator that follows it.  The loop goes on only while
`frame_index < SUP_DATAGRAM_SIZE - 1`, so its body runs at most 11 times. -/
def datagram_from_frame_loop : Nat → Cells → Nat → Cells → Nat → Nat → Option Cells
  | 0, _, _, _, _, _ => none
  | fuel + 1, rx_buffer, run_index_max, rx_datagram, frame_index, run_index =>
    match frame_from_run run_index run_index_max rx_buffer with
    | none => none
    | some (frame, run_index) =>
      let rx_datagram := store rx_datagram frame_index frame
      let frame_index := frame_index + 1
      if run_index < run_index_max ∧ frame_index < SUP_DATAGRAM_SIZE - 1 then
        datagram_from_frame_loop fuel rx_buffer run_index_max rx_datagram frame_index run_index
      else some (store rx_datagram frame_index 0xFFFF)

/-- `datagram_from_frame`. -/
def datagram_from_frame (rx_buffer : Cells) (rx_datagram : Cells) (run_index_max : Nat) :
    Option Cells :=
  datagram_from_frame_loop (SUP_DATAGRAM_SIZE - 1) rx_buffer run_index_max rx_datagram 0 0

/-- The validity loop of `load_datagram`: returns `corrupted` and the array.
Once `corrupted` is set the loop condition fails, so the loop ends there. -/
def load_datagram_check : Nat → Cells → Nat → Option (Bool × Cells)
  | 0, _, _ => none
  | fuel + 1, rx_datagram, i =>
    if rx_datagram i ≠ 0xFFFF then
      if (0x0001 &&& rx_datagram i) ≠ 0 ∨ (0x0400 &&& rx_datagram i) = 0 then
        some (true, store rx_datagram 0 0xFFFF)
      else load_datagram_check fuel rx_datagram ((i + 1) % 256)
    else some (false, rx_datagram)

/-- The payload that `load_datagram` puts in place of the frame `f`:
`f >> 1`, `&= 0x01FF`. -/
def payload_of_frame (f : Nat) : Nat := (f >>> 1) &&& 0x01FF

/-- The last loop of `load_datagram`: frames become payloads, in place. -/
def load_datagram_payloads : Nat → Cells → Nat → Option Cells
  | 0, _, _ => none
  | fuel + 1, rx_datagram, i =>
    if rx_datagram i ≠ 0xFFFF then
      load_datagram_payloads fuel (store rx_datagram i (payload_of_frame (rx_datagram i)))
        ((i + 1) % 256)
    else some rx_datagram

/-- `load_datagram`: returns the globals and the caller's array on return. -/
def load_datagram (s : RxState) (rx_datagram : Cells) : Option (RxState × Cells) :=
  let run_index_max := s.rx_buffer_pointer_max
  if run_index_max = 0 then some (s, rx_datagram)
  else
    match datagram_from_frame s.rx_buffer rx_datagram run_index_max with
    | none => none
    | some frames =>
      match load_datagram_check 256 frames 0 with
      | none => none
      | some (true, d) => some ({ s with rx_buffer_pointer_max := 0 }, d)
      | some (false, d) =>
        match load_datagram_payloads 256 d 0 with
        | none => none
        | some payloads => some ({ s with rx_buffer_pointer_max := 0 }, payloads)

/-- `PCINT_ISR`, one edge on the bus; `micros` is the value that `micros()`
returns, a `uint32_t`. -/
def PCINT_ISR (micros : Nat) (s : RxState) : RxState :=
  let next_run_start_time := micros % 4294967296
  let previous_run_duration :=
    min MICROSECONDS_PER_FRAME
      ((next_run_start_time + 4294967296 - s.previous_run_start_time) % 4294967296)
  let s1 : RxState :=
    if previous_run_duration = MICROSECONDS_PER_FRAME then
      if s.capturing then
        { s with
          capturing := false
          rx_buffer := store s.rx_buffer s.rx_buffer_pointer MICROSECONDS_PER_FRAME
          rx_buffer_pointer_max := s.rx_buffer_pointer }
      else if s.rx_buffer_pointer_max = 0 then
        { s with capturing := true, rx_buffer_pointer := 0 }
      else s
    else
      if s.capturing then
        let rx_buffer := store s.rx_buffer s.rx_buffer_pointer previous_run_duration
        if s.rx_buffer_pointer < SUP_BUFFER_SIZE - 1 then
          { s with rx_buffer := rx_buffer, rx_buffer_pointer := s.rx_buffer_pointer + 1 }
        else
          { s with
            capturing := false
            rx_buffer := store rx_buffer s.rx_buffer_pointer MICROSECONDS_PER_FRAME
            rx_buffer_pointer_max := s.rx_buffer_pointer }
      else s
  { s1 with previous_run_start_time := next_run_start_time }

/-- The receive side at start-up: statics zero-initialised, `capturing = false`,
`_rx_buffer_pointer_max = 0` (`begin()`); `rx_buffer` is the memory's content. -/
def rx_init (rx_buffer : Cells) : RxState :=
  { rx_buffer := rx_buffer, rx_buffer_pointer_max := 0, previous_run_start_time := 0,
    capturing := false, rx_buffer_pointer := 0 }

/-- An event of the receive side: an edge on the bus, on which `PCINT_ISR`
runs and `micros()` returns `micros`; or the consumer handing the buffer back,
the assignment `_rx_buffer_pointer_max = 0` that ends `load_datagram`. -/
inductive RxEvent where
  | edge (micros : Nat)
  | consume

/-- The receive state after one event. -/
def rx_step (s : RxState) : RxEvent → RxState
  | RxEvent.edge micros => PCINT_ISR micros s
  | RxEvent.consume => { s with rx_buffer_pointer_max := 0 }

/-- The receive state after a sequence of events. -/
def rx_run (s : RxState) (es : List RxEvent) : RxState := es.foldl rx_step s

/-- The receive state after a sequence of edges, given by the values of `micros()`. -/
def rx_edges (s : RxState) (ts : List Nat) : RxState := ts.foldl (fun s t => PCINT_ISR t s) s

/-- The shape of the receive state: while capturing, the length is 0 and the
entries below the cursor are shorter than the idle gap; while a nonzero length
is published, the engine is not capturing and the buffer is finalized. -/
def rx_shape (s : RxState) : Prop :=
  (s.capturing = true →
      s.rx_buffer_pointer_max = 0 ∧ ∀ i, i < s.rx_buffer_pointer → s.rx_buffer i < MICROSECONDS_PER_FRAME)
  ∧ (s.rx_buffer_pointer_max ≠ 0 →
      s.capturing = false
      ∧ s.rx_buffer s.rx_buffer_pointer_max = MICROSECONDS_PER_FRAME
      ∧ s.rx_buffer_pointer_max = s.rx_buffer_pointer
      ∧ ∀ i, i < s.rx_buffer_pointer_max → s.rx_buffer i < MICROSECONDS_PER_FRAME)

/-- An example receive state: the finalized capture of the payloads
`[0x1F1, 0x002]`, inbound length 7. -/
def rx_example : RxState :=
  { rx_buffer := fun i => [208, 208, 624, 1248, 416, 208, 1456, 2291].getD i 0
    rx_buffer_pointer_max := 7
    previous_run_start_time := 0
    capturing := false
    rx_buffer_pointer := 7 }

/-- An example receive state: a finalized capture of one run of eleven 0 bits,
inbound length 1. -/
def rx_example_bad : RxState :=
  { rx_buffer := fun i => [2288, 2291].getD i 0
    rx_buffer_pointer_max := 1
    previous_run_start_time := 0
    capturing := false
    rx_buffer_pointer := 1 }

/-- An example receive state: capturing, seven runs stored, the previous
edge at 1000 microseconds. -/
def rx_capturing_example : RxState :=
  { rx_buffer := fun i => [208, 208, 624, 1248, 416, 208, 1456].getD i 0
    rx_buffer_pointer_max := 0
    previous_run_start_time := 1000
    capturing := true
    rx_buffer_pointer := 7 }

/-- The receive state after a sequence of edges given by the time from one
edge to the next: each edge comes `gap` microseconds after the edge before it. -/
def rx_gaps : RxState → List Nat → RxState
  | s, [] => s
  | s, gap :: gaps => rx_gaps (PCINT_ISR (s.previous_run_start_time + gap) s) gaps

/-! ## The legacy variant (`src/src/st_protocol.cpp`): `load_sentence` -/

/-- The `do ... while` loop of the legacy `frame_from_run`: at
`*run_index == run_index_max` the run fills the frame, elsewhere its length is
`run_from_rx_buffer`, not clipped; `bit_index` is a `uint8_t`. -/
def legacy_frame_from_run_loop : Nat → Cells → Nat → Nat → Nat → Nat → Nat → Option (Nat × Nat)
  | 0, _, _, _, _, _, _ => none
  | fuel + 1, rx_buffer, run_index_max, bit_index, run_value, frame, run_index =>
    let run_length :=
      if run_index = run_index_max then BITS_PER_FRAME - bit_index
      else run_from_rx_buffer run_index rx_buffer
    let frame := frame_from_run_shift run_length run_value frame
    let run_value := run_value ^^^ (1 <<< (BITS_PER_FRAME + 1))
    let bit_index := (bit_index + run_length) % 256
    let run_index := (run_index + 1) % 256
    if bit_index < BITS_PER_FRAME then
      legacy_frame_from_run_loop fuel rx_buffer run_index_max bit_index run_value frame run_index
    else some (frame, run_index)

/-- The legacy `frame_from_run`: returns the frame and the new `*run_index`. -/
def legacy_frame_from_run (run_index run_index_max : Nat) (rx_buffer : Cells) :
    Option (Nat × Nat) :=
  match legacy_frame_from_run_loop frame_from_run_fuel rx_buffer run_index_max 0 0 0 run_index with
  | none => none
  | some (frame, run_index) => some (frame >>> 1, run_index)

/-- The `do ... while ( run_index < run_index_max )` loop of the legacy
`sentence_from_frame` and the store of the terminator; `frame_index` is a
`uint8_t` and is not bounded by the loop. -/
def sentence_from_frame_loop : Nat → Cells → Nat → Cells → Nat → Nat → Option Cells
  | 0, _, _, _, _, _ => none
  | fuel + 1, rx_buffer, run_index_max, rx_sentence, frame_index, run_index =>
    match legacy_frame_from_run run_index run_index_max rx_buffer with
    | none => none
    | some (frame, run_index) =>
      let rx_sentence := store rx_sentence frame_index frame
      let frame_index := (frame_index + 1) % 256
      if run_index < run_index_max then
        sentence_from_frame_loop fuel rx_buffer run_index_max rx_sentence frame_index run_index
      else some (store rx_sentence frame_index 0xFFFF)

/-- The legacy `sentence_from_frame`.  Every pass of the loop moves the
`uint8_t` run index on, so the fuel is 256. -/
def sentence_from_frame (rx_buffer : Cells) (rx_sentence : Cells) (run_index_max : Nat) :
    Option Cells :=
  sentence_from_frame_loop 256 rx_buffer run_index_max rx_sentence 0 0

/-- The validity loop of the legacy `load_sentence`: `some (true, _)` when the
loop is left by its `return` (after `rx_sentence[0] = 0xFFFF`), `some (false, _)`
when it runs to the terminator. -/
def load_sentence_check : Nat → Cells → Nat → Option (Bool × Cells)
  | 0, _, _ => none
  | fuel + 1, rx_sentence, i =>
    if rx_sentence i ≠ 0xFFFF then
      if (0x0001 &&& rx_sentence i) ≠ 0 ∨ (0x0400 &&& rx_sentence i) = 0 then
        some (true, store rx_sentence 0 0xFFFF)
      else load_sentence_check fuel rx_sentence ((i + 1) % 256)
    else some (false, rx_sentence)

/-- The legacy `load_sentence`: returns the globals and the caller's array on
return.  The `return` inside the validity loop leaves the function before the
assignment `_rx_buffer_pointer_max = 0`. -/
def load_sentence (s : RxState) (rx_sentence : Cells) : Option (RxState × Cells) :=
  let run_index_max := s.rx_buffer_pointer_max
  if run_index_max = 0 then some (s, rx_sentence)
  else
    match sentence_from_frame s.rx_buffer rx_sentence run_index_max with
    | none => none
    | some frames =>
      match load_sentence_check 256 frames 0 with
      | none => none
      | some (true, d) => some (s, d)
      | some (false, d) =>
        match load_datagram_payloads 256 d 0 with
        | none => none
        | some payloads => some ({ s with rx_buffer_pointer_max := 0 }, payloads)

/-- The legacy `PCINT2_ISR`, one edge on the bus. -/
def PCINT2_ISR (micros : Nat) (s : RxState) : RxState :=
  let next_run_start_time := micros % 4294967296
  let previous_run_duration :=
    min MICROSECONDS_PER_FRAME
      ((next_run_start_time + 4294967296 - s.previous_run_start_time) % 4294967296)
  let s1 : RxState :=
    if previous_run_duration = MICROSECONDS_PER_FRAME then
      if s.capturing then
        { s with
          capturing := false
          rx_buffer_pointer_max := s.rx_buffer_pointer
          rx_buffer := store s.rx_buffer s.rx_buffer_pointer MICROSECONDS_PER_FRAME }
      else if s.rx_buffer_pointer_max = 0 then
        { s with capturing := true, rx_buffer_pointer := 0 }
      else s
    else
      if s.capturing then
        { s with
          rx_buffer := store s.rx_buffer s.rx_buffer_pointer previous_run_duration
          rx_buffer_pointer := (s.rx_buffer_pointer + 1) % 256 }
      else s
  { s1 with previous_run_start_time := next_run_start_time }

/-! ## Vocabulary of the statements -/

/-- The bits `0 .. n-1` of `x`, bit 0 first. -/
def bits_lsb : Nat → Nat → List Bool
  | 0, _ => []
  | n + 1, x => x.testBit 0 :: bits_lsb n (x >>> 1)

/-- The maximal runs of equal bits of a bit list, each as (bit value, length),
when a run of `len` bits of value `v` has been read already. -/
def runs_after (v : Bool) (len : Nat) : List Bool → List (Bool × Nat)
  | [] => [(v, len)]
  | b :: bs => if b = v then runs_after v (len + 1) bs else (v, len) :: runs_after b 1 bs

/-- The maximal runs of equal bits of a bit list, each as (bit value, length). -/
def maximal_runs : List Bool → List (Bool × Nat)
  | [] => []
  | b :: bs => runs_after b 1 bs

/-- The maximal runs of equal bits of the 11 bits of `frame`, bit 0 first. -/
def frame_runs (frame : Nat) : List (Bool × Nat) := maximal_runs (bits_lsb BITS_PER_FRAME frame)

/-- The lengths of `frame_runs`. -/
def frame_run_lengths (frame : Nat) : List Nat := (frame_runs frame).map Prod.snd

/-- The calls `tx_buffer_from_run( r, run_index ); ( *run_index )++` for the run
lengths `r` of a list, in order: returns the buffer and the new `*run_index`. -/
def emit_runs : List Nat → Nat → Cells → Cells × Nat
  | [], run_index, tx_buffer => (tx_buffer, run_index)
  | r :: rs, run_index, tx_buffer =>
    emit_runs rs ((run_index + 1) % 256) (tx_buffer_from_run r run_index tx_buffer)

/-- The frame register of `frame_from_run` after the bits of a list are
added one by one (`frame |= run_value; frame = frame >> 1`, with `run_value`
the bit in position `BITS_PER_FRAME + 1`). -/
def push_bits (frame : Nat) : List Bool → Nat
  | [] => frame
  | b :: bs => push_bits ((frame ||| (b.toNat * 4096)) >>> 1) bs

/-- The bits of runs of the lengths `ls` whose values alternate from `w` on. -/
def expand_alt (w : Bool) : List Nat → List Bool
  | [] => []
  | l :: ls => List.replicate l w ++ expand_alt (!w) ls

/-- The frame that `frame_from_run` rebuilds from the runs of `frame`: it reads
the run lengths as runs of alternating value, the first of value 0. -/
def decoded_frame (frame : Nat) : Nat :=
  push_bits 0 (expand_alt false (frame_run_lengths frame)) >>> 1

/-- The run lengths of a list of frames, frame after frame. -/
def runs_of (F : List Nat) : List Nat := (F.map frame_run_lengths).flatten

/-- The buffer `rx_buffer` holds the run lengths `R` from cell 0 on: every cell
but the last rounds to its run length exactly, the last cell to at least its
run length (the last run of a datagram merges with the idle time). -/
def holds_runs (rx_buffer : Cells) (R : List Nat) : Prop :=
  ∀ j, j < R.length →
    R.getD j 0 ≤ run_from_rx_buffer j rx_buffer
      ∧ (j + 1 < R.length → run_from_rx_buffer j rx_buffer = R.getD j 0)

/-- A valid payload sequence: 1 to 11 payloads, each a 9-bit value, bit 8 set
on the first and clear on all the others. -/
def valid_payloads (P : List Nat) : Prop :=
  1 ≤ P.length ∧ P.length ≤ 11 ∧
    ∀ i, i < P.length → P.getD i 0 < 512 ∧ ((P.getD i 0).testBit 8 = true ↔ i = 0)

/-- The frame of a payload as the specification writes it:
`((p << 1) & 0x03FF) | 0x0400`. -/
def spec_frame (p : Nat) : Nat := ((p <<< 1) &&& 0x03FF) ||| 0x0400

/-- The wire image of a payload sequence: the maximal runs of equal bits, each
as (bit value, length), of the frames of the payloads, every frame read from
bit 0 to bit 10 and the runs cut at every frame boundary. -/
def wire_runs (P : List Nat) : List (Bool × Nat) := ((P.map spec_frame).map frame_runs).flatten

/-- The run durations of the wire image of a payload sequence, in microseconds. -/
def wire_durations (P : List Nat) : List Nat := (wire_runs P).map (fun r => 208 * r.2)

end StProtocol


namespace StProtocol

/-! ## Lemmas: bits and runs -/

theorem one_and_eq_testBit (x : Nat) : (1 &&& x) = (x.testBit 0).toNat := by
  rw [Nat.one_and_eq_mod_two, Nat.testBit_zero]
  rcases Nat.mod_two_eq_zero_or_one x with h | h <;> simp [h]

theorem and_one_eq_testBit (x : Nat) : (x &&& 1) = (x.testBit 0).toNat := by
  rw [Nat.and_comm, one_and_eq_testBit]

theorem toNat_xor_one (v : Bool) : v.toNat ^^^ 1 = (!v).toNat := by
  cases v <;> rfl

theorem toNat_inj (a b : Bool) : a.toNat = b.toNat ↔ a = b := by
  cases a <;> cases b <;> simp

theorem runs_after_sum (v : Bool) (len : Nat) (bs : List Bool) :
    ((runs_after v len bs).map Prod.snd).sum = len + bs.length := by
  induction bs generalizing v len with
  | nil => simp [runs_after]
  | cons b bs ih =>
    simp only [runs_after]
    split
    · rw [ih]; simp; omega
    · simp [ih]; omega

theorem runs_after_pos (v : Bool) (len : Nat) (bs : List Bool) (h : 1 ≤ len) :
    ∀ r ∈ (runs_after v len bs).map Prod.snd, 1 ≤ r := by
  induction bs generalizing v len with
  | nil => simp [runs_after]; exact h
  | cons b bs ih =>
    simp only [runs_after]
    split
    · exact ih v (len + 1) (by omega)
    · intro r hr
      simp only [List.map_cons, List.mem_cons] at hr
      rcases hr with rfl | hr
      · exact h
      · exact ih b 1 (le_refl 1) r hr

theorem runs_after_length (v : Bool) (len : Nat) (bs : List Bool) :
    1 ≤ (runs_after v len bs).length ∧ (runs_after v len bs).length ≤ 1 + bs.length := by
  induction bs generalizing v len with
  | nil => simp [runs_after]
  | cons b bs ih =>
    simp only [runs_after]
    split
    · have := ih v (len + 1); simp; omega
    · have := ih b 1; simp; omega

theorem bits_lsb_length (n x : Nat) : (bits_lsb n x).length = n := by
  induction n generalizing x with
  | zero => rfl
  | succ n ih => simp [bits_lsb, ih]

theorem emit_runs_index (rs : List Nat) (run_index : Nat) (tx_buffer : Cells) :
    (emit_runs rs run_index tx_buffer).2 = (run_index + rs.length) % 256 ∨
      (rs = [] ∧ (emit_runs rs run_index tx_buffer).2 = run_index) := by
  induction rs generalizing run_index tx_buffer with
  | nil => right; simp [emit_runs]
  | cons r rs ih =>
    left
    simp only [emit_runs]
    rcases ih ((run_index + 1) % 256) (tx_buffer_from_run r run_index tx_buffer) with h | ⟨h1, h2⟩
    · rw [h]; simp only [List.length_cons]; omega
    · rw [h2, h1]; simp

/-- The loop of `run_from_frame` followed by the last call of
`tx_buffer_from_run` emits the runs of the bits still to read. -/
theorem run_from_frame_loop_emit (n : Nat) (frame run_length : Nat) (v : Bool)
    (run_index : Nat) (tx_buffer : Cells) :
    (tx_buffer_from_run
        (run_from_frame_loop n frame run_length v.toNat run_index tx_buffer).2.2
        (run_from_frame_loop n frame run_length v.toNat run_index tx_buffer).2.1
        (run_from_frame_loop n frame run_length v.toNat run_index tx_buffer).1,
      ((run_from_frame_loop n frame run_length v.toNat run_index tx_buffer).2.1 + 1) % 256)
    = emit_runs ((runs_after v run_length (bits_lsb n (frame >>> 1))).map Prod.snd)
        run_index tx_buffer := by
  induction n generalizing frame run_length v run_index tx_buffer with
  | zero => simp [run_from_frame_loop, bits_lsb, runs_after, emit_runs]
  | succ n ih =>
    simp only [run_from_frame_loop, bits_lsb, runs_after]
    by_cases hb : (frame >>> 1).testBit 0 = v
    · have h1 : (1 &&& (frame >>> 1)) = v.toNat := by rw [one_and_eq_testBit, hb]
      simp only [h1, hb, if_true]
      exact ih (frame >>> 1) (run_length + 1) v run_index tx_buffer
    · have h1 : ¬ (1 &&& (frame >>> 1)) = v.toNat := by
        rw [one_and_eq_testBit, toNat_inj]; exact hb
      simp only [h1, hb, if_false]
      have hv : (frame >>> 1).testBit 0 = !v := by
        cases h2 : (frame >>> 1).testBit 0 <;> cases v <;> simp_all
      rw [toNat_xor_one, ← hv]
      simp only [List.map_cons, emit_runs]
      exact ih (frame >>> 1) 1 ((frame >>> 1).testBit 0) ((run_index + 1) % 256)
        (tx_buffer_from_run run_length run_index tx_buffer)

/-- The effect of `run_from_frame` is to emit the maximal runs of the frame's 11 bits. -/
theorem run_from_frame_eq_emit (frame run_index : Nat) (tx_buffer : Cells) :
    run_from_frame frame run_index tx_buffer
      = emit_runs (frame_run_lengths frame) run_index tx_buffer := by
  unfold run_from_frame frame_run_lengths frame_runs
  rw [and_one_eq_testBit]
  exact run_from_frame_loop_emit 10 frame 1 (frame.testBit 0) run_index tx_buffer

/-! ## Lemmas: bit tests -/

theorem two_pow_and (n p : Nat) : 2 ^ n &&& p = if p.testBit n then 2 ^ n else 0 := by
  apply Nat.eq_of_testBit_eq
  intro i
  rw [Nat.testBit_and, Nat.testBit_two_pow]
  by_cases h : n = i
  · subst h
    cases hp : p.testBit n <;> simp [Nat.testBit_two_pow_self]
  · cases hp : p.testBit n <;> simp [h, Nat.testBit_two_pow]

theorem and_0x100 (p : Nat) : 0x0100 &&& p = if p.testBit 8 then 256 else 0 :=
  two_pow_and 8 p

theorem and_0x400 (p : Nat) : 0x0400 &&& p = if p.testBit 10 then 1024 else 0 :=
  two_pow_and 10 p

theorem frame_of_payload_eq_spec (p : Nat) : frame_of_payload p = spec_frame p := by
  unfold frame_of_payload spec_frame
  congr 1
  have h1 : (0x03FF : Nat) = 2 ^ 10 - 1 := by norm_num
  have h2 : (65536 : Nat) = 2 ^ 16 := by norm_num
  rw [h1, h2, Nat.and_pow_two_sub_one_eq_mod, Nat.and_pow_two_sub_one_eq_mod]
  exact Nat.mod_mod_of_dvd _ (by norm_num)

theorem spec_frame_lt (p : Nat) : spec_frame p < 2048 := by
  unfold spec_frame
  have h : ((p <<< 1) &&& 0x03FF) < 2 ^ 11 :=
    Nat.and_lt_two_pow _ (by norm_num)
  exact Nat.or_lt_two_pow h (by norm_num)

theorem spec_frame_bit0 (p : Nat) : (spec_frame p).testBit 0 = false := by
  unfold spec_frame
  rw [Nat.testBit_or, Nat.testBit_and, Nat.testBit_shiftLeft]
  simp

theorem spec_frame_bit10 (p : Nat) : (spec_frame p).testBit 10 = true := by
  unfold spec_frame
  rw [Nat.testBit_or]
  have : (0x0400 : Nat).testBit 10 = true := by decide
  simp [this]

/-! ## Lemmas: datagram arrays -/

theorem getD_mid (pre : List Nat) (f : Nat) (fs : List Nat) :
    (pre ++ f :: fs).getD pre.length 0 = f := by
  rw [List.getD_append_right _ _ _ _ (le_refl _), Nat.sub_self, List.getD_cons_zero]

theorem datagram_of_mid (pre : List Nat) (f : Nat) (fs : List Nat) (rest : Cells) :
    datagram_of (pre ++ f :: fs) rest pre.length = f := by
  unfold datagram_of
  rw [if_pos (by simp), getD_mid]

theorem datagram_of_end (l : List Nat) (rest : Cells) :
    datagram_of l rest l.length = 0xFFFF := by
  simp [datagram_of]

theorem store_datagram_of (pre : List Nat) (f g : Nat) (fs : List Nat) (rest : Cells) :
    store (datagram_of (pre ++ f :: fs) rest) pre.length g
      = datagram_of (pre ++ g :: fs) rest := by
  funext j
  simp only [store, datagram_of, List.length_append, List.length_cons]
  by_cases hj : j = pre.length
  · subst hj
    rw [if_pos rfl, if_pos (by omega), getD_mid]
  · simp only [hj, if_false]
    by_cases h2 : j < pre.length + (fs.length + 1)
    · simp only [h2, if_true]
      rcases Nat.lt_or_gt_of_ne hj with h3 | h3
      · rw [List.getD_append _ _ _ _ h3, List.getD_append _ _ _ _ h3]
      · rw [List.getD_append_right _ _ _ _ (by omega), List.getD_append_right _ _ _ _ (by omega)]
        obtain ⟨k, hk⟩ : ∃ k, j - pre.length = k + 1 := ⟨j - pre.length - 1, by omega⟩
        rw [hk, List.getD_cons_succ, List.getD_cons_succ]
    · simp [h2]

/-! ## Lemmas: the loops of `send_datagram` on a well-formed array -/

theorem send_datagram_check_ok (suf pre : List Nat) (rest : Cells) (fuel : Nat)
    (hfuel : suf.length < fuel) (hlen : (pre ++ suf).length < 256)
    (hval : ∀ i, i < (pre ++ suf).length →
      (pre ++ suf).getD i 0 ≠ 0xFFFF ∧ (((pre ++ suf).getD i 0).testBit 8 = true ↔ i = 0)) :
    send_datagram_check fuel (datagram_of (pre ++ suf) rest) pre.length = some true := by
  induction suf generalizing pre fuel with
  | nil =>
    obtain ⟨fuel, rfl⟩ : ∃ k, fuel = k + 1 := ⟨fuel - 1, by omega⟩
    simp only [send_datagram_check, List.append_nil, datagram_of_end]
    simp
  | cons f fs ih =>
    obtain ⟨fuel, rfl⟩ : ∃ k, fuel = k + 1 := ⟨fuel - 1, by omega⟩
    have hf := hval pre.length (by simp)
    rw [getD_mid] at hf
    simp only [send_datagram_check, datagram_of_mid]
    have hne : f ≠ 0xFFFF := hf.1
    rw [if_pos hne, and_0x100]
    have hnext : (pre.length + 1) % 256 = (pre ++ [f]).length := by
      simp only [List.length_append, List.length_cons, List.length_nil] at hlen ⊢
      omega
    have happ : pre ++ f :: fs = (pre ++ [f]) ++ fs := by simp
    have hstep : send_datagram_check fuel (datagram_of (pre ++ [f] ++ fs) rest)
        (pre ++ [f]).length = some true := by
      apply ih
      · simp only [List.length_cons] at hfuel; omega
      · rw [← happ]; exact hlen
      · rw [← happ]; exact hval
    by_cases h0 : pre.length = 0
    · have hb : f.testBit 8 = true := hf.2.mpr h0
      rw [if_neg (by rw [hb]; simp), if_neg (fun h => h.1 h0), hnext, happ]
      exact hstep
    · have hb : f.testBit 8 = false := by
        cases h : f.testBit 8
        · rfl
        · exact absurd (hf.2.mp h) h0
      rw [if_neg (fun h => h0 h.1), if_neg (by rw [hb]; simp), hnext, happ]
      exact hstep

theorem send_datagram_frames_ok (suf pre : List Nat) (rest : Cells) (fuel : Nat)
    (hfuel : suf.length < fuel) (hlen : (pre ++ suf).length < 256)
    (hval : ∀ x ∈ suf, x ≠ 0xFFFF) :
    send_datagram_frames fuel (datagram_of (pre ++ suf) rest) pre.length
      = some (datagram_of (pre ++ suf.map frame_of_payload) rest) := by
  induction suf generalizing pre fuel with
  | nil =>
    obtain ⟨fuel, rfl⟩ : ∃ k, fuel = k + 1 := ⟨fuel - 1, by omega⟩
    simp only [send_datagram_frames, List.append_nil, datagram_of_end, List.map_nil]
    simp
  | cons f fs ih =>
    obtain ⟨fuel, rfl⟩ : ∃ k, fuel = k + 1 := ⟨fuel - 1, by omega⟩
    simp only [send_datagram_frames, datagram_of_mid]
    rw [if_pos (hval f (by simp)), store_datagram_of]
    have hnext : (pre.length + 1) % 256 = (pre ++ [frame_of_payload f]).length := by
      simp only [List.length_append, List.length_cons, List.length_nil] at hlen ⊢
      omega
    have happ : pre ++ frame_of_payload f :: fs = (pre ++ [frame_of_payload f]) ++ fs := by simp
    rw [hnext, happ, ih]
    · simp
    · simp only [List.length_cons] at hfuel; omega
    · simp only [List.length_append, List.length_cons, List.length_nil] at hlen ⊢
      omega
    · intro x hx; exact hval x (by simp [hx])

theorem emit_runs_append (a b : List Nat) (run_index : Nat) (tx_buffer : Cells) :
    emit_runs (a ++ b) run_index tx_buffer
      = emit_runs b (emit_runs a run_index tx_buffer).2 (emit_runs a run_index tx_buffer).1 := by
  induction a generalizing run_index tx_buffer with
  | nil => rfl
  | cons r rs ih => simp only [List.cons_append, emit_runs]; exact ih _ _

theorem frame_from_datagram_loop_ok (suf pre : List Nat) (rest : Cells) (fuel : Nat)
    (run_index : Nat) (tx_buffer : Cells)
    (hfuel : suf.length < fuel) (hlen : (pre ++ suf).length < 256)
    (hval : ∀ x ∈ suf, x ≠ 0xFFFF) :
    frame_from_datagram_loop fuel (datagram_of (pre ++ suf) rest) pre.length run_index tx_buffer
      = some (emit_runs (suf.map frame_run_lengths).flatten run_index tx_buffer) := by
  induction suf generalizing pre fuel run_index tx_buffer with
  | nil =>
    obtain ⟨fuel, rfl⟩ : ∃ k, fuel = k + 1 := ⟨fuel - 1, by omega⟩
    simp only [frame_from_datagram_loop, List.append_nil, datagram_of_end, List.map_nil]
    simp [emit_runs]
  | cons f fs ih =>
    obtain ⟨fuel, rfl⟩ : ∃ k, fuel = k + 1 := ⟨fuel - 1, by omega⟩
    simp only [frame_from_datagram_loop, datagram_of_mid]
    rw [if_pos (hval f (by simp))]
    have hnext : (pre.length + 1) % 256 = (pre ++ [f]).length := by
      simp only [List.length_append, List.length_cons, List.length_nil] at hlen ⊢
      omega
    have happ : pre ++ f :: fs = (pre ++ [f]) ++ fs := by simp
    rw [hnext, happ, ih]
    · rw [run_from_frame_eq_emit, List.map_cons, List.flatten_cons, emit_runs_append]
    · simp only [List.length_cons] at hfuel; omega
    · rw [← happ]; exact hlen
    · intro x hx; exact hval x (by simp [hx])

/-! ## Lemmas: what `emit_runs` leaves in the buffer -/

theorem emit_runs_cells (rs : List Nat) (run_index : Nat) (tx_buffer : Cells)
    (hri : run_index < 256) (h : run_index + rs.length ≤ 256) :
    (∀ j, (emit_runs rs run_index tx_buffer).1 j
        = if run_index ≤ j ∧ j < run_index + rs.length
          then rs.getD (j - run_index) 0 * MICROSECONDS_PER_BIT else tx_buffer j)
      ∧ (emit_runs rs run_index tx_buffer).2 = (run_index + rs.length) % 256 := by
  induction rs generalizing run_index tx_buffer with
  | nil =>
    simp only [emit_runs, List.length_nil, Nat.add_zero]
    constructor
    · intro j; rw [if_neg (by omega)]
    · omega
  | cons r rs ih =>
    simp only [emit_runs, List.length_cons] at h ⊢
    have hri : (run_index + 1) % 256 = run_index + 1 ∨ rs = [] := by
      rcases rs with _ | ⟨a, l⟩
      · right; rfl
      · left; simp only [List.length_cons] at h; omega
    rcases hri with hri | hnil
    · rw [hri]
      obtain ⟨h1, h2⟩ := ih (run_index + 1) (tx_buffer_from_run r run_index tx_buffer)
        (by omega) (by omega)
      constructor
      · intro j
        rw [h1 j]
        by_cases hj : run_index + 1 ≤ j ∧ j < run_index + 1 + rs.length
        · rw [if_pos hj, if_pos (by omega)]
          obtain ⟨k, hk⟩ : ∃ k, j - run_index = k + 1 := ⟨j - run_index - 1, by omega⟩
          rw [hk, List.getD_cons_succ]
          have : j - (run_index + 1) = k := by omega
          rw [this]
        · rw [if_neg hj]
          unfold tx_buffer_from_run store
          by_cases hj2 : j = run_index
          · subst hj2
            rw [if_pos rfl, if_pos (by omega), Nat.sub_self, List.getD_cons_zero]
          · rw [if_neg hj2, if_neg (by omega)]
      · rw [h2]; congr 1; omega
    · subst hnil
      simp only [emit_runs, List.length_nil]
      constructor
      · intro j
        unfold tx_buffer_from_run store
        by_cases hj2 : j = run_index
        · subst hj2
          rw [if_pos rfl, if_pos (by omega), Nat.sub_self, List.getD_cons_zero]
        · rw [if_neg hj2, if_neg (by omega)]
      · trivial

/-! ## Lemmas: `send_datagram` on a valid payload sequence -/

/-- The run lengths that `frame_from_datagram` emits for the payloads `P`. -/
theorem wire_runs_lengths (P : List Nat) :
    ((P.map frame_of_payload).map frame_run_lengths).flatten = (wire_runs P).map Prod.snd := by
  unfold wire_runs
  rw [List.map_flatten]
  congr 1
  simp only [List.map_map]
  apply List.map_congr_left
  intro p _
  simp only [Function.comp, frame_of_payload_eq_spec]
  rfl

theorem frame_runs_length (f : Nat) : 1 ≤ (frame_runs f).length ∧ (frame_runs f).length ≤ 11 := by
  have h := runs_after_length (f.testBit 0) 1 (bits_lsb 10 (f >>> 1))
  rw [bits_lsb_length] at h
  exact h

theorem flatten_length_le (L : List (List (Bool × Nat))) (h : ∀ l ∈ L, l.length ≤ 11) :
    L.flatten.length ≤ 11 * L.length := by
  induction L with
  | nil => simp
  | cons a L ih =>
    simp only [List.flatten_cons, List.length_append, List.length_cons]
    have h1 := h a (by simp)
    have h2 := ih (fun l hl => h l (by simp [hl]))
    omega

theorem wire_runs_length_le (P : List Nat) : (wire_runs P).length ≤ 11 * P.length := by
  unfold wire_runs
  have := flatten_length_le ((P.map spec_frame).map frame_runs) (by
    intro l hl
    simp only [List.mem_map] at hl
    obtain ⟨f, _, rfl⟩ := hl
    exact (frame_runs_length f).2)
  simpa using this

theorem wire_runs_length_pos (P : List Nat) (h : 1 ≤ P.length) : 1 ≤ (wire_runs P).length := by
  rcases P with _ | ⟨p, ps⟩
  · simp at h
  · unfold wire_runs
    simp only [List.map_cons, List.flatten_cons, List.length_append]
    have := (frame_runs_length (spec_frame p)).1
    omega

theorem valid_payloads_ne (P : List Nat) (hP : valid_payloads P) : ∀ x ∈ P, x ≠ 0xFFFF := by
  intro x hx
  obtain ⟨i, hi, rfl⟩ := List.getElem_of_mem hx
  have := (hP.2.2 i hi).1
  rw [List.getD_eq_getElem _ _ hi] at this
  omega

theorem frame_of_payload_ne (p : Nat) : frame_of_payload p ≠ 0xFFFF := by
  rw [frame_of_payload_eq_spec]
  have := spec_frame_lt p
  omega

/-- On a valid payload sequence `send_datagram` returns: the caller's array
holds the frames, the buffer holds what `emit_runs` writes for the run lengths
of the wire image, and the length field is the final run index less one. -/
theorem send_datagram_valid (s : TxState) (P : List Nat) (rest : Cells)
    (hP : valid_payloads P) :
    send_datagram s (datagram_of P rest)
      = some ({ s with
                tx_buffer := (emit_runs ((wire_runs P).map Prod.snd) 0 s.tx_buffer).1
                tx_buffer_pointer_max :=
                  ((emit_runs ((wire_runs P).map Prod.snd) 0 s.tx_buffer).2 + 255) % 256 },
              datagram_of (P.map frame_of_payload) rest) := by
  have hlen : ([] ++ P).length < 256 := by
    have := hP.2.1
    simp only [List.nil_append]; omega
  have h1 := send_datagram_check_ok P [] rest 256 (by have := hP.2.1; omega) hlen
    (by
      intro i hi
      simp only [List.nil_append] at hi ⊢
      have := hP.2.2 i hi
      exact ⟨by omega, this.2⟩)
  have h2 := send_datagram_frames_ok P [] rest 256 (by have := hP.2.1; omega) hlen
    (valid_payloads_ne P hP)
  have h3 := frame_from_datagram_loop_ok (P.map frame_of_payload) [] rest 256 0 s.tx_buffer
    (by have := hP.2.1; simp only [List.length_map]; omega)
    (by simpa using hlen)
    (by
      intro x hx
      simp only [List.mem_map] at hx
      obtain ⟨p, _, rfl⟩ := hx
      exact frame_of_payload_ne p)
  simp only [List.nil_append, List.length_nil] at h1 h2 h3
  unfold send_datagram
  rw [h1]
  simp only []
  rw [h2]
  simp only [frame_from_datagram]
  rw [h3, wire_runs_lengths]

theorem range_map_eq_of_cells (f : Nat → Nat) (l : List Nat) (g : Nat → Nat)
    (h : ∀ j, j < l.length → f j = g (l.getD j 0)) :
    (List.range l.length).map f = l.map g := by
  apply List.ext_getElem
  · simp
  · intro n h1 h2
    simp only [List.getElem_map, List.getElem_range]
    have hn : n < l.length := by simpa using h1
    rw [h n hn, List.getD_eq_getElem _ _ hn]

/-- The buffer and the length field after `send_datagram` on a valid payload
sequence, cell by cell. -/
theorem send_datagram_cells (s : TxState) (P : List Nat) (rest : Cells)
    (hP : valid_payloads P) :
    ∃ s', send_datagram s (datagram_of P rest)
          = some (s', datagram_of (P.map frame_of_payload) rest)
      ∧ (∀ j, s'.tx_buffer j
          = if j < (wire_runs P).length
            then ((wire_runs P).map Prod.snd).getD j 0 * MICROSECONDS_PER_BIT
            else s.tx_buffer j)
      ∧ s'.tx_buffer_pointer_max = (wire_runs P).length - 1 := by
  have hm1 := wire_runs_length_le P
  have hm0 := wire_runs_length_pos P hP.1
  have hP11 := hP.2.1
  obtain ⟨hc, hi⟩ := emit_runs_cells ((wire_runs P).map Prod.snd) 0 s.tx_buffer (by omega)
    (by simp only [List.length_map]; omega)
  refine ⟨_, send_datagram_valid s P rest hP, ?_, ?_⟩
  · intro j
    simp only []
    rw [hc j]
    simp only [List.length_map, Nat.zero_add, Nat.sub_zero, Nat.zero_le, true_and]
  · simp only []
    rw [hi]
    simp only [List.length_map, Nat.zero_add]
    omega

/-! ## Lemmas: the first and the last run -/

theorem runs_after_head (v : Bool) (len : Nat) (bs : List Bool) :
    ∃ r tl, runs_after v len bs = (v, r) :: tl := by
  induction bs generalizing len with
  | nil => exact ⟨len, [], rfl⟩
  | cons b bs ih =>
    simp only [runs_after]
    split
    · exact ih (len + 1)
    · exact ⟨len, _, rfl⟩

theorem runs_after_last (v : Bool) (len : Nat) (bs : List Bool) :
    ∃ r, (runs_after v len bs).getLast? = some (bs.getLast?.getD v, r) := by
  induction bs generalizing v len with
  | nil => exact ⟨len, rfl⟩
  | cons b bs ih =>
    simp only [runs_after]
    split
    · rename_i hb
      obtain ⟨r, hr⟩ := ih v (len + 1)
      refine ⟨r, ?_⟩
      rw [hr, List.getLast?_cons, hb]
      simp
    · obtain ⟨r, hr⟩ := ih b 1
      obtain ⟨r0, tl, h0⟩ := runs_after_head b 1 bs
      refine ⟨r, ?_⟩
      rw [h0, List.getLast?_cons_cons, ← h0, hr, List.getLast?_cons]
      simp

theorem bits_lsb_getLast (n x : Nat) : (bits_lsb (n + 1) x).getLast? = some (x.testBit n) := by
  induction n generalizing x with
  | zero => simp [bits_lsb]
  | succ n ih =>
    have h : bits_lsb (n + 1 + 1) x = x.testBit 0 :: bits_lsb (n + 1) (x >>> 1) := rfl
    rw [h, List.getLast?_cons, ih, Nat.testBit_shiftRight]
    simp [Nat.add_comm]

theorem frame_runs_head (f : Nat) : ∃ r tl, frame_runs f = (f.testBit 0, r) :: tl :=
  runs_after_head (f.testBit 0) 1 (bits_lsb 10 (f >>> 1))

theorem frame_runs_last (f : Nat) : ∃ r, (frame_runs f).getLast? = some (f.testBit 10, r) := by
  obtain ⟨r, hr⟩ := runs_after_last (f.testBit 0) 1 (bits_lsb 10 (f >>> 1))
  refine ⟨r, ?_⟩
  have h : frame_runs f = runs_after (f.testBit 0) 1 (bits_lsb 10 (f >>> 1)) := rfl
  rw [h, hr, bits_lsb_getLast, Nat.testBit_shiftRight]
  simp

theorem wire_runs_head (P : List Nat) (h : 1 ≤ P.length) :
    ∃ r, (wire_runs P).head? = some (false, r) := by
  rcases P with _ | ⟨p, ps⟩
  · simp at h
  · obtain ⟨r, tl, hr⟩ := frame_runs_head (spec_frame p)
    refine ⟨r, ?_⟩
    unfold wire_runs
    rw [List.map_cons, List.map_cons, List.flatten_cons, hr, spec_frame_bit0]
    rfl

theorem wire_runs_last (P : List Nat) (h : 1 ≤ P.length) :
    ∃ r, (wire_runs P).getLast? = some (true, r) := by
  have hne : P ≠ [] := by
    intro h0; rw [h0] at h; simp at h
  obtain ⟨r, hr⟩ := frame_runs_last (spec_frame (P.getLast hne))
  refine ⟨r, ?_⟩
  have hP : P = P.dropLast ++ [P.getLast hne] := (List.dropLast_append_getLast hne).symm
  unfold wire_runs
  rw [hP, List.map_append, List.map_append, List.flatten_append, List.getLast?_append]
  simp only [List.map_cons, List.map_nil, List.flatten_cons, List.flatten_nil, List.append_nil]
  rw [hr, spec_frame_bit10]
  rfl

theorem frame_runs_two (p : Nat) : 2 ≤ (frame_runs (spec_frame p)).length := by
  obtain ⟨r, tl, hr⟩ := frame_runs_head (spec_frame p)
  obtain ⟨r', hl⟩ := frame_runs_last (spec_frame p)
  rw [spec_frame_bit0] at hr
  rw [spec_frame_bit10, hr] at hl
  rcases tl with _ | ⟨a, tl⟩
  · simp at hl
  · rw [hr]; simp

theorem wire_runs_length_two (P : List Nat) (h : 1 ≤ P.length) : 2 ≤ (wire_runs P).length := by
  rcases P with _ | ⟨p, ps⟩
  · simp at h
  · unfold wire_runs
    simp only [List.map_cons, List.flatten_cons, List.length_append]
    have := frame_runs_two p
    omega

/-! ## Lemmas: `OCR2A_ISR` -/

theorem and_clear_mask (p : Nat) : p &&& (255 - tx_bit_mask) &&& tx_bit_mask = 0 := by
  rw [Nat.and_assoc]
  have h : (255 - tx_bit_mask) &&& tx_bit_mask = 0 := by decide
  rw [h, Nat.and_zero]

theorem or_set_mask (p : Nat) : (p ||| tx_bit_mask) &&& tx_bit_mask = tx_bit_mask := by
  rw [Nat.and_distrib_right, Nat.and_self]
  have h : p &&& tx_bit_mask = if p.testBit 5 then 2 ^ 5 else 0 := by
    rw [Nat.and_comm]; exact two_pow_and 5 p
  rw [h]
  split <;> rfl

theorem bus_level_clear (p : Nat) : bus_level (p &&& (255 - tx_bit_mask)) = 1 := by
  unfold bus_level
  rw [and_clear_mask, if_pos rfl]

theorem bus_level_set (p : Nat) : bus_level (p ||| tx_bit_mask) = 0 := by
  unfold bus_level
  rw [or_set_mask, if_neg (by decide)]

/-- One firing of `OCR2A_ISR` with data to send, field by field. -/
theorem OCR2A_ISR_busy (t : TxState) (h : ¬ t.tx_buffer_pointer_max = 0) :
    (OCR2A_ISR t).tx_buffer = t.tx_buffer
      ∧ (OCR2A_ISR t).tx_buffer_pointer = (t.tx_buffer_pointer + 1) % 256
      ∧ (OCR2A_ISR t).tx_buffer_pointer_max
          = (if (t.tx_buffer_pointer + 1) % 256 ≥ t.tx_buffer_pointer_max then 0
             else t.tx_buffer_pointer_max)
      ∧ (OCR2A_ISR t).OCR2A = ((t.tx_buffer t.tx_buffer_pointer >>> 4) + 256 - 1) % 256
      ∧ (OCR2A_ISR t).tx_port
          = (if (t.tx_buffer_pointer &&& 0x01) ≠ 0 then t.tx_port &&& (255 - tx_bit_mask)
             else t.tx_port ||| tx_bit_mask)
      ∧ (OCR2A_ISR t).this_run_duration = t.tx_buffer t.tx_buffer_pointer := by
  unfold OCR2A_ISR
  rw [if_neg h]
  exact ⟨rfl, rfl, rfl, rfl, rfl, rfl⟩

/-- One firing of `OCR2A_ISR` with nothing to send, field by field. -/
theorem OCR2A_ISR_idle (t : TxState) (h : t.tx_buffer_pointer_max = 0) :
    (OCR2A_ISR t).tx_buffer = t.tx_buffer
      ∧ (OCR2A_ISR t).tx_buffer_pointer = 0
      ∧ (OCR2A_ISR t).tx_buffer_pointer_max = 0
      ∧ (OCR2A_ISR t).OCR2A = TICKS_PER_FRAME
      ∧ (OCR2A_ISR t).tx_port = t.tx_port &&& (255 - tx_bit_mask) := by
  unfold OCR2A_ISR
  rw [if_pos h]
  exact ⟨rfl, rfl, h, rfl, rfl⟩

/-- While the buffer drains, the state before firing `i` has the cursor at `i`,
the length field still `L`, and the buffer as at the start. -/
theorem OCR2A_ISR_draining (s : TxState) (L : Nat) (hL : L ≤ 63)
    (hc : s.tx_buffer_pointer = 0) (hmax : s.tx_buffer_pointer_max = L) (i : Nat) (hi : i < L) :
    (OCR2A_ISR^[i] s).tx_buffer_pointer = i
      ∧ (OCR2A_ISR^[i] s).tx_buffer_pointer_max = L
      ∧ (OCR2A_ISR^[i] s).tx_buffer = s.tx_buffer := by
  induction i with
  | zero => exact ⟨hc, hmax, rfl⟩
  | succ i ih =>
    obtain ⟨h1, h2, h3⟩ := ih (by omega)
    rw [Function.iterate_succ_apply']
    have hne : ¬ (OCR2A_ISR^[i] s).tx_buffer_pointer_max = 0 := by omega
    obtain ⟨b1, b2, b3, _⟩ := OCR2A_ISR_busy _ hne
    rw [b1, b2, b3, h1, h2, h3]
    refine ⟨by omega, ?_, rfl⟩
    rw [if_neg (by omega)]

/-! ## Lemmas: `PCINT_ISR` -/

/-- The duration that `PCINT_ISR` computes for the run that just ended. -/
theorem previous_run_duration_le (micros prev : Nat) :
    min MICROSECONDS_PER_FRAME ((micros % 4294967296 + 4294967296 - prev) % 4294967296)
      ≤ MICROSECONDS_PER_FRAME := Nat.min_le_left _ _

theorem rx_shape_init (rx_buffer : Cells) : rx_shape (rx_init rx_buffer) := by
  constructor
  · intro h; simp [rx_init] at h
  · intro h; simp [rx_init] at h

theorem store_same (m : Cells) (i v : Nat) : store m i v i = v := by
  simp [store]

theorem store_other (m : Cells) (i v j : Nat) (h : j ≠ i) : store m i v j = m j := by
  simp [store, h]

theorem rx_shape_PCINT_ISR (micros : Nat) (s : RxState) (h : rx_shape s) :
    rx_shape (PCINT_ISR micros s) := by
  obtain ⟨hcap, hpub⟩ := h
  have hd := previous_run_duration_le micros s.previous_run_start_time
  unfold PCINT_ISR
  simp only []
  generalize min MICROSECONDS_PER_FRAME
    ((micros % 4294967296 + 4294967296 - s.previous_run_start_time) % 4294967296) = d at hd
  by_cases hidle : d = MICROSECONDS_PER_FRAME
  · rw [if_pos hidle]
    by_cases hc : s.capturing = true
    · rw [if_pos hc]
      obtain ⟨_, hlt⟩ := hcap hc
      refine ⟨fun h => by simp at h, fun hne => ⟨rfl, store_same _ _ _, rfl, ?_⟩⟩
      intro i hi
      simp only [] at hi ⊢
      rw [store_other _ _ _ _ (by omega)]
      exact hlt i hi
    · rw [if_neg hc]
      by_cases hz : s.rx_buffer_pointer_max = 0
      · rw [if_pos hz]
        refine ⟨fun _ => ⟨hz, fun i hi => by simp at hi⟩, fun hne => absurd hz hne⟩
      · rw [if_neg hz]
        exact ⟨fun h => absurd h hc, fun _ => hpub hz⟩
  · rw [if_neg hidle]
    by_cases hc : s.capturing = true
    · rw [if_pos hc]
      obtain ⟨hz, hlt⟩ := hcap hc
      by_cases hfull : s.rx_buffer_pointer < SUP_BUFFER_SIZE - 1
      · rw [if_pos hfull]
        refine ⟨fun _ => ⟨hz, ?_⟩, fun hne => absurd hz hne⟩
        intro i hi
        simp only [] at hi ⊢
        by_cases hi2 : i = s.rx_buffer_pointer
        · rw [hi2, store_same]; omega
        · rw [store_other _ _ _ _ hi2]; exact hlt i (by omega)
      · rw [if_neg hfull]
        refine ⟨fun h => by simp at h, fun hne => ⟨rfl, store_same _ _ _, rfl, ?_⟩⟩
        intro i hi
        simp only [] at hi ⊢
        rw [store_other _ _ _ _ (by omega), store_other _ _ _ _ (by omega)]
        exact hlt i hi
    · rw [if_neg hc]
      exact ⟨fun h => absurd h hc, hpub⟩

theorem rx_shape_step (s : RxState) (e : RxEvent) (h : rx_shape s) : rx_shape (rx_step s e) := by
  cases e with
  | edge micros => exact rx_shape_PCINT_ISR micros s h
  | consume =>
    refine ⟨fun hc => ⟨rfl, (h.1 hc).2⟩, fun hne => absurd rfl hne⟩

theorem rx_shape_run (s : RxState) (es : List RxEvent) (h : rx_shape s) :
    rx_shape (rx_run s es) := by
  induction es generalizing s with
  | nil => exact h
  | cons e es ih => exact ih (rx_step s e) (rx_shape_step s e h)

theorem rx_edges_append (s : RxState) (ts : List Nat) (t : Nat) :
    rx_edges s (ts ++ [t]) = PCINT_ISR t (rx_edges s ts) := by
  simp [rx_edges, List.foldl_append]

/-- A step of `PCINT_ISR` that ends the capture publishes the cursor. -/
theorem PCINT_ISR_finalize (micros : Nat) (s : RxState) (hc : s.capturing = true)
    (hf : (PCINT_ISR micros s).capturing = false) :
    (PCINT_ISR micros s).rx_buffer_pointer_max = s.rx_buffer_pointer := by
  unfold PCINT_ISR at hf ⊢
  simp only [] at hf ⊢
  generalize min MICROSECONDS_PER_FRAME
    ((micros % 4294967296 + 4294967296 - s.previous_run_start_time) % 4294967296) = d at hf ⊢
  by_cases hidle : d = MICROSECONDS_PER_FRAME
  · rw [if_pos hidle, if_pos hc]
  · rw [if_neg hidle, if_pos hc] at hf ⊢
    by_cases hfull : s.rx_buffer_pointer < SUP_BUFFER_SIZE - 1
    · rw [if_pos hfull] at hf
      simp only [] at hf
      rw [hc] at hf
      exact absurd hf (by simp)
    · rw [if_neg hfull]

/-- A step of `PCINT_ISR` that leaves the engine capturing either began the
capture, with the cursor at 0, or appended a run, with the cursor above 0. -/
theorem PCINT_ISR_capturing (micros : Nat) (s : RxState)
    (h : (PCINT_ISR micros s).capturing = true) :
    (s.capturing = false ∧ (PCINT_ISR micros s).rx_buffer_pointer = 0)
      ∨ (s.capturing = true ∧ (PCINT_ISR micros s).rx_buffer_pointer ≠ 0) := by
  unfold PCINT_ISR at h ⊢
  simp only [] at h ⊢
  generalize min MICROSECONDS_PER_FRAME
    ((micros % 4294967296 + 4294967296 - s.previous_run_start_time) % 4294967296) = d at h ⊢
  by_cases hc : s.capturing = true
  · right
    refine ⟨hc, ?_⟩
    by_cases hidle : d = MICROSECONDS_PER_FRAME
    · rw [if_pos hidle, if_pos hc] at h
      exact absurd h (by simp)
    · rw [if_neg hidle, if_pos hc] at h ⊢
      by_cases hfull : s.rx_buffer_pointer < SUP_BUFFER_SIZE - 1
      · rw [if_pos hfull]
        exact Nat.succ_ne_zero _
      · rw [if_neg hfull] at h
        exact absurd h (by simp)
  · left
    refine ⟨by simpa using hc, ?_⟩
    by_cases hidle : d = MICROSECONDS_PER_FRAME
    · rw [if_pos hidle, if_neg hc] at h ⊢
      by_cases hz : s.rx_buffer_pointer_max = 0
      · rw [if_pos hz]
      · rw [if_neg hz] at h
        exact absurd h hc
    · rw [if_neg hidle, if_neg hc] at h
      exact absurd h hc

/-! ## Lemmas: `frame_from_run`, `datagram_from_frame` -/

theorem frame_from_run_shift_lt (n run_value frame : Nat) (hf : frame < 4096)
    (hv : run_value = 0 ∨ run_value = 4096) : frame_from_run_shift n run_value frame < 4096 := by
  induction n generalizing frame with
  | zero => exact hf
  | succ n ih =>
    simp only [frame_from_run_shift]
    apply ih
    have h1 : frame ||| run_value < 2 ^ 13 := by
      apply Nat.or_lt_two_pow
      · omega
      · rcases hv with h | h <;> rw [h] <;> norm_num
    rw [Nat.shiftRight_eq_div_pow]
    omega

theorem run_value_toggle (run_value : Nat) (hv : run_value = 0 ∨ run_value = 4096) :
    run_value ^^^ (1 <<< (BITS_PER_FRAME + 1)) = 0
      ∨ run_value ^^^ (1 <<< (BITS_PER_FRAME + 1)) = 4096 := by
  rcases hv with h | h <;> rw [h]
  · right; rfl
  · left; rfl

theorem frame_from_run_loop_lt (fuel : Nat) (rx_buffer : Cells)
    (bit_index run_value frame run_index : Nat) (hf : frame < 4096)
    (hv : run_value = 0 ∨ run_value = 4096) (f r : Nat)
    (h : frame_from_run_loop fuel rx_buffer bit_index run_value frame run_index = some (f, r)) :
    f < 4096 := by
  induction fuel generalizing bit_index run_value frame run_index with
  | zero => simp [frame_from_run_loop] at h
  | succ fuel ih =>
    simp only [frame_from_run_loop] at h
    have hs := frame_from_run_shift_lt
      (min (run_from_rx_buffer run_index rx_buffer) (BITS_PER_FRAME - bit_index))
      run_value frame hf hv
    split at h
    · exact ih _ _ _ _ hs (run_value_toggle run_value hv) h
    · simp only [Option.some.injEq, Prod.mk.injEq] at h
      rw [← h.1]; exact hs

theorem frame_from_run_lt (run_index run_index_max : Nat) (rx_buffer : Cells) (f r : Nat)
    (h : frame_from_run run_index run_index_max rx_buffer = some (f, r)) : f < 2048 := by
  unfold frame_from_run at h
  cases hl : frame_from_run_loop frame_from_run_fuel rx_buffer 0 0 0 run_index with
  | none => rw [hl] at h; simp at h
  | some res =>
    obtain ⟨f0, r0⟩ := res
    rw [hl] at h
    simp only [Option.some.injEq, Prod.mk.injEq] at h
    have := frame_from_run_loop_lt _ _ _ _ _ _ (by norm_num) (Or.inl rfl) f0 r0 hl
    rw [← h.1, Nat.shiftRight_eq_div_pow]
    omega

/-- What `datagram_from_frame` leaves in the array when it returns: frames,
each below 0x0800, in the cells `frame_index .. n-1`, and the terminator in
cell `n`. -/
theorem datagram_from_frame_loop_shape (fuel : Nat) (rx_buffer : Cells)
    (run_index_max : Nat) (rx_datagram : Cells) (frame_index run_index : Nat) (out : Cells)
    (h : datagram_from_frame_loop fuel rx_buffer run_index_max rx_datagram frame_index run_index
      = some out) :
    ∃ n, frame_index < n ∧ n ≤ max (frame_index + 1) 11 ∧ out n = 0xFFFF
      ∧ (∀ i, frame_index ≤ i → i < n → out i < 2048)
      ∧ (∀ i, (i < frame_index ∨ n < i) → out i = rx_datagram i) := by
  induction fuel generalizing rx_datagram frame_index run_index with
  | zero => simp [datagram_from_frame_loop] at h
  | succ fuel ih =>
    simp only [datagram_from_frame_loop] at h
    cases hfr : frame_from_run run_index run_index_max rx_buffer with
    | none => rw [hfr] at h; simp at h
    | some res =>
      obtain ⟨f, r⟩ := res
      have hf := frame_from_run_lt _ _ _ f r hfr
      rw [hfr] at h
      simp only [] at h
      split at h
      · rename_i hcond
        obtain ⟨n, h1, h2, h3, h4, h5⟩ := ih _ _ _ h
        have h11 : frame_index + 1 < 11 := hcond.2
        refine ⟨n, by omega, by omega, h3, ?_, ?_⟩
        · intro i hi1 hi2
          by_cases hi : i = frame_index
          · rw [hi, h5 frame_index (Or.inl (by omega)), store_same]; exact hf
          · exact h4 i (by omega) hi2
        · intro i hi
          rw [h5 i (by omega), store_other _ _ _ _ (by omega)]
      · simp only [Option.some.injEq] at h
        subst h
        refine ⟨frame_index + 1, by omega, by omega, store_same _ _ _, ?_, ?_⟩
        · intro i hi1 hi2
          have hi : i = frame_index := by omega
          rw [hi, store_other _ _ _ _ (by omega), store_same]; exact hf
        · intro i hi
          rw [store_other _ _ _ _ (by omega), store_other _ _ _ _ (by omega)]

/-! ## Lemmas: the loops of `load_datagram` -/

theorem load_datagram_check_clean (k : Nat) (F : Cells) (n i fuel : Nat)
    (hk : i + k = n) (hfuel : k < fuel) (hn : n < 256)
    (hne : ∀ j, i ≤ j → j < n → F j ≠ 0xFFFF) (hend : F n = 0xFFFF)
    (hok : ∀ j, i ≤ j → j < n → ¬ ((0x0001 &&& F j) ≠ 0 ∨ (0x0400 &&& F j) = 0)) :
    load_datagram_check fuel F i = some (false, F) := by
  induction k generalizing i fuel with
  | zero =>
    obtain ⟨fuel, rfl⟩ : ∃ m, fuel = m + 1 := ⟨fuel - 1, by omega⟩
    have : i = n := by omega
    subst this
    simp only [load_datagram_check]
    rw [if_neg (by simp [hend])]
  | succ k ih =>
    obtain ⟨fuel, rfl⟩ : ∃ m, fuel = m + 1 := ⟨fuel - 1, by omega⟩
    simp only [load_datagram_check]
    rw [if_pos (hne i (le_refl _) (by omega)), if_neg (hok i (le_refl _) (by omega))]
    have hi : (i + 1) % 256 = i + 1 := by omega
    rw [hi]
    exact ih (i + 1) fuel (by omega) (by omega) (fun j h1 h2 => hne j (by omega) h2)
      (fun j h1 h2 => hok j (by omega) h2)

theorem load_datagram_check_bad (k : Nat) (F : Cells) (n i fuel : Nat)
    (hk : i + k = n) (hfuel : k < fuel) (hn : n < 256)
    (hne : ∀ j, i ≤ j → j < n → F j ≠ 0xFFFF)
    (hbad : ∃ j, i ≤ j ∧ j < n ∧ ((0x0001 &&& F j) ≠ 0 ∨ (0x0400 &&& F j) = 0)) :
    load_datagram_check fuel F i = some (true, store F 0 0xFFFF) := by
  induction k generalizing i fuel with
  | zero =>
    obtain ⟨j, h1, h2, _⟩ := hbad
    omega
  | succ k ih =>
    obtain ⟨fuel, rfl⟩ : ∃ m, fuel = m + 1 := ⟨fuel - 1, by omega⟩
    simp only [load_datagram_check]
    rw [if_pos (hne i (le_refl _) (by omega))]
    by_cases hb : (0x0001 &&& F i) ≠ 0 ∨ (0x0400 &&& F i) = 0
    · rw [if_pos hb]
    · rw [if_neg hb]
      have hi : (i + 1) % 256 = i + 1 := by omega
      rw [hi]
      apply ih (i + 1) fuel (by omega) (by omega) (fun j h1 h2 => hne j (by omega) h2)
      obtain ⟨j, h1, h2, h3⟩ := hbad
      refine ⟨j, ?_, h2, h3⟩
      rcases Nat.eq_or_lt_of_le h1 with h | h
      · subst h; exact absurd h3 hb
      · exact h

theorem load_datagram_payloads_ok (k : Nat) (F : Cells) (n i fuel : Nat)
    (hk : i + k = n) (hfuel : k < fuel) (hn : n < 256)
    (hne : ∀ j, i ≤ j → j < n → F j ≠ 0xFFFF) (hend : F n = 0xFFFF) :
    load_datagram_payloads fuel F i
      = some (fun j => if i ≤ j ∧ j < n then payload_of_frame (F j) else F j) := by
  induction k generalizing F i fuel with
  | zero =>
    obtain ⟨fuel, rfl⟩ : ∃ m, fuel = m + 1 := ⟨fuel - 1, by omega⟩
    have : i = n := by omega
    subst this
    simp only [load_datagram_payloads]
    rw [if_neg (by simp [hend])]
    congr 1
    funext j
    rw [if_neg (by omega)]
  | succ k ih =>
    obtain ⟨fuel, rfl⟩ : ∃ m, fuel = m + 1 := ⟨fuel - 1, by omega⟩
    simp only [load_datagram_payloads]
    rw [if_pos (hne i (le_refl _) (by omega))]
    have hi : (i + 1) % 256 = i + 1 := by omega
    rw [hi, ih (store F i (payload_of_frame (F i))) (i + 1) fuel (by omega) (by omega)
      (fun j h1 h2 => by rw [store_other _ _ _ _ (by omega)]; exact hne j (by omega) h2)
      (by rw [store_other _ _ _ _ (by omega)]; exact hend)]
    congr 1
    funext j
    by_cases hj : j = i
    · subst hj
      rw [if_neg (by omega), if_pos (by omega), store_same]
    · rw [store_other _ _ _ _ hj]
      by_cases hj2 : i + 1 ≤ j ∧ j < n
      · rw [if_pos hj2, if_pos (by omega)]
      · rw [if_neg hj2, if_neg (by omega)]

theorem payload_of_frame_lt (f : Nat) : payload_of_frame f < 512 := by
  unfold payload_of_frame
  exact Nat.and_lt_two_pow _ (by norm_num : (0x01FF : Nat) < 2 ^ 9)

/-! ## Lemmas: decoding a finalized buffer returns -/

theorem run_from_rx_buffer_cap (L : Nat) (rx_buffer : Cells)
    (h : rx_buffer L = MICROSECONDS_PER_FRAME) : run_from_rx_buffer L rx_buffer = 11 := by
  unfold run_from_rx_buffer
  rw [h]
  rfl

theorem frame_from_run_loop_returns (rx_buffer : Cells) (L : Nat) (hL : L < 256)
    (hT : rx_buffer L = MICROSECONDS_PER_FRAME) (k : Nat) :
    ∀ fuel run_index bit_index run_value frame, run_index + k = L → k < fuel →
      bit_index < 11 →
      ∃ res, frame_from_run_loop fuel rx_buffer bit_index run_value frame run_index = some res := by
  induction k with
  | zero =>
    intro fuel run_index bit_index run_value frame hk hfuel hb
    obtain ⟨fuel, rfl⟩ : ∃ m, fuel = m + 1 := ⟨fuel - 1, by omega⟩
    have : run_index = L := by omega
    subst this
    simp only [frame_from_run_loop, run_from_rx_buffer_cap run_index rx_buffer hT,
      BITS_PER_FRAME]
    rw [if_neg (by omega)]
    exact ⟨_, rfl⟩
  | succ k ih =>
    intro fuel run_index bit_index run_value frame hk hfuel hb
    obtain ⟨fuel, rfl⟩ : ∃ m, fuel = m + 1 := ⟨fuel - 1, by omega⟩
    simp only [frame_from_run_loop]
    split
    · rename_i hlt
      have hi : (run_index + 1) % 256 = run_index + 1 := by omega
      rw [hi]
      exact ih fuel (run_index + 1) _ _ _ (by omega) (by omega) hlt
    · exact ⟨_, rfl⟩

theorem frame_from_run_returns (rx_buffer : Cells) (L : Nat) (hL : L < 256)
    (hT : rx_buffer L = MICROSECONDS_PER_FRAME) (run_index run_index_max : Nat)
    (hr : run_index ≤ L) :
    ∃ res, frame_from_run run_index run_index_max rx_buffer = some res := by
  obtain ⟨⟨f, r⟩, h⟩ := frame_from_run_loop_returns rx_buffer L hL hT (L - run_index)
    frame_from_run_fuel run_index 0 0 0 (by omega) (by unfold frame_from_run_fuel; omega)
    (by omega)
  unfold frame_from_run
  rw [h]
  exact ⟨_, rfl⟩

theorem datagram_from_frame_loop_returns (rx_buffer : Cells) (L : Nat) (hL : L < 256)
    (hT : rx_buffer L = MICROSECONDS_PER_FRAME) (fuel : Nat) :
    ∀ rx_datagram frame_index run_index, fuel + frame_index = 11 → frame_index < 11 →
      run_index ≤ L →
      ∃ out, datagram_from_frame_loop fuel rx_buffer L rx_datagram frame_index run_index
        = some out := by
  induction fuel with
  | zero => intro _ frame_index _ h1 h2 _; omega
  | succ fuel ih =>
    intro rx_datagram frame_index run_index h1 h2 hr
    obtain ⟨⟨f, r⟩, h⟩ := frame_from_run_returns rx_buffer L hL hT run_index L hr
    simp only [datagram_from_frame_loop, h]
    split
    · rename_i hcond
      exact ih _ _ _ (by omega) hcond.2 (by omega)
    · exact ⟨_, rfl⟩

/-! ## Lemmas: shared by the theorems on `PCINT_ISR` and `load_datagram` -/

/-- `PCINT_ISR` keeps the cursor at or below `SUP_BUFFER_SIZE - 1`, publishes
only such lengths, and writes the buffer at the cursor only. -/
theorem PCINT_ISR_bounds (micros : Nat) (s : RxState)
    (hc : s.rx_buffer_pointer ≤ 63) (hl : s.rx_buffer_pointer_max ≤ 63) :
    (PCINT_ISR micros s).rx_buffer_pointer ≤ 63
      ∧ (PCINT_ISR micros s).rx_buffer_pointer_max ≤ 63
      ∧ ∀ j, j ≠ s.rx_buffer_pointer → (PCINT_ISR micros s).rx_buffer j = s.rx_buffer j := by
  unfold PCINT_ISR
  simp only []
  generalize min MICROSECONDS_PER_FRAME
    ((micros % 4294967296 + 4294967296 - s.previous_run_start_time) % 4294967296) = d
  by_cases hidle : d = MICROSECONDS_PER_FRAME
  · rw [if_pos hidle]
    by_cases hcap : s.capturing = true
    · rw [if_pos hcap]
      exact ⟨hc, hc, fun j hj => store_other _ _ _ _ hj⟩
    · rw [if_neg hcap]
      by_cases hz : s.rx_buffer_pointer_max = 0
      · rw [if_pos hz]
        exact ⟨Nat.zero_le _, hl, fun _ _ => rfl⟩
      · rw [if_neg hz]
        exact ⟨hc, hl, fun _ _ => rfl⟩
  · rw [if_neg hidle]
    by_cases hcap : s.capturing = true
    · rw [if_pos hcap]
      by_cases hfull : s.rx_buffer_pointer < SUP_BUFFER_SIZE - 1
      · rw [if_pos hfull]
        refine ⟨?_, hl, fun j hj => store_other _ _ _ _ hj⟩
        have : SUP_BUFFER_SIZE - 1 = 63 := rfl
        simp only []
        omega
      · rw [if_neg hfull]
        refine ⟨hc, hc, fun j hj => ?_⟩
        simp only []
        rw [store_other _ _ _ _ hj, store_other _ _ _ _ hj]
    · rw [if_neg hcap]
      exact ⟨hc, hl, fun _ _ => rfl⟩

theorem rx_run_bounds (s : RxState) (es : List RxEvent)
    (hc : s.rx_buffer_pointer ≤ 63) (hl : s.rx_buffer_pointer_max ≤ 63) :
    (rx_run s es).rx_buffer_pointer ≤ 63 ∧ (rx_run s es).rx_buffer_pointer_max ≤ 63 := by
  induction es generalizing s with
  | nil => exact ⟨hc, hl⟩
  | cons e es ih =>
    cases e with
    | edge micros =>
      have h := PCINT_ISR_bounds micros s hc hl
      exact ih (PCINT_ISR micros s) h.1 h.2.1
    | consume =>
      exact ih { s with rx_buffer_pointer_max := 0 } hc (Nat.zero_le _)

/-- When `load_datagram` returns from a nonzero length, the receive state it
returns is the one it was given with the length reset to 0. -/
theorem load_datagram_state (s : RxState) (rx_datagram : Cells) (res : RxState × Cells)
    (hlen : s.rx_buffer_pointer_max ≠ 0) (h : load_datagram s rx_datagram = some res) :
    res.1 = { s with rx_buffer_pointer_max := 0 } := by
  unfold load_datagram at h
  simp only [] at h
  rw [if_neg hlen] at h
  cases hd : datagram_from_frame s.rx_buffer rx_datagram s.rx_buffer_pointer_max with
  | none => rw [hd] at h; simp at h
  | some frames =>
    rw [hd] at h
    simp only [] at h
    cases hchk : load_datagram_check 256 frames 0 with
    | none => rw [hchk] at h; simp at h
    | some r =>
      obtain ⟨c, d⟩ := r
      rw [hchk] at h
      cases c with
      | true =>
        simp only [Option.some.injEq] at h
        rw [← h]
      | false =>
        simp only [] at h
        cases hp : load_datagram_payloads 256 d 0 with
        | none => rw [hp] at h; simp at h
        | some payloads =>
          rw [hp] at h
          simp only [Option.some.injEq] at h
          rw [← h]

/-- The result of `load_datagram` in terms of the frames that
`datagram_from_frame` reconstructs. -/
theorem load_datagram_of_frames (s : RxState) (rx_datagram : Cells)
    (hlen : s.rx_buffer_pointer_max ≠ 0) :
    ∀ frames, datagram_from_frame s.rx_buffer rx_datagram s.rx_buffer_pointer_max
          = some frames →
        ∃ n d, 1 ≤ n ∧ n ≤ 11 ∧ (∀ i, i < n → frames i < 2048) ∧ frames n = 0xFFFF
          ∧ load_datagram s rx_datagram = some ({ s with rx_buffer_pointer_max := 0 }, d)
          ∧ (d 0 = 0xFFFF ↔
              ∃ i, i < n ∧ ((frames i).testBit 0 = true ∨ (frames i).testBit 10 = false))
          ∧ ((¬ ∃ i, i < n ∧ ((frames i).testBit 0 = true ∨ (frames i).testBit 10 = false)) →
              (∀ i, i < n → d i = (frames i >>> 1) &&& 0x01FF) ∧ d n = 0xFFFF) := by
  intro frames hdec
  obtain ⟨n, h1, h2, h3, h4, _⟩ := datagram_from_frame_loop_shape _ _ _ _ _ _ _ hdec
  have hn11 : n ≤ 11 := by
    have : max (0 + 1) 11 = 11 := by decide
    omega
  have hne : ∀ j, 0 ≤ j → j < n → frames j ≠ 0xFFFF := by
    intro j hj1 hj2
    have := h4 j hj1 hj2
    omega
  have hbit : ∀ f, ((0x0001 &&& f) ≠ 0 ∨ (0x0400 &&& f) = 0)
      ↔ (f.testBit 0 = true ∨ f.testBit 10 = false) := by
    intro f
    rw [one_and_eq_testBit, and_0x400]
    cases f.testBit 0 <;> cases f.testBit 10 <;> simp
  unfold load_datagram
  simp only []
  rw [if_neg hlen, hdec]
  simp only []
  by_cases hbad : ∃ i, i < n ∧ ((frames i).testBit 0 = true ∨ (frames i).testBit 10 = false)
  · have hchk := load_datagram_check_bad n frames n 0 256 (by omega) (by omega) (by omega) hne
      (by
        obtain ⟨i, hi, hb⟩ := hbad
        exact ⟨i, Nat.zero_le _, hi, (hbit _).mpr hb⟩)
    rw [hchk]
    refine ⟨n, store frames 0 0xFFFF, by omega, hn11, fun i hi => h4 i (Nat.zero_le _) hi, h3,
      rfl, ?_, ?_⟩
    · exact ⟨fun _ => hbad, fun _ => store_same _ _ _⟩
    · intro hno; exact absurd hbad hno
  · have hchk := load_datagram_check_clean n frames n 0 256 (by omega) (by omega) (by omega)
      hne h3
      (by
        intro j hj1 hj2 hb
        exact hbad ⟨j, hj2, (hbit _).mp hb⟩)
    have hpay := load_datagram_payloads_ok n frames n 0 256 (by omega) (by omega) (by omega)
      hne h3
    rw [hchk]
    simp only []
    rw [hpay]
    refine ⟨n, _, by omega, hn11, fun i hi => h4 i (Nat.zero_le _) hi, h3, rfl, ?_, ?_⟩
    · constructor
      · intro h0
        simp only [] at h0
        rw [if_pos ⟨Nat.zero_le _, by omega⟩] at h0
        have := payload_of_frame_lt (frames 0)
        omega
      · intro hb; exact absurd hb hbad
    · intro _
      constructor
      · intro i hi
        rw [if_pos ⟨Nat.zero_le _, hi⟩]
        rfl
      · rw [if_neg (by omega)]
        exact h3

/-- On a finalized buffer (`_rx_buffer[L] == 2291`) `load_datagram` returns. -/
theorem load_datagram_returns (s : RxState) (rx_datagram : Cells)
    (hL : s.rx_buffer_pointer_max < 256)
    (hT : s.rx_buffer s.rx_buffer_pointer_max = MICROSECONDS_PER_FRAME) :
    ∃ res, load_datagram s rx_datagram = some res := by
  by_cases hlen : s.rx_buffer_pointer_max = 0
  · exact ⟨(s, rx_datagram), by unfold load_datagram; simp only [hlen, if_true]⟩
  · obtain ⟨frames, hdec⟩ := datagram_from_frame_loop_returns s.rx_buffer
      s.rx_buffer_pointer_max hL hT 11 rx_datagram 0 0 rfl (by decide) (Nat.zero_le _)
    obtain ⟨n, d, _, _, _, _, hload, _⟩ := load_datagram_of_frames s rx_datagram hlen frames hdec
    exact ⟨_, hload⟩

/-! ## Lemmas: the frame codec, a refused encode -/

theorem payload_of_spec_frame (p : Nat) (hp : p < 512) : payload_of_frame (spec_frame p) = p := by
  apply Nat.eq_of_testBit_eq
  intro j
  unfold payload_of_frame spec_frame
  have h1 : (0x01FF : Nat) = 2 ^ 9 - 1 := by norm_num
  have h2 : (0x03FF : Nat) = 2 ^ 10 - 1 := by norm_num
  have h3 : (0x0400 : Nat) = 2 ^ 10 := by norm_num
  rw [h1, h2, h3, Nat.testBit_and, Nat.testBit_shiftRight, Nat.testBit_or, Nat.testBit_and,
    Nat.testBit_shiftLeft, Nat.testBit_two_pow_sub_one, Nat.testBit_two_pow_sub_one,
    Nat.testBit_two_pow]
  by_cases hj : j < 9
  · have e : 1 + j - 1 = j := by omega
    have e1 : decide (1 + j < 10) = true := by simp; omega
    have e2 : decide (10 = 1 + j) = false := by simp; omega
    simp [hj, e, e1, e2]
  · have : p.testBit j = false := by
      apply Nat.testBit_lt_two_pow
      calc p < 2 ^ 9 := by omega
        _ ≤ 2 ^ j := Nat.pow_le_pow_right (by norm_num) (by omega)
    simp [hj, this]

theorem send_datagram_check_bad (k : Nat) (d : Cells) (n i fuel : Nat)
    (hk : i + k = n) (hfuel : k < fuel) (hn : n < 256)
    (hne : ∀ j, i ≤ j → j < n → d j ≠ 0xFFFF)
    (hbad : ∃ j, i ≤ j ∧ j < n ∧
      ((j = 0 ∧ (0x0100 &&& d j) = 0) ∨ (j ≠ 0 ∧ (0x0100 &&& d j) ≠ 0))) :
    send_datagram_check fuel d i = some false := by
  induction k generalizing i fuel with
  | zero =>
    obtain ⟨j, h1, h2, _⟩ := hbad
    omega
  | succ k ih =>
    obtain ⟨fuel, rfl⟩ : ∃ m, fuel = m + 1 := ⟨fuel - 1, by omega⟩
    simp only [send_datagram_check]
    rw [if_pos (hne i (le_refl _) (by omega))]
    by_cases hb1 : i = 0 ∧ (0x0100 &&& d i) = 0
    · rw [if_pos hb1]
    · rw [if_neg hb1]
      by_cases hb2 : i ≠ 0 ∧ (0x0100 &&& d i) ≠ 0
      · rw [if_pos hb2]
      · rw [if_neg hb2]
        have hi : (i + 1) % 256 = i + 1 := by omega
        rw [hi]
        apply ih (i + 1) fuel (by omega) (by omega) (fun j h1 h2 => hne j (by omega) h2)
        obtain ⟨j, h1, h2, h3⟩ := hbad
        refine ⟨j, ?_, h2, h3⟩
        rcases Nat.eq_or_lt_of_le h1 with h | h
        · subst h
          rcases h3 with h3 | h3
          · exact absurd h3 hb1
          · exact absurd h3 hb2
        · exact h

theorem datagram_of_lt (l : List Nat) (rest : Cells) (j : Nat) (hj : j < l.length) :
    datagram_of l rest j = l.getD j 0 := by
  unfold datagram_of
  rw [if_pos hj]

/-- One edge while the engine is not capturing and a datagram is unread:
nothing but the stored time stamp changes. -/
theorem PCINT_ISR_dropped (micros : Nat) (s : RxState) (hc : s.capturing = false)
    (hl : s.rx_buffer_pointer_max ≠ 0) :
    PCINT_ISR micros s = { s with previous_run_start_time := micros % 4294967296 } := by
  unfold PCINT_ISR
  simp only []
  have hc2 : ¬ s.capturing = true := by rw [hc]; simp
  generalize min MICROSECONDS_PER_FRAME
    ((micros % 4294967296 + 4294967296 - s.previous_run_start_time) % 4294967296) = d
  by_cases hidle : d = MICROSECONDS_PER_FRAME
  · rw [if_pos hidle, if_neg hc2, if_neg hl]
  · rw [if_neg hidle, if_neg hc2]

/-! ## Lemmas: the bits that `frame_from_run` rebuilds -/

theorem toNat_mul_testBit (b : Bool) (p : Nat) :
    (b.toNat * 4096).testBit p = (b && decide (p = 12)) := by
  cases b
  · simp
  · have h : (true.toNat * 4096 : Nat) = 2 ^ 12 := by decide
    rw [h, Nat.testBit_two_pow]
    by_cases hp : p = 12
    · simp [hp]
    · have : ¬ 12 = p := fun h => hp h.symm
      simp [hp, this]

theorem push_step_lt (acc : Nat) (b : Bool) (h : acc < 4096) :
    (acc ||| (b.toNat * 4096)) >>> 1 < 4096 := by
  have h1 : acc ||| (b.toNat * 4096) < 2 ^ 13 := by
    apply Nat.or_lt_two_pow
    · omega
    · cases b <;> decide
  rw [Nat.shiftRight_eq_div_pow]
  omega

theorem testBit_of_lt_4096 (acc p : Nat) (h : acc < 4096) (hp : 12 ≤ p) :
    acc.testBit p = false := by
  apply Nat.testBit_lt_two_pow
  calc acc < 2 ^ 12 := by omega
    _ ≤ 2 ^ p := Nat.pow_le_pow_right (by norm_num) hp

theorem push_bits_testBit (bs : List Bool) (acc j : Nat) (hacc : acc < 4096) :
    (push_bits acc bs).testBit j
      = if j + bs.length < 12 then acc.testBit (j + bs.length)
        else if j < 12 then bs.getD (j + bs.length - 12) false else false := by
  induction bs generalizing acc with
  | nil =>
    simp only [push_bits, List.length_nil, Nat.add_zero]
    by_cases hj : j < 12
    · rw [if_pos hj]
    · rw [if_neg hj, if_neg hj]
      exact testBit_of_lt_4096 acc j hacc (by omega)
  | cons b bs ih =>
    simp only [push_bits, List.length_cons]
    rw [ih _ (push_step_lt acc b hacc)]
    by_cases h1 : j + (bs.length + 1) < 12
    · rw [if_pos h1, if_pos (by omega), Nat.testBit_shiftRight, Nat.testBit_or,
        toNat_mul_testBit]
      have e : 1 + (j + bs.length) = j + (bs.length + 1) := by omega
      have e2 : decide (j + (bs.length + 1) = 12) = false := by simp; omega
      rw [e, e2]
      simp
    · rw [if_neg h1]
      by_cases h2 : j + bs.length < 12
      · have h3 : j + bs.length = 11 := by omega
        rw [if_pos h2, if_pos (by omega), Nat.testBit_shiftRight, Nat.testBit_or,
          toNat_mul_testBit, h3]
        have e : j + (bs.length + 1) - 12 = 0 := by omega
        rw [e, List.getD_cons_zero, testBit_of_lt_4096 acc (1 + 11) hacc (by norm_num)]
        simp
      · rw [if_neg h2]
        by_cases h3 : j < 12
        · rw [if_pos h3, if_pos h3]
          have e : j + (bs.length + 1) - 12 = (j + bs.length - 12) + 1 := by omega
          rw [e, List.getD_cons_succ]
        · rw [if_neg h3, if_neg h3]

theorem bits_lsb_getD (n x j : Nat) (hj : j < n) : (bits_lsb n x).getD j false = x.testBit j := by
  induction n generalizing x j with
  | zero => omega
  | succ n ih =>
    simp only [bits_lsb]
    rcases j with _ | j
    · rw [List.getD_cons_zero]
    · rw [List.getD_cons_succ, ih (x >>> 1) j (by omega), Nat.testBit_shiftRight, Nat.add_comm]

theorem expand_alt_not (w : Bool) (ls : List Nat) :
    expand_alt (!w) ls = (expand_alt w ls).map (fun b => !b) := by
  induction ls generalizing w with
  | nil => rfl
  | cons l ls ih =>
    simp only [expand_alt, List.map_append, List.map_replicate]
    rw [ih (!w)]

theorem expand_alt_runs_after (v : Bool) (len : Nat) (bs : List Bool) :
    expand_alt v ((runs_after v len bs).map Prod.snd) = List.replicate len v ++ bs := by
  induction bs generalizing v len with
  | nil => simp [runs_after, expand_alt]
  | cons b bs ih =>
    simp only [runs_after]
    split
    · rename_i hb
      rw [ih v (len + 1), List.replicate_succ', hb]
      simp
    · rename_i hb
      have hv : b = !v := by cases b <;> cases v <;> simp_all
      simp only [List.map_cons, expand_alt]
      rw [← hv, ih b 1]
      simp

/-- The bits that `frame_from_run` reads from the runs of `frame`: the 11 bits
of the frame, each inverted when the frame's bit 0 is 1. -/
theorem expand_alt_frame (frame : Nat) :
    expand_alt false (frame_run_lengths frame)
      = (bits_lsb 11 frame).map (fun b => xor b (frame.testBit 0)) := by
  have h := expand_alt_runs_after (frame.testBit 0) 1 (bits_lsb 10 (frame >>> 1))
  have hdef : frame_run_lengths frame
      = (runs_after (frame.testBit 0) 1 (bits_lsb 10 (frame >>> 1))).map Prod.snd := rfl
  have hbits : bits_lsb 11 frame = List.replicate 1 (frame.testBit 0) ++ bits_lsb 10 (frame >>> 1) :=
    rfl
  rw [hdef, hbits, ← h]
  cases hv : frame.testBit 0
  · simp
  · have e := expand_alt_not true ((runs_after true 1 (bits_lsb 10 (frame >>> 1))).map Prod.snd)
    simp only [Bool.not_true] at e
    rw [e]
    simp

theorem expand_alt_frame_length (frame : Nat) :
    (expand_alt false (frame_run_lengths frame)).length = 11 := by
  rw [expand_alt_frame, List.length_map, bits_lsb_length]

theorem decoded_frame_testBit (frame j : Nat) :
    (decoded_frame frame).testBit j
      = (decide (j < 11) && xor (frame.testBit j) (frame.testBit 0)) := by
  unfold decoded_frame
  rw [Nat.testBit_shiftRight, push_bits_testBit _ _ _ (by norm_num), expand_alt_frame_length]
  rw [if_neg (by omega)]
  by_cases hj : j < 11
  · rw [if_pos (by omega)]
    have e : 1 + j + 11 - 12 = j := by omega
    rw [e, expand_alt_frame]
    have hlen : j < ((bits_lsb 11 frame).map (fun b => xor b (frame.testBit 0))).length := by
      rw [List.length_map, bits_lsb_length]; exact hj
    rw [List.getD_eq_getElem _ _ hlen, List.getElem_map,
      ← List.getD_eq_getElem _ false (by rw [bits_lsb_length]; exact hj), bits_lsb_getD _ _ _ hj]
    simp [hj]
  · rw [if_neg (by omega)]
    simp [hj]

theorem decoded_frame_lt (frame : Nat) : decoded_frame frame < 2048 := by
  apply Nat.lt_pow_two_of_testBit (n := 11)
  intro i hi
  rw [decoded_frame_testBit]
  have : ¬ i < 11 := by omega
  simp [this]

theorem decoded_frame_eq (frame : Nat) (h0 : frame.testBit 0 = false) (hlt : frame < 2048) :
    decoded_frame frame = frame := by
  apply Nat.eq_of_testBit_eq
  intro j
  rw [decoded_frame_testBit, h0]
  by_cases hj : j < 11
  · simp [hj]
  · have : frame.testBit j = false := by
      apply Nat.testBit_lt_two_pow
      calc frame < 2 ^ 11 := by omega
        _ ≤ 2 ^ j := Nat.pow_le_pow_right (by norm_num) (by omega)
    simp [hj, this]

/-! ## Lemmas: `frame_from_run` on the runs of a frame -/

theorem frame_from_run_shift_eq (n : Nat) (w : Bool) (frame : Nat) :
    frame_from_run_shift n (w.toNat * 4096) frame = push_bits frame (List.replicate n w) := by
  induction n generalizing frame with
  | zero => rfl
  | succ n ih =>
    simp only [frame_from_run_shift, List.replicate_succ, push_bits]
    exact ih _

theorem push_bits_append (a b : List Bool) (frame : Nat) :
    push_bits frame (a ++ b) = push_bits (push_bits frame a) b := by
  induction a generalizing frame with
  | nil => rfl
  | cons x a ih => simp only [List.cons_append, push_bits]; exact ih _

theorem run_value_toggle_eq (w : Bool) :
    (w.toNat * 4096) ^^^ (1 <<< (BITS_PER_FRAME + 1)) = (!w).toNat * 4096 := by
  cases w <;> rfl

theorem sum_pos_of_ne_nil (ls : List Nat) (hne : ls ≠ []) (hpos : ∀ l ∈ ls, 1 ≤ l) :
    1 ≤ ls.sum := by
  rcases ls with _ | ⟨l, ls⟩
  · exact absurd rfl hne
  · have := hpos l (by simp)
    simp only [List.sum_cons]
    omega

/-- The loop of `frame_from_run` over the cells `run_index ..` that hold the
run lengths `ls`, which complete the frame: it adds the bits of those runs and
leaves `*run_index` just behind them. -/
theorem frame_from_run_loop_runs (ls : List Nat) :
    ∀ (fuel : Nat) (rx_buffer : Cells) (bit_index : Nat) (w : Bool) (frame run_index : Nat),
      ls ≠ [] → (∀ l ∈ ls, 1 ≤ l) → bit_index + ls.sum = 11 →
      run_index + ls.length < 256 → ls.length ≤ fuel →
      (∀ i, i < ls.length →
        ls.getD i 0 ≤ run_from_rx_buffer (run_index + i) rx_buffer
          ∧ (i + 1 < ls.length → run_from_rx_buffer (run_index + i) rx_buffer = ls.getD i 0)) →
      frame_from_run_loop fuel rx_buffer bit_index (w.toNat * 4096) frame run_index
        = some (push_bits frame (expand_alt w ls), run_index + ls.length) := by
  induction ls with
  | nil => intro _ _ _ _ _ _ h; exact absurd rfl h
  | cons l ls ih =>
    intro fuel rx_buffer bit_index w frame run_index _ hpos hsum hidx hfuel hbuf
    obtain ⟨fuel, rfl⟩ : ∃ m, fuel = m + 1 := ⟨fuel - 1, by
      simp only [List.length_cons] at hfuel; omega⟩
    simp only [List.sum_cons, List.length_cons] at hsum hidx hfuel
    have hl1 := hpos l (by simp)
    have h0 := hbuf 0 (by simp)
    simp only [Nat.add_zero, List.getD_cons_zero, List.length_cons] at h0
    have hnext : (run_index + 1) % 256 = run_index + 1 := by omega
    simp only [frame_from_run_loop, BITS_PER_FRAME]
    by_cases hnil : ls = []
    · subst hnil
      simp only [List.sum_nil, Nat.add_zero] at hsum
      have hmin : min (run_from_rx_buffer run_index rx_buffer) (11 - bit_index) = l := by
        have := h0.1
        omega
      rw [hmin, if_neg (by omega), frame_from_run_shift_eq, hnext]
      simp [expand_alt]
    · have hs := sum_pos_of_ne_nil ls hnil (fun x hx => hpos x (by simp [hx]))
      have hlen : 1 ≤ ls.length := by
        rcases ls with _ | ⟨a, t⟩
        · exact absurd rfl hnil
        · simp
      have hmin : min (run_from_rx_buffer run_index rx_buffer) (11 - bit_index) = l := by
        have := h0.2 (by omega)
        omega
      have htog : (w.toNat * 4096) ^^^ (1 <<< (11 + 1)) = (!w).toNat * 4096 :=
        run_value_toggle_eq w
      rw [hmin, if_pos (by omega), frame_from_run_shift_eq, hnext, htog]
      rw [ih fuel rx_buffer (bit_index + l) (!w) _ (run_index + 1) hnil
        (fun x hx => hpos x (by simp [hx])) (by omega) (by omega) (by omega)]
      · simp only [expand_alt, push_bits_append, List.length_cons]
        congr 2
        omega
      · intro i hi
        have := hbuf (i + 1) (by simp only [List.length_cons]; omega)
        simp only [List.getD_cons_succ, List.length_cons] at this
        have e : run_index + 1 + i = run_index + (i + 1) := by omega
        rw [e]
        exact ⟨this.1, fun h => this.2 (by omega)⟩

theorem frame_run_lengths_ne_nil (f : Nat) : frame_run_lengths f ≠ [] := by
  intro h
  have := (frame_runs_length f).1
  have h2 : (frame_run_lengths f).length = (frame_runs f).length := by
    unfold frame_run_lengths; simp
  rw [h] at h2
  simp at h2
  omega

theorem frame_run_lengths_pos (f : Nat) : ∀ l ∈ frame_run_lengths f, 1 ≤ l :=
  runs_after_pos (f.testBit 0) 1 (bits_lsb 10 (f >>> 1)) (le_refl 1)

theorem frame_run_lengths_sum (f : Nat) : (frame_run_lengths f).sum = 11 := by
  have h := runs_after_sum (f.testBit 0) 1 (bits_lsb 10 (f >>> 1))
  rw [bits_lsb_length] at h
  exact h

theorem frame_run_lengths_length (f : Nat) :
    1 ≤ (frame_run_lengths f).length ∧ (frame_run_lengths f).length ≤ 11 := by
  have h := frame_runs_length f
  have h2 : (frame_run_lengths f).length = (frame_runs f).length := by
    unfold frame_run_lengths; simp
  omega

theorem getD_append_mid (A ls B : List Nat) (i : Nat) (hi : i < ls.length) :
    (A ++ ls ++ B).getD (A.length + i) 0 = ls.getD i 0 := by
  rw [List.append_assoc, List.getD_append_right _ _ _ _ (by omega)]
  have e : A.length + i - A.length = i := by omega
  rw [e, List.getD_append _ _ _ _ hi]

/-- `frame_from_run` started on the first run of a frame whose runs the buffer
holds: it returns the decoded frame and leaves `*run_index` on the first run of
the next frame. -/
theorem frame_from_run_at (rx_buffer : Cells) (A B : List Nat) (f run_index_max : Nat)
    (hbuf : holds_runs rx_buffer (A ++ frame_run_lengths f ++ B))
    (hlen : (A ++ frame_run_lengths f ++ B).length < 256) :
    frame_from_run A.length run_index_max rx_buffer
      = some (decoded_frame f, A.length + (frame_run_lengths f).length) := by
  have hl := frame_run_lengths_length f
  simp only [List.length_append] at hlen
  have h := frame_from_run_loop_runs (frame_run_lengths f) frame_from_run_fuel rx_buffer 0 false
    0 A.length (frame_run_lengths_ne_nil f) (frame_run_lengths_pos f)
    (by rw [frame_run_lengths_sum]) (by omega) (by unfold frame_from_run_fuel; omega)
    (by
      intro i hi
      have := hbuf (A.length + i) (by simp only [List.length_append]; omega)
      rw [getD_append_mid A _ B i hi] at this
      refine ⟨this.1, fun h2 => this.2 ?_⟩
      simp only [List.length_append]
      omega)
  unfold frame_from_run
  have e : (false.toNat * 4096 : Nat) = 0 := rfl
  rw [e] at h
  rw [h]
  rfl

/-! ## Lemmas: `datagram_from_frame` on the runs of a list of frames -/

theorem runs_of_append (a b : List Nat) : runs_of (a ++ b) = runs_of a ++ runs_of b := by
  unfold runs_of
  rw [List.map_append, List.flatten_append]

theorem runs_of_cons (f : Nat) (fs : List Nat) :
    runs_of (f :: fs) = frame_run_lengths f ++ runs_of fs := by
  unfold runs_of
  rw [List.map_cons, List.flatten_cons]

theorem runs_of_mid (pre : List Nat) (f : Nat) (suf : List Nat) :
    runs_of (pre ++ f :: suf) = runs_of pre ++ frame_run_lengths f ++ runs_of suf := by
  rw [runs_of_append, runs_of_cons, List.append_assoc]

theorem runs_of_length_ge_last (suf : List Nat) (suf1 : List Nat) (f1 : Nat)
    (h : suf = suf1 ++ [f1]) : (frame_run_lengths f1).length ≤ (runs_of suf).length := by
  rw [h, runs_of_append, runs_of_cons, List.length_append, List.length_append]
  omega

/-- The loop of `datagram_from_frame` on a buffer that holds the runs of the
frames `pre ++ suf`, with the frames `pre` decoded already: it decodes every
frame of `suf`, provided the last frame has two runs or more (so that the
length `m - 1` does not cut it off). -/
theorem datagram_from_frame_loop_frames (suf : List Nat) :
    ∀ (pre : List Nat) (fuel : Nat) (rx_buffer : Cells) (d : Cells),
      suf ≠ [] → holds_runs rx_buffer (runs_of (pre ++ suf)) →
      (runs_of (pre ++ suf)).length < 256 → (pre ++ suf).length ≤ 11 →
      fuel + pre.length = 11 →
      (∀ suf1 f1, suf = suf1 ++ [f1] → 2 ≤ (frame_run_lengths f1).length) →
      datagram_from_frame_loop fuel rx_buffer ((runs_of (pre ++ suf)).length - 1) d
          pre.length (runs_of pre).length
        = some (fun i =>
            if pre.length ≤ i ∧ i < (pre ++ suf).length
            then decoded_frame ((pre ++ suf).getD i 0)
            else if i = (pre ++ suf).length then 0xFFFF else d i) := by
  induction suf with
  | nil => intro _ _ _ _ h; exact absurd rfl h
  | cons f suf ih =>
    intro pre fuel rx_buffer d _ hbuf hlen h11 hfuel hlast
    have hF : (pre ++ f :: suf).length = pre.length + 1 + suf.length := by
      simp only [List.length_append, List.length_cons]; omega
    obtain ⟨fuel, rfl⟩ : ∃ m, fuel = m + 1 := ⟨fuel - 1, by omega⟩
    have hmid := runs_of_mid pre f suf
    have hfr := frame_from_run_at rx_buffer (runs_of pre) (runs_of suf) f
      ((runs_of (pre ++ f :: suf)).length - 1) (by rw [← hmid]; exact hbuf)
      (by rw [← hmid]; exact hlen)
    have hls := frame_run_lengths_length f
    have hm : (runs_of (pre ++ f :: suf)).length
        = (runs_of pre).length + (frame_run_lengths f).length + (runs_of suf).length := by
      rw [hmid, List.length_append, List.length_append]
    simp only [datagram_from_frame_loop, hfr, SUP_DATAGRAM_SIZE]
    by_cases hnil : suf = []
    · subst hnil
      have h0 : (runs_of ([] : List Nat)).length = 0 := rfl
      rw [if_neg (by rw [hm, h0]; omega)]
      congr 1
      funext i
      rw [hF]
      simp only [List.length_nil, Nat.add_zero]
      by_cases hi : i = pre.length
      · subst hi
        rw [if_pos ⟨le_refl _, by omega⟩, store_other _ _ _ _ (by omega), store_same, getD_mid]
      · by_cases hi2 : i = pre.length + 1
        · subst hi2
          rw [if_neg (by omega), if_pos rfl, store_same]
        · rw [if_neg (by omega), if_neg hi2, store_other _ _ _ _ hi2, store_other _ _ _ _ hi]
    · obtain ⟨suf1, f1, hsuf⟩ : ∃ suf1 f1, suf = suf1 ++ [f1] :=
        ⟨suf.dropLast, suf.getLast hnil, (List.dropLast_append_getLast hnil).symm⟩
      have h2 := hlast (f :: suf1) f1 (by rw [hsuf]; rfl)
      have h3 := runs_of_length_ge_last suf suf1 f1 hsuf
      have hsl : 1 ≤ suf.length := by
        rcases suf with _ | ⟨a, t⟩
        · exact absurd rfl hnil
        · simp
      rw [if_pos ⟨by rw [hm]; omega, by omega⟩]
      have happ : pre ++ f :: suf = (pre ++ [f]) ++ suf := by simp
      have e1 : (pre ++ [f]).length = pre.length + 1 := by simp
      have e2 : (runs_of (pre ++ [f])).length
          = (runs_of pre).length + (frame_run_lengths f).length := by
        rw [runs_of_append, runs_of_cons, List.length_append, List.length_append]
        rfl
      have hrec := ih (pre ++ [f]) fuel rx_buffer (store d pre.length (decoded_frame f)) hnil
        (by rw [← happ]; exact hbuf) (by rw [← happ]; exact hlen) (by rw [← happ]; exact h11)
        (by rw [e1]; omega)
        (fun s1 g hs => hlast (f :: s1) g (by rw [hs]; rfl))
      rw [← happ, e1, e2] at hrec
      rw [hrec]
      congr 1
      funext i
      by_cases hi : i = pre.length
      · subst hi
        rw [if_neg (by omega), if_neg (by omega), store_same, if_pos ⟨le_refl _, by omega⟩,
          getD_mid]
      · by_cases hi2 : pre.length + 1 ≤ i ∧ i < (pre ++ f :: suf).length
        · rw [if_pos hi2, if_pos ⟨by omega, hi2.2⟩]
        · rw [if_neg hi2,
            if_neg (show ¬ (pre.length ≤ i ∧ i < (pre ++ f :: suf).length) by omega),
            store_other _ _ _ _ hi]

/-- `datagram_from_frame` on a buffer that holds the runs of the frames `F`,
with the inbound length one less than the number of runs. -/
theorem datagram_from_frame_frames (F : List Nat) (rx_buffer : Cells) (d : Cells)
    (hne : F ≠ []) (hbuf : holds_runs rx_buffer (runs_of F))
    (hlen : (runs_of F).length < 256) (h11 : F.length ≤ 11)
    (hlast : ∀ F1 f1, F = F1 ++ [f1] → 2 ≤ (frame_run_lengths f1).length) :
    datagram_from_frame rx_buffer d ((runs_of F).length - 1)
      = some (datagram_of (F.map decoded_frame) d) := by
  have h := datagram_from_frame_loop_frames F [] 11 rx_buffer d hne
    (by simpa using hbuf) (by simpa using hlen) (by simpa using h11) rfl hlast
  simp only [List.nil_append, List.length_nil] at h
  unfold datagram_from_frame
  have e0 : (runs_of ([] : List Nat)).length = 0 := rfl
  rw [e0] at h
  have e11 : SUP_DATAGRAM_SIZE - 1 = 11 := rfl
  rw [e11, h]
  congr 1
  funext i
  unfold datagram_of
  simp only [List.length_map, Nat.zero_le, true_and]
  by_cases hi : i < F.length
  · rw [if_pos hi, if_pos hi, List.getD_eq_getElem _ _ hi,
      List.getD_eq_getElem _ _ (by simpa using hi), List.getElem_map]
  · rw [if_neg hi, if_neg hi]

/-! ## Lemmas: the buffer that `frame_from_datagram` writes, read back -/

theorem le_sum_of_mem_nat (ls : List Nat) (l : Nat) (h : l ∈ ls) : l ≤ ls.sum := by
  induction ls with
  | nil => simp at h
  | cons a ls ih =>
    simp only [List.mem_cons] at h
    simp only [List.sum_cons]
    rcases h with h | h
    · omega
    · have := ih h; omega

theorem runs_of_le (F : List Nat) : ∀ l ∈ runs_of F, l ≤ 11 := by
  intro l hl
  unfold runs_of at hl
  simp only [List.mem_flatten, List.mem_map] at hl
  obtain ⟨ls, ⟨f, _, rfl⟩, hl2⟩ := hl
  have := le_sum_of_mem_nat _ l hl2
  rw [frame_run_lengths_sum] at this
  exact this

theorem runs_of_length_le (F : List Nat) : (runs_of F).length ≤ 11 * F.length := by
  induction F with
  | nil => simp [runs_of]
  | cons f F ih =>
    rw [runs_of_cons, List.length_append, List.length_cons]
    have := (frame_run_lengths_length f).2
    omega

theorem runs_of_length_pos (F : List Nat) (hne : F ≠ []) : 1 ≤ (runs_of F).length := by
  rcases F with _ | ⟨f, F⟩
  · exact absurd rfl hne
  · rw [runs_of_cons, List.length_append]
    have := (frame_run_lengths_length f).1
    omega

theorem run_from_rx_buffer_exact (rx_buffer : Cells) (j l : Nat) (hl : l ≤ 11)
    (h : rx_buffer j = l * MICROSECONDS_PER_BIT) : run_from_rx_buffer j rx_buffer = l := by
  unfold run_from_rx_buffer
  simp only [h, MICROSECONDS_PER_BIT]
  split <;> omega

/-- `frame_from_datagram` on an array of frames: the state it returns, and
that its buffer holds the runs of the frames. -/
theorem frame_from_datagram_frames (s : TxState) (F : List Nat) (rest : Cells)
    (hF : ∀ f ∈ F, f ≠ 0xFFFF) (h11 : F.length ≤ 11) (hne : F ≠ []) :
    frame_from_datagram s (datagram_of F rest)
        = some { s with
            tx_buffer := (emit_runs (runs_of F) 0 s.tx_buffer).1
            tx_buffer_pointer_max := (runs_of F).length - 1 }
      ∧ holds_runs (emit_runs (runs_of F) 0 s.tx_buffer).1 (runs_of F)
      ∧ (runs_of F).length < 256 := by
  have hm1 := runs_of_length_le F
  have hm0 := runs_of_length_pos F hne
  have hloop := frame_from_datagram_loop_ok F [] rest 256 0 s.tx_buffer (by omega)
    (by simp only [List.nil_append]; omega) hF
  simp only [List.nil_append, List.length_nil] at hloop
  obtain ⟨hc, hi⟩ := emit_runs_cells (runs_of F) 0 s.tx_buffer (by omega) (by omega)
  simp only [Nat.zero_add, Nat.sub_zero, Nat.zero_le, true_and] at hc hi
  refine ⟨?_, ?_, by omega⟩
  · unfold frame_from_datagram
    rw [hloop]
    have e : runs_of F = (F.map frame_run_lengths).flatten := rfl
    rw [← e]
    simp only []
    rw [hi]
    congr 2
    omega
  · intro j hj
    have hcell := hc j
    rw [if_pos hj] at hcell
    have hle : (runs_of F).getD j 0 ≤ 11 := by
      rw [List.getD_eq_getElem _ _ hj]
      exact runs_of_le F _ (List.getElem_mem _)
    have := run_from_rx_buffer_exact _ j _ hle hcell
    exact ⟨by omega, fun _ => this⟩

/-- `load_datagram` when `datagram_from_frame` rebuilds the valid frames `F`:
it returns their payloads and the terminator, and resets the length. -/
theorem load_datagram_clean (rx : RxState) (d : Cells) (F : List Nat)
    (hlen : rx.rx_buffer_pointer_max ≠ 0) (hF : F.length < 256)
    (hdec : datagram_from_frame rx.rx_buffer d rx.rx_buffer_pointer_max
      = some (datagram_of F d))
    (hvalid : ∀ f ∈ F, f < 2048 ∧ f.testBit 0 = false ∧ f.testBit 10 = true) :
    load_datagram rx d
      = some ({ rx with rx_buffer_pointer_max := 0 }, datagram_of (F.map payload_of_frame) d) := by
  have hne : ∀ j, 0 ≤ j → j < F.length → datagram_of F d j ≠ 0xFFFF := by
    intro j _ hj
    rw [datagram_of_lt F d j hj, List.getD_eq_getElem _ _ hj]
    have := (hvalid _ (List.getElem_mem hj)).1
    omega
  have hchk := load_datagram_check_clean F.length (datagram_of F d) F.length 0 256 (by omega)
    (by omega) hF hne (datagram_of_end F d)
    (by
      intro j _ hj
      rw [datagram_of_lt F d j hj, List.getD_eq_getElem _ _ hj, one_and_eq_testBit, and_0x400]
      obtain ⟨_, h0, h10⟩ := hvalid _ (List.getElem_mem hj)
      rw [h0, h10]
      simp)
  have hpay := load_datagram_payloads_ok F.length (datagram_of F d) F.length 0 256 (by omega)
    (by omega) hF hne (datagram_of_end F d)
  unfold load_datagram
  simp only []
  rw [if_neg hlen, hdec]
  simp only []
  rw [hchk]
  simp only []
  rw [hpay]
  refine congrArg some (Prod.ext rfl ?_)
  funext j
  unfold datagram_of
  simp only [List.length_map, Nat.zero_le, true_and]
  by_cases hj : j < F.length
  · rw [if_pos hj, if_pos hj, if_pos hj, List.getD_eq_getElem _ _ hj,
      List.getD_eq_getElem _ _ (by simpa using hj), List.getElem_map]
  · rw [if_neg hj, if_neg hj, if_neg hj]

/-! ## Lemmas: encode, then decode -/

theorem runs_of_frames (P : List Nat) :
    runs_of (P.map frame_of_payload) = (wire_runs P).map Prod.snd :=
  wire_runs_lengths P

theorem frame_of_payload_valid (p : Nat) :
    frame_of_payload p < 2048 ∧ (frame_of_payload p).testBit 0 = false
      ∧ (frame_of_payload p).testBit 10 = true := by
  rw [frame_of_payload_eq_spec]
  exact ⟨spec_frame_lt p, spec_frame_bit0 p, spec_frame_bit10 p⟩

theorem frame_of_payload_two (p : Nat) : 2 ≤ (frame_run_lengths (frame_of_payload p)).length := by
  rw [frame_of_payload_eq_spec]
  have := frame_runs_two p
  unfold frame_run_lengths
  rw [List.length_map]
  exact this

theorem last_mem (F F1 : List Nat) (f1 : Nat) (h : F = F1 ++ [f1]) : f1 ∈ F := by
  rw [h]; simp

/-- What `send_datagram` leaves for the decoder on a valid payload sequence. -/
theorem send_datagram_state (s : TxState) (P : List Nat) (rest : Cells)
    (hP : valid_payloads P) :
    ∃ s1, send_datagram s (datagram_of P rest)
          = some (s1, datagram_of (P.map frame_of_payload) rest)
      ∧ s1.tx_buffer_pointer_max = (runs_of (P.map frame_of_payload)).length - 1
      ∧ holds_runs s1.tx_buffer (runs_of (P.map frame_of_payload))
      ∧ (∀ j, j < (runs_of (P.map frame_of_payload)).length →
          s1.tx_buffer j = (runs_of (P.map frame_of_payload)).getD j 0 * MICROSECONDS_PER_BIT)
      ∧ (runs_of (P.map frame_of_payload)).length < 256
      ∧ 2 ≤ (runs_of (P.map frame_of_payload)).length := by
  have hne : P.map frame_of_payload ≠ [] := by
    intro h
    have := congrArg List.length h
    have h1 := hP.1
    simp at this
    rw [this] at h1
    simp at h1
  obtain ⟨_, hholds, hlt⟩ := frame_from_datagram_frames s (P.map frame_of_payload) rest
    (by
      intro f hf
      simp only [List.mem_map] at hf
      obtain ⟨p, _, rfl⟩ := hf
      exact frame_of_payload_ne p)
    (by rw [List.length_map]; exact hP.2.1) hne
  have h2 : 2 ≤ (runs_of (P.map frame_of_payload)).length := by
    rw [runs_of_frames, List.length_map]
    exact wire_runs_length_two P hP.1
  obtain ⟨hc, hi⟩ := emit_runs_cells (runs_of (P.map frame_of_payload)) 0 s.tx_buffer
    (by omega) (by omega)
  simp only [Nat.zero_add, Nat.sub_zero, Nat.zero_le, true_and] at hc hi
  refine ⟨_, send_datagram_valid s P rest hP, ?_, ?_, ?_, hlt, h2⟩
  · simp only []
    rw [← runs_of_frames, hi]
    omega
  · simp only []
    rw [← runs_of_frames]
    exact hholds
  · intro j hj
    simp only []
    rw [← runs_of_frames, hc j, if_pos hj]

/-- Decoding a buffer that holds the runs of the frames of a valid payload
sequence, with the length one less than the number of runs. -/
theorem load_datagram_of_payloads (rx : RxState) (d : Cells) (P : List Nat)
    (hP : valid_payloads P)
    (hlen : rx.rx_buffer_pointer_max = (runs_of (P.map frame_of_payload)).length - 1)
    (hbuf : holds_runs rx.rx_buffer (runs_of (P.map frame_of_payload)))
    (hlt : (runs_of (P.map frame_of_payload)).length < 256)
    (h2 : 2 ≤ (runs_of (P.map frame_of_payload)).length) :
    load_datagram rx d = some ({ rx with rx_buffer_pointer_max := 0 }, datagram_of P d) := by
  have hne : P.map frame_of_payload ≠ [] := by
    intro h
    rw [h] at h2
    simp [runs_of] at h2
  have hdec := datagram_from_frame_frames (P.map frame_of_payload) rx.rx_buffer d hne hbuf hlt
    (by rw [List.length_map]; exact hP.2.1)
    (by
      intro F1 f1 h
      have hm := last_mem _ F1 f1 h
      simp only [List.mem_map] at hm
      obtain ⟨p, _, rfl⟩ := hm
      exact frame_of_payload_two p)
  have hmap : (P.map frame_of_payload).map decoded_frame = P.map frame_of_payload := by
    rw [List.map_map]
    apply List.map_congr_left
    intro p _
    obtain ⟨h1, h2, _⟩ := frame_of_payload_valid p
    exact decoded_frame_eq _ h2 h1
  rw [hmap, ← hlen] at hdec
  have hclean := load_datagram_clean rx d (P.map frame_of_payload) (by rw [hlen]; omega)
    (by rw [List.length_map]; have := hP.2.1; omega) hdec
    (by
      intro f hf
      simp only [List.mem_map] at hf
      obtain ⟨p, _, rfl⟩ := hf
      exact frame_of_payload_valid p)
  rw [hclean]
  have hback : (P.map frame_of_payload).map payload_of_frame = P := by
    rw [List.map_map]
    conv_rhs => rw [← List.map_id P]
    apply List.map_congr_left
    intro p hp
    obtain ⟨i, hi, rfl⟩ := List.getElem_of_mem hp
    have hlt := (hP.2.2 i hi).1
    rw [List.getD_eq_getElem _ _ hi] at hlt
    simp only [Function.comp, frame_of_payload_eq_spec, id]
    exact payload_of_spec_frame _ hlt
  rw [hback]

/-! ## Lemmas: one altered frame -/

theorem altered_frame_lt (f a : Nat) (hf : f < 2048)
    (ha : a = f ||| 0x0001 ∨ a = f &&& 0x03FF) : a < 2048 := by
  rcases ha with h | h
  · rw [h]
    exact Nat.or_lt_two_pow (n := 11) hf (by norm_num)
  · rw [h]
    have : f &&& 0x03FF < 2 ^ 10 := Nat.and_lt_two_pow _ (by norm_num)
    omega

/-- The frame decoded from the runs of an altered frame has its stop bit clear. -/
theorem altered_frame_decoded (f a : Nat) (h0 : f.testBit 0 = false) (h10 : f.testBit 10 = true)
    (ha : a = f ||| 0x0001 ∨ a = f &&& 0x03FF) :
    (decoded_frame a).testBit 10 = false := by
  rw [decoded_frame_testBit]
  rcases ha with h | h
  · rw [h, Nat.testBit_or, Nat.testBit_or, h0, h10]
    have : (0x0001 : Nat).testBit 0 = true := by decide
    rw [this]
    simp
  · rw [h, Nat.testBit_and, Nat.testBit_and, h0]
    have : (0x03FF : Nat).testBit 10 = false := by decide
    rw [this]
    simp

theorem getD_set (F : List Nat) (k a j : Nat) (hj : j < F.length) :
    (F.set k a).getD j 0 = if j = k then a else F.getD j 0 := by
  rw [List.getD_eq_getElem _ _ (by rw [List.length_set]; exact hj), List.getElem_set,
    List.getD_eq_getElem _ _ hj]
  by_cases h : k = j
  · rw [if_pos h, if_pos h.symm]
  · rw [if_neg h, if_neg (fun e => h e.symm)]

theorem getD_last_of_append (F F1 : List Nat) (f1 : Nat) (h : F = F1 ++ [f1]) :
    F.getD (F.length - 1) 0 = f1 := by
  rw [h]
  simp only [List.length_append, List.length_cons, List.length_nil]
  have e : F1.length + (0 + 1) - 1 = F1.length := by omega
  rw [e]
  exact getD_mid F1 f1 []

/-! ## Lemmas: `frame_from_run` on the runs that `run_from_frame` wrote -/

/-- `frame_from_run` started at any cell from which the buffer holds the runs
of `f`, the last of them possibly lengthened. -/
theorem frame_from_run_runs (rx_buffer : Cells) (r run_index_max f : Nat)
    (hr : r + (frame_run_lengths f).length < 256)
    (hbuf : ∀ i, i < (frame_run_lengths f).length →
      (frame_run_lengths f).getD i 0 ≤ run_from_rx_buffer (r + i) rx_buffer
        ∧ (i + 1 < (frame_run_lengths f).length →
            run_from_rx_buffer (r + i) rx_buffer = (frame_run_lengths f).getD i 0)) :
    frame_from_run r run_index_max rx_buffer
      = some (decoded_frame f, r + (frame_run_lengths f).length) := by
  have hl := frame_run_lengths_length f
  have h := frame_from_run_loop_runs (frame_run_lengths f) frame_from_run_fuel rx_buffer 0 false
    0 r (frame_run_lengths_ne_nil f) (frame_run_lengths_pos f)
    (by rw [frame_run_lengths_sum]) hr (by unfold frame_from_run_fuel; omega) hbuf
  unfold frame_from_run
  have e : (false.toNat * 4096 : Nat) = 0 := rfl
  rw [e] at h
  rw [h]
  rfl

theorem frame_run_lengths_le (f : Nat) : ∀ l ∈ frame_run_lengths f, l ≤ 11 := by
  intro l hl
  have := le_sum_of_mem_nat _ l hl
  rw [frame_run_lengths_sum] at this
  exact this

/-- The cells that `run_from_frame` writes, and the index it returns. -/
theorem run_from_frame_cells (f r : Nat) (tx_buffer : Cells) (hr : r + 11 < 256) :
    (run_from_frame f r tx_buffer).2 = r + (frame_run_lengths f).length
      ∧ (∀ i, i < (frame_run_lengths f).length →
          (run_from_frame f r tx_buffer).1 (r + i)
            = (frame_run_lengths f).getD i 0 * MICROSECONDS_PER_BIT)
      ∧ (∀ j, (j < r ∨ r + (frame_run_lengths f).length ≤ j) →
          (run_from_frame f r tx_buffer).1 j = tx_buffer j) := by
  have hl := frame_run_lengths_length f
  obtain ⟨hc, hi⟩ := emit_runs_cells (frame_run_lengths f) r tx_buffer (by omega) (by omega)
  rw [run_from_frame_eq_emit]
  refine ⟨by rw [hi]; omega, ?_, ?_⟩
  · intro i hi2
    rw [hc (r + i), if_pos ⟨by omega, by omega⟩]
    have e : r + i - r = i := by omega
    rw [e]
  · intro j hj
    rw [hc j, if_neg (by omega)]

/-! ## Lemmas: capturing a datagram -/

theorem spec_frame_mod (p : Nat) : spec_frame p = spec_frame (p % 512) := by
  unfold spec_frame
  congr 1
  have h1 : (0x03FF : Nat) = 2 ^ 10 - 1 := by norm_num
  rw [h1, Nat.and_pow_two_sub_one_eq_mod, Nat.and_pow_two_sub_one_eq_mod, Nat.shiftLeft_eq,
    Nat.shiftLeft_eq]
  omega

/-! ## Lemmas: the parity of the runs -/

theorem runs_after_parity (v : Bool) (len : Nat) (bs : List Bool) :
    ∀ i, i < (runs_after v len bs).length →
      ((runs_after v len bs).getD i (false, 0)).1 = xor v (decide (i % 2 = 1)) := by
  induction bs generalizing v len with
  | nil =>
    intro i hi
    simp only [runs_after, List.length_cons, List.length_nil] at hi
    have : i = 0 := by omega
    subst this
    simp [runs_after]
  | cons b bs ih =>
    intro i hi
    simp only [runs_after] at hi ⊢
    by_cases hb : b = v
    · rw [if_pos hb] at hi ⊢
      exact ih v (len + 1) i hi
    · rw [if_neg hb] at hi ⊢
      have hv : b = !v := by cases b <;> cases v <;> simp_all
      rcases i with _ | i
      · simp
      · rw [List.getD_cons_succ, ih b 1 i (by simp only [List.length_cons] at hi; omega), hv]
        rcases Nat.mod_two_eq_zero_or_one i with h | h
        · have h2 : (i + 1) % 2 = 1 := by omega
          simp [h, h2]
        · have h2 : (i + 1) % 2 = 0 := by omega
          simp [h, h2]

theorem frame_runs_parity (p i : Nat) (hi : i < (frame_runs (spec_frame p)).length) :
    ((frame_runs (spec_frame p)).getD i (false, 0)).1 = decide (i % 2 = 1) := by
  have h := runs_after_parity ((spec_frame p).testBit 0) 1 (bits_lsb 10 (spec_frame p >>> 1)) i hi
  have hdef : frame_runs (spec_frame p)
      = runs_after ((spec_frame p).testBit 0) 1 (bits_lsb 10 (spec_frame p >>> 1)) := rfl
  rw [hdef, h, spec_frame_bit0]
  simp

theorem frame_runs_even (p : Nat) : (frame_runs (spec_frame p)).length % 2 = 0 := by
  obtain ⟨l, hl⟩ := frame_runs_last (spec_frame p)
  rw [spec_frame_bit10] at hl
  have h2 := frame_runs_two p
  have hlt : (frame_runs (spec_frame p)).length - 1 < (frame_runs (spec_frame p)).length := by
    omega
  have hpar := frame_runs_parity p _ hlt
  rw [List.getLast?_eq_getElem?, List.getElem?_eq_getElem hlt] at hl
  rw [List.getD_eq_getElem _ _ hlt, Option.some.inj hl] at hpar
  simp only [true_eq_decide_iff] at hpar
  omega

theorem le_sum_of_mem_pos (ls : List Nat) (hpos : ∀ l ∈ ls, 1 ≤ l) (l : Nat) (h : l ∈ ls) :
    l + (ls.length - 1) ≤ ls.sum := by
  induction ls with
  | nil => simp at h
  | cons a ls ih =>
    simp only [List.mem_cons] at h
    simp only [List.sum_cons, List.length_cons]
    have hlen : ls.length ≤ ls.sum := by
      clear ih h
      induction ls with
      | nil => simp
      | cons b ls ih2 =>
        have := hpos b (by simp)
        have := ih2 (fun x hx => hpos x (by
          simp only [List.mem_cons] at hx ⊢
          rcases hx with hx | hx
          · left; exact hx
          · right; right; exact hx))
        simp only [List.sum_cons, List.length_cons]
        omega
    rcases h with h | h
    · omega
    · have := ih (fun x hx => hpos x (by simp [hx])) h
      have := hpos a (by simp)
      omega

/-- Blocks of even length whose values follow the parity of the index keep
doing so when they are laid end to end. -/
theorem flatten_parity (L : List (List (Bool × Nat)))
    (heven : ∀ b ∈ L, b.length % 2 = 0)
    (hpar : ∀ b ∈ L, ∀ i, i < b.length → (b.getD i (false, 0)).1 = decide (i % 2 = 1)) :
    ∀ i, i < L.flatten.length → (L.flatten.getD i (false, 0)).1 = decide (i % 2 = 1) := by
  induction L with
  | nil => intro i hi; simp at hi
  | cons b L ih =>
    intro i hi
    simp only [List.flatten_cons, List.length_append] at hi ⊢
    by_cases hib : i < b.length
    · rw [List.getD_append _ _ _ _ hib]
      exact hpar b (by simp) i hib
    · rw [List.getD_append_right _ _ _ _ (by omega)]
      have := ih (fun c hc => heven c (by simp [hc])) (fun c hc => hpar c (by simp [hc]))
        (i - b.length) (by omega)
      rw [this]
      have he := heven b (by simp)
      have e : (i - b.length) % 2 = i % 2 := by omega
      rw [e]

theorem wire_runs_parity (P : List Nat) (i : Nat) (hi : i < (wire_runs P).length) :
    ((wire_runs P).getD i (false, 0)).1 = decide (i % 2 = 1) := by
  unfold wire_runs at hi ⊢
  apply flatten_parity _ _ _ i hi
  · intro b hb
    simp only [List.mem_map] at hb
    obtain ⟨f, ⟨p, _, rfl⟩, rfl⟩ := hb
    exact frame_runs_even p
  · intro b hb
    simp only [List.mem_map] at hb
    obtain ⟨f, ⟨p, _, rfl⟩, rfl⟩ := hb
    exact frame_runs_parity p

/-! ## Lemmas: decoding reads no cell behind the finalized one -/

theorem run_from_rx_buffer_congr (a b : Cells) (j : Nat) (h : b j = a j) :
    run_from_rx_buffer j b = run_from_rx_buffer j a := by
  unfold run_from_rx_buffer
  rw [h]

/-- On a finalized buffer the loop of `frame_from_run`, started at or before
cell `L`, leaves the run index at most at `L + 1`. -/
theorem frame_from_run_loop_index (rx_buffer : Cells) (L : Nat) (hL : L < 256)
    (hT : rx_buffer L = MICROSECONDS_PER_FRAME) (k : Nat) :
    ∀ fuel run_index bit_index run_value frame res, run_index + k = L →
      bit_index < 11 →
      frame_from_run_loop fuel rx_buffer bit_index run_value frame run_index = some res →
      res.2 ≤ L + 1 := by
  induction k with
  | zero =>
    intro fuel run_index bit_index run_value frame res hk hb h
    have : run_index = L := by omega
    subst this
    cases fuel with
    | zero => simp [frame_from_run_loop] at h
    | succ fuel =>
      simp only [frame_from_run_loop, run_from_rx_buffer_cap run_index rx_buffer hT,
        BITS_PER_FRAME] at h
      rw [if_neg (by omega)] at h
      injection h with h
      rw [← h]
      exact Nat.mod_le _ _
  | succ k ih =>
    intro fuel run_index bit_index run_value frame res hk hb h
    cases fuel with
    | zero => simp [frame_from_run_loop] at h
    | succ fuel =>
      have hi : (run_index + 1) % 256 = run_index + 1 := by omega
      simp only [frame_from_run_loop] at h
      rw [hi] at h
      by_cases hlt : bit_index
          + min (run_from_rx_buffer run_index rx_buffer) (BITS_PER_FRAME - bit_index)
          < BITS_PER_FRAME
      · rw [if_pos hlt] at h
        exact ih fuel (run_index + 1) _ _ _ res (by omega) hlt h
      · rw [if_neg hlt] at h
        injection h with h
        rw [← h]
        show run_index + 1 ≤ L + 1
        omega

/-- On a finalized buffer the loop of `frame_from_run`, started at or before
cell `L`, gives the same result on every buffer that agrees on the cells
`0 .. L`. -/
theorem frame_from_run_loop_congr (rx_buffer other : Cells) (L : Nat) (hL : L < 256)
    (hT : rx_buffer L = MICROSECONDS_PER_FRAME)
    (hother : ∀ j, j ≤ L → other j = rx_buffer j) (k : Nat) :
    ∀ fuel run_index bit_index run_value frame, run_index + k = L →
      bit_index < 11 →
      frame_from_run_loop fuel other bit_index run_value frame run_index
        = frame_from_run_loop fuel rx_buffer bit_index run_value frame run_index := by
  induction k with
  | zero =>
    intro fuel run_index bit_index run_value frame hk hb
    have : run_index = L := by omega
    subst this
    cases fuel with
    | zero => rfl
    | succ fuel =>
      have hT2 : other run_index = MICROSECONDS_PER_FRAME := by
        rw [hother run_index (le_refl _)]; exact hT
      have hn : ¬ (bit_index + min 11 (11 - bit_index) < 11) := by omega
      simp only [frame_from_run_loop, run_from_rx_buffer_cap run_index rx_buffer hT,
        run_from_rx_buffer_cap run_index other hT2, BITS_PER_FRAME]
      rw [if_neg hn, if_neg hn]
  | succ k ih =>
    intro fuel run_index bit_index run_value frame hk hb
    cases fuel with
    | zero => rfl
    | succ fuel =>
      have hi : (run_index + 1) % 256 = run_index + 1 := by omega
      simp only [frame_from_run_loop]
      rw [run_from_rx_buffer_congr rx_buffer other run_index (hother _ (by omega)), hi]
      by_cases hlt : bit_index
          + min (run_from_rx_buffer run_index rx_buffer) (BITS_PER_FRAME - bit_index)
          < BITS_PER_FRAME
      · rw [if_pos hlt, if_pos hlt]
        exact ih fuel (run_index + 1) _ _ _ (by omega) hlt
      · rw [if_neg hlt, if_neg hlt]

theorem frame_from_run_congr (rx_buffer other : Cells) (L : Nat) (hL : L < 256)
    (hT : rx_buffer L = MICROSECONDS_PER_FRAME)
    (hother : ∀ j, j ≤ L → other j = rx_buffer j) (run_index run_index_max : Nat)
    (hr : run_index ≤ L) :
    frame_from_run run_index run_index_max other
      = frame_from_run run_index run_index_max rx_buffer := by
  unfold frame_from_run
  rw [frame_from_run_loop_congr rx_buffer other L hL hT hother (L - run_index)
    frame_from_run_fuel run_index 0 0 0 (by omega) (by omega)]

theorem frame_from_run_bounded (rx_buffer : Cells) (L : Nat) (hL : L < 256)
    (hT : rx_buffer L = MICROSECONDS_PER_FRAME) (run_index run_index_max : Nat)
    (hr : run_index ≤ L) :
    ∃ f r, frame_from_run run_index run_index_max rx_buffer = some (f, r)
      ∧ r ≤ L + 1 ∧ f < 2048
      ∧ ∀ other : Cells, (∀ j, j ≤ L → other j = rx_buffer j) →
          frame_from_run run_index run_index_max other = some (f, r) := by
  obtain ⟨⟨f, r⟩, h1⟩ := frame_from_run_loop_returns rx_buffer L hL hT (L - run_index)
    frame_from_run_fuel run_index 0 0 0 (by omega) (by unfold frame_from_run_fuel; omega)
    (by omega)
  have h2 := frame_from_run_loop_index rx_buffer L hL hT (L - run_index)
    frame_from_run_fuel run_index 0 0 0 (f, r) (by omega) (by omega) h1
  have hfr : frame_from_run run_index run_index_max rx_buffer = some (f >>> 1, r) := by
    unfold frame_from_run
    rw [h1]
  refine ⟨f >>> 1, r, hfr, h2, frame_from_run_lt _ _ _ _ _ hfr, ?_⟩
  intro other hother
  rw [frame_from_run_congr rx_buffer other L hL hT hother run_index run_index_max hr]
  exact hfr

theorem datagram_from_frame_loop_congr (rx_buffer other : Cells) (L : Nat) (hL : L < 256)
    (hT : rx_buffer L = MICROSECONDS_PER_FRAME)
    (hother : ∀ j, j ≤ L → other j = rx_buffer j) (fuel : Nat) :
    ∀ rx_datagram frame_index run_index, run_index ≤ L →
      datagram_from_frame_loop fuel other L rx_datagram frame_index run_index
        = datagram_from_frame_loop fuel rx_buffer L rx_datagram frame_index run_index := by
  induction fuel with
  | zero => intro _ _ _ _; rfl
  | succ fuel ih =>
    intro rx_datagram frame_index run_index hr
    obtain ⟨f, r, hfr, _, _, _⟩ := frame_from_run_bounded rx_buffer L hL hT run_index L hr
    simp only [datagram_from_frame_loop,
      frame_from_run_congr rx_buffer other L hL hT hother run_index L hr, hfr]
    by_cases hcond : r < L ∧ frame_index + 1 < SUP_DATAGRAM_SIZE - 1
    · rw [if_pos hcond, if_pos hcond]
      exact ih _ _ _ (by omega)
    · rw [if_neg hcond, if_neg hcond]

/-- Holding a list of runs depends on the cells below its length only. -/
theorem holds_runs_congr (a b : Cells) (R : List Nat) (h : ∀ j, j < R.length → b j = a j)
    (ha : holds_runs a R) : holds_runs b R := by
  intro j hj
  rw [run_from_rx_buffer_congr a b j (h j hj)]
  exact ha j hj

/-! ## Theorems -/

set_option maxRecDepth 100000 in
/-- C1, counterexample. The valid sequence `long_example` of 7 payloads has
70 runs; `send_datagram` records the outbound length 69, and the 64 entries of
`_tx_buffer` hold the first 64 durations only.  An inbound buffer whose 64
entries hold what the 64 entries of the outbound buffer hold (the memory
behind the array holds 0), with the inbound length 69, decodes to a result
marked corrupted.  And when `PCINT_ISR` captures the 70 runs from the bus, it
truncates the capture at entry 63, publishes the length 63, and
`load_datagram` returns, not marked, a sequence whose last payload is `0x1FA`
where `0x0AA` was sent. -/
theorem message_round_trip_overflow :
    (valid_payloads long_example ∧ (wire_runs long_example).length = 70)
    ∧ ((send_datagram tx_zero (datagram_of long_example (fun _ => 0))).bind
          (fun r => load_datagram
            { rx_init (fun _ => 0) with
              rx_buffer := fun i => if i < SUP_BUFFER_SIZE then r.1.tx_buffer i else 0
              rx_buffer_pointer_max := r.1.tx_buffer_pointer_max }
            (fun _ => 7))).map
        (fun r => (List.range 8).map r.2)
      = some [0xFFFF, 0x554, 0x554, 0x554, 0x554, 0x554, 0x554, 0x29A]
    ∧ ((rx_gaps (rx_init (fun _ => 0))
          (3000 :: ((wire_durations long_example).dropLast ++ [5000]))).rx_buffer_pointer_max = 63
      ∧ (load_datagram (rx_gaps (rx_init (fun _ => 0))
            (3000 :: ((wire_durations long_example).dropLast ++ [5000]))) (fun _ => 7)).map
          (fun r => (List.range 8).map r.2)
        = some [0x155, 0x0AA, 0x0AA, 0x0AA, 0x0AA, 0x0AA, 0x1FA, 0xFFFF]) := by
  refine ⟨⟨by unfold valid_payloads long_example; decide, by rfl⟩, by rfl, by rfl, by rfl⟩

/-- C1, amended. Message round trip: for every valid payload sequence `P`
whose encoding has at most 64 runs (`SUP_BUFFER_SIZE`), `send_datagram`
returns, records an outbound length below 64 and leaves the memory behind the
64 entries of `_tx_buffer` as it was; and when the 64 entries of the inbound
buffer and the inbound length are given the contents and the length that it
wrote, whatever the memory behind the inbound buffer holds, `load_datagram`
returns exactly the payloads of `P` followed by `0xFFFF` (the cells behind the
terminator are those of the caller's array), and resets the inbound length. -/
theorem message_round_trip (s : TxState) (rx : RxState) (P : List Nat) (rest d : Cells)
    (hP : valid_payloads P) (hm : (wire_runs P).length ≤ 64) :
    ∃ s1 frames, send_datagram s (datagram_of P rest) = some (s1, frames)
      ∧ s1.tx_buffer_pointer_max < 64
      ∧ (∀ i, 64 ≤ i → s1.tx_buffer i = s.tx_buffer i)
      ∧ ∀ rx_buffer : Cells, (∀ i, i < 64 → rx_buffer i = s1.tx_buffer i) →
          load_datagram
              { rx with
                rx_buffer := rx_buffer, rx_buffer_pointer_max := s1.tx_buffer_pointer_max } d
            = some ({ rx with rx_buffer := rx_buffer, rx_buffer_pointer_max := 0 },
                datagram_of P d) := by
  obtain ⟨s1, hsend, hmax, hholds, _, hlt, h2⟩ := send_datagram_state s P rest hP
  obtain ⟨s2, hsend2, hcells, _⟩ := send_datagram_cells s P rest hP
  have hR : (runs_of (P.map frame_of_payload)).length = (wire_runs P).length := by
    rw [runs_of_frames, List.length_map]
  have hs : s2 = s1 := by
    rw [hsend] at hsend2
    injection hsend2 with h
    exact (congrArg Prod.fst h).symm
  refine ⟨s1, _, hsend, by rw [hmax, hR]; omega, ?_, ?_⟩
  · intro i hi
    rw [← hs, hcells i, if_neg (by omega)]
  · intro rx_buffer hcopy
    exact load_datagram_of_payloads
      { rx with rx_buffer := rx_buffer, rx_buffer_pointer_max := s1.tx_buffer_pointer_max } d P
      hP hmax (holds_runs_congr _ _ _ (fun j hj => hcopy j (by omega)) hholds) hlt h2

/-- Witness of the amended C1: the payload sequence `[0x1F1, 0x002, 0xFFFF]`
(8 runs) encodes to runs that decode back to `[0x1F1, 0x002]` and the
terminator. -/
theorem message_round_trip_witness :
    (∃ s1 frames, send_datagram tx_zero (datagram_of [0x1F1, 0x002] (fun _ => 0))
          = some (s1, frames)
      ∧ s1.tx_buffer_pointer_max < 64
      ∧ (∀ i, 64 ≤ i → s1.tx_buffer i = tx_zero.tx_buffer i)
      ∧ ∀ rx_buffer : Cells, (∀ i, i < 64 → rx_buffer i = s1.tx_buffer i) →
          load_datagram
              { rx_init (fun _ => 0) with
                rx_buffer := rx_buffer, rx_buffer_pointer_max := s1.tx_buffer_pointer_max }
              (fun _ => 7)
            = some ({ rx_init (fun _ => 0) with
                      rx_buffer := rx_buffer, rx_buffer_pointer_max := 0 },
                datagram_of [0x1F1, 0x002] (fun _ => 7)))
    ∧ (List.range 4).map (datagram_of [0x1F1, 0x002] (fun _ => 7)) = [0x1F1, 0x002, 0xFFFF, 7] :=
  ⟨message_round_trip tx_zero (rx_init (fun _ => 0)) [0x1F1, 0x002] (fun _ => 0) (fun _ => 7)
      (by unfold valid_payloads; decide) (by decide), by rfl⟩

/-- C2. Frame codec inverse: for every 9-bit payload `p`, the frame that
`send_datagram` builds is `((p << 1) & 0x03FF) | 0x0400`; its start bit (bit 0)
is 0 and its stop bit (bit 10) is 1, so the validity test of `load_datagram`
does not mark it, and `(f >> 1) & 0x01FF` gives `p` back. -/
theorem frame_codec_inverse (p : Nat) (hp : p < 512) :
    frame_of_payload p = ((p <<< 1) &&& 0x03FF) ||| 0x0400
      ∧ (frame_of_payload p).testBit 0 = false
      ∧ (frame_of_payload p).testBit 10 = true
      ∧ ¬ ((0x0001 &&& frame_of_payload p) ≠ 0 ∨ (0x0400 &&& frame_of_payload p) = 0)
      ∧ (frame_of_payload p >>> 1) &&& 0x01FF = p := by
  have h0 := spec_frame_bit0 p
  have h10 := spec_frame_bit10 p
  rw [frame_of_payload_eq_spec]
  refine ⟨rfl, h0, h10, ?_, payload_of_spec_frame p hp⟩
  rw [one_and_eq_testBit, and_0x400, h0, h10]
  simp

/-- Witness of C2 at the payload `0x1F1`. -/
theorem frame_codec_inverse_witness :
    frame_of_payload 0x1F1 = ((0x1F1 <<< 1) &&& 0x03FF) ||| 0x0400
      ∧ (frame_of_payload 0x1F1).testBit 0 = false
      ∧ (frame_of_payload 0x1F1).testBit 10 = true
      ∧ ¬ ((0x0001 &&& frame_of_payload 0x1F1) ≠ 0 ∨ (0x0400 &&& frame_of_payload 0x1F1) = 0)
      ∧ (frame_of_payload 0x1F1 >>> 1) &&& 0x01FF = 0x1F1 :=
  frame_codec_inverse 0x1F1 (by decide)

/-- C3. Refused encode is a clean no-op: for every terminator-delimited
payload sequence `l` that violates the marker rule (bit 8 clear on the first
payload, or bit 8 set on a later one), `send_datagram` returns with the
outbound buffer, the outbound length (the whole transmit state) and the
caller's array unchanged. -/
theorem send_datagram_refused (s : TxState) (l : List Nat) (rest : Cells)
    (hlen : l.length < 256) (hne : ∀ x ∈ l, x ≠ 0xFFFF)
    (hviol : ∃ i, i < l.length ∧
      ((i = 0 ∧ (l.getD i 0).testBit 8 = false) ∨ (i ≠ 0 ∧ (l.getD i 0).testBit 8 = true))) :
    send_datagram s (datagram_of l rest) = some (s, datagram_of l rest) := by
  have hchk : send_datagram_check 256 (datagram_of l rest) 0 = some false := by
    apply send_datagram_check_bad l.length (datagram_of l rest) l.length 0 256
      (by omega) hlen hlen
    · intro j _ hj
      rw [datagram_of_lt l rest j hj, List.getD_eq_getElem _ _ hj]
      exact hne _ (List.getElem_mem _)
    · obtain ⟨i, hi, hv⟩ := hviol
      refine ⟨i, Nat.zero_le _, hi, ?_⟩
      rw [datagram_of_lt l rest i hi, and_0x100]
      rcases hv with ⟨h1, h2⟩ | ⟨h1, h2⟩
      · left; rw [h2]; exact ⟨h1, rfl⟩
      · right; rw [h2]; exact ⟨h1, by decide⟩
  unfold send_datagram
  rw [hchk]

/-- Witness of C3: bit 8 set on the second payload of `[0x1F1, 0x102]`. -/
theorem send_datagram_refused_witness :
    send_datagram drain_example (datagram_of [0x1F1, 0x102] (fun _ => 7))
      = some (drain_example, datagram_of [0x1F1, 0x102] (fun _ => 7)) :=
  send_datagram_refused drain_example [0x1F1, 0x102] (fun _ => 7) (by decide) (by decide)
    ⟨1, by decide, Or.inr ⟨by decide, by decide⟩⟩

/-- C4, the code at a failing input. `[0x1F1, 0x002]` is sent from a zeroed
state and `OCR2A_ISR` fires twice: the outbound length is 7, the cursor 2 and
`_tx_buffer[0]` is 208.  A call of `send_datagram` with `[0x100]` in that state
is not refused: it overwrites `_tx_buffer[0]` with 1872 and the length with 1. -/
theorem send_datagram_ignores_busy :
    (send_datagram tx_zero (datagram_of [0x1F1, 0x002] (fun _ => 0))).map
        (fun r => ((OCR2A_ISR^[2] r.1).tx_buffer_pointer_max,
          (OCR2A_ISR^[2] r.1).tx_buffer_pointer, (OCR2A_ISR^[2] r.1).tx_buffer 0))
      = some (7, 2, 208)
    ∧ ((send_datagram tx_zero (datagram_of [0x1F1, 0x002] (fun _ => 0))).bind
          (fun r => send_datagram (OCR2A_ISR^[2] r.1) (datagram_of [0x100] (fun _ => 0)))).map
        (fun r => (r.1.tx_buffer_pointer_max, r.1.tx_buffer_pointer, r.1.tx_buffer 0))
      = some (1, 2, 1872) := by
  constructor <;> rfl

/-- C5. Inbound ownership: in every state reachable from start-up by edges and
consumer resets of the length, capturing implies that the inbound length is 0;
and an edge processed while the inbound length is nonzero leaves the inbound
buffer, the inbound length, the cursor and the capturing flag unchanged. -/
theorem inbound_ownership (rx_buffer : Cells) (es : List RxEvent) (micros : Nat) :
    ((rx_run (rx_init rx_buffer) es).capturing = true →
        (rx_run (rx_init rx_buffer) es).rx_buffer_pointer_max = 0)
      ∧ ((rx_run (rx_init rx_buffer) es).rx_buffer_pointer_max ≠ 0 →
          (PCINT_ISR micros (rx_run (rx_init rx_buffer) es)).rx_buffer
              = (rx_run (rx_init rx_buffer) es).rx_buffer
            ∧ (PCINT_ISR micros (rx_run (rx_init rx_buffer) es)).rx_buffer_pointer_max
              = (rx_run (rx_init rx_buffer) es).rx_buffer_pointer_max
            ∧ (PCINT_ISR micros (rx_run (rx_init rx_buffer) es)).rx_buffer_pointer
              = (rx_run (rx_init rx_buffer) es).rx_buffer_pointer
            ∧ (PCINT_ISR micros (rx_run (rx_init rx_buffer) es)).capturing = false) := by
  have hshape := rx_shape_run (rx_init rx_buffer) es (rx_shape_init rx_buffer)
  refine ⟨fun hc => (hshape.1 hc).1, fun hl => ?_⟩
  have hc := (hshape.2 hl).1
  rw [PCINT_ISR_dropped micros _ hc hl]
  exact ⟨rfl, rfl, rfl, hc⟩

/-- Witness of C5: a datagram of two runs is published (length 2); the edges
of the next datagram, which begins at 9000 microseconds, change nothing. -/
theorem inbound_ownership_witness :
    (rx_run (rx_init (fun _ => 0))
        [RxEvent.edge 3000, RxEvent.edge 3208, RxEvent.edge 3416, RxEvent.edge 6000]).rx_buffer_pointer_max = 2
    ∧ (PCINT_ISR 9000 (rx_run (rx_init (fun _ => 0))
        [RxEvent.edge 3000, RxEvent.edge 3208, RxEvent.edge 3416, RxEvent.edge 6000])).rx_buffer_pointer_max
      = (rx_run (rx_init (fun _ => 0))
        [RxEvent.edge 3000, RxEvent.edge 3208, RxEvent.edge 3416, RxEvent.edge 6000]).rx_buffer_pointer_max :=
  ⟨rfl, ((inbound_ownership (fun _ => 0)
      [RxEvent.edge 3000, RxEvent.edge 3208, RxEvent.edge 3416, RxEvent.edge 6000] 9000).2
      (by decide)).2.1⟩

/-- C6, counterexample. Two valid payload sequences whose altered last frame
is a single run.  `[0x100, 0x000]` has the frames `[0x600, 0x400]`; with the
stop bit of frame 1 cleared the frames are `[0x600, 0x000]`, three runs, the
recorded length is 2, and decoding returns `[0x100, 0xFFFF]`: frame 1 is never
read and no corruption is reported.  `[0x1FF]` has the frame `0x7FE`; with the
start bit set the frame is `0x7FF`, one run, the recorded length is 0 and
`load_datagram` leaves the caller's array (here all 7) as it was. -/
theorem corruption_not_detected :
    (valid_payloads [0x100, 0x000] ∧ valid_payloads [0x1FF])
    ∧ [0x100, 0x000].map frame_of_payload = [0x600, 0x400]
    ∧ (0x400 &&& 0x03FF = 0x000 ∧ frame_of_payload 0x1FF ||| 0x0001 = 0x7FF)
    ∧ ((frame_from_datagram tx_zero (datagram_of [0x600, 0x000] (fun _ => 0))).bind
          (fun s1 => load_datagram
            { rx_init (fun _ => 0) with
              rx_buffer := s1.tx_buffer, rx_buffer_pointer_max := s1.tx_buffer_pointer_max }
            (fun _ => 7))).map
        (fun r => (List.range 3).map r.2)
      = some [0x100, 0xFFFF, 7]
    ∧ ((frame_from_datagram tx_zero (datagram_of [0x7FF] (fun _ => 0))).bind
          (fun s1 => load_datagram
            { rx_init (fun _ => 0) with
              rx_buffer := s1.tx_buffer, rx_buffer_pointer_max := s1.tx_buffer_pointer_max }
            (fun _ => 7))).map
        (fun r => (List.range 3).map r.2)
      = some [7, 7, 7] := by
  refine ⟨⟨by unfold valid_payloads; decide, by unfold valid_payloads; decide⟩, by rfl,
    ⟨by rfl, by rfl⟩, by rfl, by rfl⟩

/-- C6, amended. For every valid payload sequence `P` and every frame position
`k`, let frame `k` be altered by setting its start bit (`f | 0x0001`) or by
clearing its stop bit (`f & 0x03FF`) before `frame_from_datagram` converts the
frames to run durations, and let the altered frames have at most 64 runs
(`SUP_BUFFER_SIZE`).  If the altered frame is not the last frame, or still has
two runs or more, then `frame_from_datagram` records a length below 64, and
decoding an inbound buffer whose 64 entries hold what it wrote, with the
length it recorded, returns with `rx_datagram[0] == 0xFFFF`, whatever the
memory behind the inbound buffer holds. -/
theorem corruption_detected (s : TxState) (rx : RxState) (P : List Nat) (rest d : Cells)
    (k a : Nat) (hP : valid_payloads P) (hk : k < P.length)
    (ha : a = frame_of_payload (P.getD k 0) ||| 0x0001
      ∨ a = frame_of_payload (P.getD k 0) &&& 0x03FF)
    (hlast : k + 1 < P.length ∨ 2 ≤ (frame_run_lengths a).length)
    (hm : (runs_of ((P.map frame_of_payload).set k a)).length ≤ 64) :
    ∃ s1, frame_from_datagram s (datagram_of ((P.map frame_of_payload).set k a) rest) = some s1
      ∧ s1.tx_buffer_pointer_max < 64
      ∧ ∀ rx_buffer : Cells, (∀ i, i < 64 → rx_buffer i = s1.tx_buffer i) →
          ∃ res, load_datagram
              { rx with rx_buffer := rx_buffer, rx_buffer_pointer_max := s1.tx_buffer_pointer_max }
              d = some res
            ∧ res.2 0 = 0xFFFF := by
  have hlenF : ((P.map frame_of_payload).set k a).length = P.length := by
    rw [List.length_set, List.length_map]
  have hP1 := hP.1
  have hP11 := hP.2.1
  have hne : (P.map frame_of_payload).set k a ≠ [] := by
    intro h
    have h2 : ((P.map frame_of_payload).set k a).length = 0 := by rw [h]; rfl
    rw [hlenF] at h2
    omega
  obtain ⟨hfv0, hfv1, hfv2⟩ := frame_of_payload_valid (P.getD k 0)
  have hgetD : ∀ j, j < P.length → ((P.map frame_of_payload).set k a).getD j 0
      = if j = k then a else frame_of_payload (P.getD j 0) := by
    intro j hj
    rw [getD_set _ _ _ _ (by rw [List.length_map]; exact hj)]
    by_cases h : j = k
    · rw [if_pos h, if_pos h]
    · rw [if_neg h, if_neg h, List.getD_eq_getElem _ _ (by rw [List.length_map]; exact hj),
        List.getElem_map, List.getD_eq_getElem _ _ hj]
  have hlt : ∀ f ∈ (P.map frame_of_payload).set k a, f < 2048 := by
    intro f hf
    obtain ⟨j, hj, rfl⟩ := List.getElem_of_mem hf
    rw [hlenF] at hj
    have := hgetD j hj
    rw [List.getD_eq_getElem _ _ (by rw [hlenF]; exact hj)] at this
    rw [this]
    by_cases h : j = k
    · rw [if_pos h]; exact altered_frame_lt _ a hfv0 ha
    · rw [if_neg h]; exact (frame_of_payload_valid _).1
  have hlastF : ∀ F1 f1, (P.map frame_of_payload).set k a = F1 ++ [f1] →
      2 ≤ (frame_run_lengths f1).length := by
    intro F1 f1 h
    have h1 := getD_last_of_append _ F1 f1 h
    rw [hlenF, hgetD _ (by omega)] at h1
    by_cases hkl : P.length - 1 = k
    · rw [if_pos hkl] at h1
      rw [← h1]
      rcases hlast with h2 | h2
      · omega
      · exact h2
    · rw [if_neg hkl] at h1
      rw [← h1]
      exact frame_of_payload_two _
  obtain ⟨hstate, hholds, hlt256⟩ := frame_from_datagram_frames s
    ((P.map frame_of_payload).set k a) rest (fun f hf => by have := hlt f hf; omega)
    (by rw [hlenF]; exact hP11) hne
  have hm2 : 2 ≤ (runs_of ((P.map frame_of_payload).set k a)).length := by
    obtain ⟨F1, f1, hF⟩ : ∃ F1 f1, (P.map frame_of_payload).set k a = F1 ++ [f1] :=
      ⟨_, _, (List.dropLast_append_getLast hne).symm⟩
    have h1 := hlastF F1 f1 hF
    have h2 := runs_of_length_ge_last _ F1 f1 hF
    omega
  refine ⟨_, hstate, by simp only []; omega, ?_⟩
  intro rx_buffer hcopy
  have hdec := datagram_from_frame_frames ((P.map frame_of_payload).set k a)
    rx_buffer d hne
    (holds_runs_congr _ _ _ (fun j hj => hcopy j (by omega)) hholds) hlt256
    (by rw [hlenF]; exact hP11) hlastF
  obtain ⟨n, d', hn1, hn11, hflt, hfend, hload, hiff, _⟩ := load_datagram_of_frames
    { rx with
      rx_buffer := rx_buffer
      rx_buffer_pointer_max := (runs_of ((P.map frame_of_payload).set k a)).length - 1 } d
    (by simp only []; omega) _ hdec
  refine ⟨_, hload, ?_⟩
  have hlenD : (((P.map frame_of_payload).set k a).map decoded_frame).length = P.length := by
    rw [List.length_map, hlenF]
  have hcell : ∀ j, j < P.length →
      datagram_of (((P.map frame_of_payload).set k a).map decoded_frame) d j
        = decoded_frame (((P.map frame_of_payload).set k a).getD j 0) := by
    intro j hj
    rw [datagram_of_lt _ _ _ (by rw [hlenD]; exact hj),
      List.getD_eq_getElem _ _ (by rw [hlenD]; exact hj), List.getElem_map,
      List.getD_eq_getElem _ _ (by rw [hlenF]; exact hj)]
  have hn : n = P.length := by
    rcases Nat.lt_trichotomy n P.length with h | h | h
    · have h1 := hcell n h
      have h2 := decoded_frame_lt (((P.map frame_of_payload).set k a).getD n 0)
      rw [← h1, hfend] at h2
      omega
    · exact h
    · have h1 := hflt P.length h
      have h2 := datagram_of_end (((P.map frame_of_payload).set k a).map decoded_frame) d
      rw [hlenD] at h2
      rw [h2] at h1
      omega
  apply hiff.mpr
  refine ⟨k, by omega, Or.inr ?_⟩
  rw [hcell k hk, hgetD k hk, if_pos rfl]
  exact altered_frame_decoded _ a hfv1 hfv2 ha

/-- Witness of the amended C6: `[0x1F1, 0x002]` with the start bit of frame 1 set. -/
theorem corruption_detected_witness :
    ∃ s1, frame_from_datagram tx_zero
          (datagram_of (([0x1F1, 0x002].map frame_of_payload).set 1 0x405) (fun _ => 0)) = some s1
      ∧ s1.tx_buffer_pointer_max < 64
      ∧ ∀ rx_buffer : Cells, (∀ i, i < 64 → rx_buffer i = s1.tx_buffer i) →
          ∃ res, load_datagram
              { rx_init (fun _ => 0) with
                rx_buffer := rx_buffer, rx_buffer_pointer_max := s1.tx_buffer_pointer_max }
              (fun _ => 7) = some res
            ∧ res.2 0 = 0xFFFF :=
  corruption_detected tx_zero (rx_init (fun _ => 0)) [0x1F1, 0x002] (fun _ => 0) (fun _ => 7)
    1 0x405 (by unfold valid_payloads; decide) (by decide) (Or.inl (by rfl)) (Or.inr (by decide))
    (by decide)

/-- C7. Round-half-up bit counting with jitter tolerance: for every bit count
`k ≤ 11` and offset `e`, `-104 ≤ e ≤ 103`, such that `d = 208 * k + e` is at
most 2291, `run_from_rx_buffer` on a buffer entry holding `d` returns exactly
`k`; and it returns `k` on the entry that `tx_buffer_from_run` writes for `k`. -/
theorem run_from_rx_buffer_rounds (rx_buffer : Cells) (run_index k d : Nat) (e : Int)
    (hk : k ≤ 11) (he1 : -104 ≤ e) (he2 : e ≤ 103) (hd : (d : Int) = 208 * (k : Int) + e)
    (hd2 : d ≤ 2291) (hbuf : rx_buffer run_index = d) :
    run_from_rx_buffer run_index rx_buffer = k
      ∧ ∀ tx_buffer, run_from_rx_buffer run_index (tx_buffer_from_run k run_index tx_buffer) = k := by
  constructor
  · unfold run_from_rx_buffer MICROSECONDS_PER_BIT
    simp only [hbuf]
    split <;> omega
  · intro tx_buffer
    unfold run_from_rx_buffer tx_buffer_from_run MICROSECONDS_PER_BIT
    simp only [store_same]
    split <;> omega

/-- Witness of C7: 103 microseconds give 0 bits, 104 give 1, 208 * 5 give 5,
and the idle value 2291 gives 11. -/
theorem run_from_rx_buffer_rounds_witness :
    run_from_rx_buffer 0 (fun _ => 103) = 0
      ∧ run_from_rx_buffer 0 (fun _ => 104) = 1
      ∧ run_from_rx_buffer 0 (fun _ => 1040) = 5
      ∧ run_from_rx_buffer 0 (fun _ => 2291) = 11 :=
  ⟨(run_from_rx_buffer_rounds (fun _ => 103) 0 0 103 103 (by decide) (by decide) (by decide)
      (by decide) (by decide) rfl).1,
    (run_from_rx_buffer_rounds (fun _ => 104) 0 1 104 (-104) (by decide) (by decide) (by decide)
      (by decide) (by decide) rfl).1,
    (run_from_rx_buffer_rounds (fun _ => 1040) 0 5 1040 0 (by decide) (by decide) (by decide)
      (by decide) (by decide) rfl).1,
    (run_from_rx_buffer_rounds (fun _ => 2291) 0 11 2291 3 (by decide) (by decide) (by decide)
      (by decide) (by decide) rfl).1⟩

/-- C8. Idle-gap clamp: for every receive state and every two values `t1`,
`t2` of `micros()` whose elapsed time since the previous edge, computed modulo
2^32, is at least 2291 microseconds, `PCINT_ISR` produces the same capturing
flag, write cursor, inbound buffer and inbound length for `t1` as for `t2`. -/
theorem idle_gap_clamp (s : RxState) (t1 t2 : Nat)
    (h1 : 2291 ≤ (t1 % 4294967296 + 4294967296 - s.previous_run_start_time) % 4294967296)
    (h2 : 2291 ≤ (t2 % 4294967296 + 4294967296 - s.previous_run_start_time) % 4294967296) :
    (PCINT_ISR t1 s).capturing = (PCINT_ISR t2 s).capturing
      ∧ (PCINT_ISR t1 s).rx_buffer_pointer = (PCINT_ISR t2 s).rx_buffer_pointer
      ∧ (PCINT_ISR t1 s).rx_buffer = (PCINT_ISR t2 s).rx_buffer
      ∧ (PCINT_ISR t1 s).rx_buffer_pointer_max = (PCINT_ISR t2 s).rx_buffer_pointer_max := by
  have e1 : min MICROSECONDS_PER_FRAME
      ((t1 % 4294967296 + 4294967296 - s.previous_run_start_time) % 4294967296)
      = MICROSECONDS_PER_FRAME := Nat.min_eq_left h1
  have e2 : min MICROSECONDS_PER_FRAME
      ((t2 % 4294967296 + 4294967296 - s.previous_run_start_time) % 4294967296)
      = MICROSECONDS_PER_FRAME := Nat.min_eq_left h2
  unfold PCINT_ISR
  simp only [e1, e2, and_self]

/-- Witness of C8: while capturing, with the previous edge at 1000
microseconds, intervals of 2291 and of 5000 microseconds finalize alike. -/
theorem idle_gap_clamp_witness :
    (PCINT_ISR 3291 rx_capturing_example).rx_buffer_pointer_max
        = (PCINT_ISR 6000 rx_capturing_example).rx_buffer_pointer_max
      ∧ (PCINT_ISR 6000 rx_capturing_example).rx_buffer_pointer_max = 7 :=
  ⟨(idle_gap_clamp rx_capturing_example 3291 6000 (by decide) (by decide)).2.2.2, rfl⟩

/-- C9. Inbound overrun never loses buffer bounds: in every state reachable
from start-up by edges and consumer resets, the write cursor is at most 63 and
the published inbound length is at most 63; an edge writes `_rx_buffer` at the
cursor only; and when a run shorter than 2291 microseconds arrives while
capturing with the cursor at 63, the engine stops capturing, stores 2291 at
index 63 and publishes the length 63. -/
theorem inbound_bounds (rx_buffer : Cells) (es : List RxEvent) (micros : Nat) :
    (rx_run (rx_init rx_buffer) es).rx_buffer_pointer ≤ 63
      ∧ (rx_run (rx_init rx_buffer) es).rx_buffer_pointer_max ≤ 63
      ∧ (∀ j, j ≠ (rx_run (rx_init rx_buffer) es).rx_buffer_pointer →
          (PCINT_ISR micros (rx_run (rx_init rx_buffer) es)).rx_buffer j
            = (rx_run (rx_init rx_buffer) es).rx_buffer j)
      ∧ ((rx_run (rx_init rx_buffer) es).capturing = true →
          (rx_run (rx_init rx_buffer) es).rx_buffer_pointer = 63 →
          (micros % 4294967296 + 4294967296
              - (rx_run (rx_init rx_buffer) es).previous_run_start_time) % 4294967296 < 2291 →
          (PCINT_ISR micros (rx_run (rx_init rx_buffer) es)).capturing = false
            ∧ (PCINT_ISR micros (rx_run (rx_init rx_buffer) es)).rx_buffer 63 = 2291
            ∧ (PCINT_ISR micros (rx_run (rx_init rx_buffer) es)).rx_buffer_pointer_max = 63) := by
  obtain ⟨hc, hl⟩ := rx_run_bounds (rx_init rx_buffer) es (Nat.zero_le _) (Nat.zero_le _)
  refine ⟨hc, hl, (PCINT_ISR_bounds micros _ hc hl).2.2, ?_⟩
  intro hcap h63 hshort
  have hd : ¬ min MICROSECONDS_PER_FRAME
      ((micros % 4294967296 + 4294967296
        - (rx_run (rx_init rx_buffer) es).previous_run_start_time) % 4294967296)
      = MICROSECONDS_PER_FRAME := by
    unfold MICROSECONDS_PER_FRAME
    omega
  unfold PCINT_ISR
  simp only []
  rw [if_neg hd, if_pos hcap, if_neg (by rw [h63]; decide)]
  refine ⟨rfl, ?_, h63⟩
  simp only []
  rw [h63]
  exact store_same _ _ _

set_option maxRecDepth 20000 in
/-- Witness of C9: an idle gap, then 64 edges 208 microseconds apart; run 64
arrives with the cursor at 63 and forces the finalization. -/
theorem inbound_bounds_witness :
    (rx_run (rx_init (fun _ => 0))
        ((List.range 64).map (fun i => RxEvent.edge (3000 + 208 * i)))).rx_buffer_pointer = 63
    ∧ (rx_run (rx_init (fun _ => 0))
        ((List.range 64).map (fun i => RxEvent.edge (3000 + 208 * i)))).capturing = true
    ∧ (PCINT_ISR 16312 (rx_run (rx_init (fun _ => 0))
        ((List.range 64).map (fun i => RxEvent.edge (3000 + 208 * i))))).capturing = false
    ∧ (PCINT_ISR 16312 (rx_run (rx_init (fun _ => 0))
        ((List.range 64).map (fun i => RxEvent.edge (3000 + 208 * i))))).rx_buffer 63 = 2291
    ∧ (PCINT_ISR 16312 (rx_run (rx_init (fun _ => 0))
        ((List.range 64).map (fun i => RxEvent.edge (3000 + 208 * i))))).rx_buffer_pointer_max = 63 :=
  ⟨rfl, rfl,
    (inbound_bounds (fun _ => 0) ((List.range 64).map (fun i => RxEvent.edge (3000 + 208 * i)))
      16312).2.2.2 rfl rfl (by decide)⟩

/-- C10. Decode always frees the inbound buffer: for every receive state with
nonzero inbound length, whenever `load_datagram` returns it has set the
inbound length to 0 (and left the rest of the receive state as it was),
whether or not a frame is invalid; and on every finalized buffer
(`_rx_buffer[L] == 2291`) it does return. -/
theorem load_datagram_frees_buffer (s : RxState) (rx_datagram : Cells)
    (hlen : s.rx_buffer_pointer_max ≠ 0) :
    (∀ res, load_datagram s rx_datagram = some res →
        res.1.rx_buffer_pointer_max = 0 ∧ res.1 = { s with rx_buffer_pointer_max := 0 })
      ∧ (s.rx_buffer_pointer_max < 256 →
          s.rx_buffer s.rx_buffer_pointer_max = MICROSECONDS_PER_FRAME →
          ∃ res, load_datagram s rx_datagram = some res ∧ res.1.rx_buffer_pointer_max = 0) := by
  have h1 : ∀ res, load_datagram s rx_datagram = some res →
      res.1.rx_buffer_pointer_max = 0 ∧ res.1 = { s with rx_buffer_pointer_max := 0 } := by
    intro res hres
    have := load_datagram_state s rx_datagram res hlen hres
    exact ⟨by rw [this], this⟩
  refine ⟨h1, fun hL hT => ?_⟩
  obtain ⟨res, hres⟩ := load_datagram_returns s rx_datagram hL hT
  exact ⟨res, hres, (h1 res hres).1⟩

/-- Witness of C10: a buffer that decodes cleanly and one with an invalid frame. -/
theorem load_datagram_frees_buffer_witness :
    (∃ res, load_datagram rx_example (fun _ => 0) = some res ∧ res.1.rx_buffer_pointer_max = 0)
    ∧ (∃ res, load_datagram rx_example_bad (fun _ => 0) = some res
        ∧ res.1.rx_buffer_pointer_max = 0) :=
  ⟨(load_datagram_frees_buffer rx_example (fun _ => 0) (by decide)).2 (by decide) rfl,
    (load_datagram_frees_buffer rx_example_bad (fun _ => 0) (by decide)).2 (by decide) rfl⟩

/-- C11. Run extraction shape: for every frame value, `run_from_frame` emits the
maximal runs of equal bits of the frame's 11 bits (one call of
`tx_buffer_from_run` and one increment of the run index per run); these are at
least 1 and at most 11 runs, each of length at least 1, their lengths sum to
exactly 11, and the run index advances (as a `uint8_t`) by exactly their number. -/
theorem run_from_frame_shape (frame run_index : Nat) (tx_buffer : Cells) :
    run_from_frame frame run_index tx_buffer
        = emit_runs (frame_run_lengths frame) run_index tx_buffer
      ∧ 1 ≤ (frame_run_lengths frame).length
      ∧ (frame_run_lengths frame).length ≤ 11
      ∧ (∀ r ∈ frame_run_lengths frame, 1 ≤ r)
      ∧ (frame_run_lengths frame).sum = 11
      ∧ (run_from_frame frame run_index tx_buffer).2
          = (run_index + (frame_run_lengths frame).length) % 256 := by
  have hlen := runs_after_length (frame.testBit 0) 1 (bits_lsb 10 (frame >>> 1))
  rw [bits_lsb_length] at hlen
  have hdef : frame_run_lengths frame
      = (runs_after (frame.testBit 0) 1 (bits_lsb 10 (frame >>> 1))).map Prod.snd := rfl
  refine ⟨run_from_frame_eq_emit frame run_index tx_buffer, ?_, ?_, ?_, ?_, ?_⟩
  · rw [hdef, List.length_map]; exact hlen.1
  · rw [hdef, List.length_map]; exact hlen.2
  · rw [hdef]; exact runs_after_pos _ _ _ (le_refl 1)
  · rw [hdef, runs_after_sum, bits_lsb_length]
  · rw [run_from_frame_eq_emit]
    rcases emit_runs_index (frame_run_lengths frame) run_index tx_buffer with h | ⟨h1, _⟩
    · exact h
    · rw [hdef] at h1
      have h2 := congrArg List.length h1
      rw [List.length_map, List.length_nil] at h2
      omega

/-- C12. Encoded wire image: for every valid payload sequence `P`,
`send_datagram` returns, and then the outbound buffer entries `0 .. m-1` are,
in order, 208 times the lengths of the maximal runs of equal bits of the frames
`((p << 1) & 0x03FF) | 0x0400`, each read from bit 0 to bit 10 and the runs cut
at every frame boundary (`wire_runs P`, of length `m`); entry 0 is the duration
of a run of 0s, and entry `_tx_buffer_pointer_max` is the duration of the run
of 1s that ends the datagram. -/
theorem send_datagram_wire_image (s : TxState) (P : List Nat) (rest : Cells)
    (hP : valid_payloads P) :
    ∃ s' d', send_datagram s (datagram_of P rest) = some (s', d')
      ∧ (List.range (wire_runs P).length).map s'.tx_buffer
          = (wire_runs P).map (fun r => 208 * r.2)
      ∧ (∃ r, (wire_runs P).head? = some (false, r) ∧ s'.tx_buffer 0 = 208 * r)
      ∧ (∃ r, (wire_runs P).getLast? = some (true, r)
            ∧ s'.tx_buffer s'.tx_buffer_pointer_max = 208 * r) := by
  obtain ⟨s', hsend, hcells, hmax⟩ := send_datagram_cells s P rest hP
  have hm0 := wire_runs_length_pos P hP.1
  have hcell : ∀ j, j < (wire_runs P).length →
      s'.tx_buffer j = 208 * ((wire_runs P).getD j (false, 0)).2 := by
    intro j hj
    rw [hcells j, if_pos hj, List.getD_eq_getElem _ _ hj,
      List.getD_eq_getElem _ _ (by simpa using hj), List.getElem_map, Nat.mul_comm]
    rfl
  refine ⟨s', _, hsend, ?_, ?_, ?_⟩
  · apply List.ext_getElem
    · simp
    · intro n h1 h2
      have hn : n < (wire_runs P).length := by simpa using h1
      simp only [List.getElem_map, List.getElem_range]
      rw [hcell n hn, List.getD_eq_getElem _ _ hn]
  · obtain ⟨r, hr⟩ := wire_runs_head P hP.1
    refine ⟨r, hr, ?_⟩
    rw [hcell 0 hm0, List.getD_eq_getElem _ _ hm0]
    rw [List.head?_eq_getElem?, List.getElem?_eq_getElem hm0] at hr
    rw [Option.some.inj hr]
  · obtain ⟨r, hr⟩ := wire_runs_last P hP.1
    refine ⟨r, hr, ?_⟩
    have hl : (wire_runs P).length - 1 < (wire_runs P).length := by omega
    rw [hmax, hcell _ hl, List.getD_eq_getElem _ _ hl]
    rw [List.getLast?_eq_getElem?, List.getElem?_eq_getElem hl] at hr
    rw [Option.some.inj hr]

/-- Witness of C12 at the payload sequence `[0x1F1, 0x002]`. -/
theorem send_datagram_wire_image_witness :
    valid_payloads [0x1F1, 0x002] ∧
    ∃ s' d', send_datagram tx_zero (datagram_of [0x1F1, 0x002] (fun _ => 0)) = some (s', d')
      ∧ (List.range (wire_runs [0x1F1, 0x002]).length).map s'.tx_buffer
          = (wire_runs [0x1F1, 0x002]).map (fun r => 208 * r.2)
      ∧ (∃ r, (wire_runs [0x1F1, 0x002]).head? = some (false, r) ∧ s'.tx_buffer 0 = 208 * r)
      ∧ (∃ r, (wire_runs [0x1F1, 0x002]).getLast? = some (true, r)
            ∧ s'.tx_buffer s'.tx_buffer_pointer_max = 208 * r) :=
  ⟨by unfold valid_payloads; decide,
    send_datagram_wire_image tx_zero [0x1F1, 0x002] (fun _ => 0)
      (by unfold valid_payloads; decide)⟩

/-- C13, counterexample. For the valid payload sequence `[0x1F1, 0x002]`, sent
from a zeroed transmit state, `frame_from_datagram` writes 8 run durations (its
run index ends at 8; cells 0 to 7 are written, cell 8 is not) and records the
outbound length 7, not 8. -/
theorem outbound_length_counterexample :
    (frame_from_datagram_loop 256 (datagram_of [0x07E2, 0x0404] (fun _ => 0)) 0 0
        tx_zero.tx_buffer).map Prod.snd = some 8
    ∧ (send_datagram tx_zero (datagram_of [0x1F1, 0x002] (fun _ => 0))).map
        (fun r => (r.1.tx_buffer_pointer_max, (List.range 9).map r.1.tx_buffer, (List.range 3).map r.2))
      = some (7, [208, 208, 624, 1248, 416, 208, 1456, 208, 0], [0x07E2, 0x0404, 0xFFFF]) := by
  constructor <;> rfl

/-- C13, amended. For every valid payload sequence `send_datagram` returns, and
then the outbound length field is the number of run durations written for
the message less one: the loop of `frame_from_datagram` ends with the run index
at `m`, the number of runs of the wire image, exactly the cells `0 .. m-1` of
the buffer are written, and `_tx_buffer_pointer_max` is `m - 1`, the index of
the last run written; it is never 0. -/
theorem outbound_length_is_last_index (s : TxState) (P : List Nat) (rest : Cells)
    (hP : valid_payloads P) :
    ∃ s' d', send_datagram s (datagram_of P rest) = some (s', d')
      ∧ frame_from_datagram_loop 256 d' 0 0 s.tx_buffer
          = some (s'.tx_buffer, (wire_runs P).length)
      ∧ s'.tx_buffer_pointer_max + 1 = (wire_runs P).length
      ∧ 1 ≤ s'.tx_buffer_pointer_max
      ∧ (∀ j, j < (wire_runs P).length →
          s'.tx_buffer j = 208 * ((wire_runs P).getD j (false, 0)).2)
      ∧ (∀ j, (wire_runs P).length ≤ j → s'.tx_buffer j = s.tx_buffer j) := by
  have hm1 := wire_runs_length_le P
  have hm2 := wire_runs_length_two P hP.1
  have hP11 := hP.2.1
  obtain ⟨hc, hi⟩ := emit_runs_cells ((wire_runs P).map Prod.snd) 0 s.tx_buffer (by omega)
    (by simp only [List.length_map]; omega)
  simp only [List.length_map, Nat.zero_add, Nat.sub_zero, Nat.zero_le, true_and] at hc hi
  have hi' : (emit_runs ((wire_runs P).map Prod.snd) 0 s.tx_buffer).2 = (wire_runs P).length := by
    rw [hi]; omega
  have hloop := frame_from_datagram_loop_ok (P.map frame_of_payload) [] rest 256 0 s.tx_buffer
    (by simp only [List.length_map]; omega)
    (by simp only [List.nil_append, List.length_map]; omega)
    (by
      intro x hx
      simp only [List.mem_map] at hx
      obtain ⟨p, _, rfl⟩ := hx
      exact frame_of_payload_ne p)
  simp only [List.nil_append, List.length_nil] at hloop
  refine ⟨_, _, send_datagram_valid s P rest hP, ?_, ?_, ?_, ?_, ?_⟩
  · rw [hloop, wire_runs_lengths, ← hi']
  · simp only []; rw [hi']; omega
  · simp only []; rw [hi']; omega
  · intro j hj
    simp only []
    rw [hc j, if_pos hj, List.getD_eq_getElem _ _ hj,
      List.getD_eq_getElem _ _ (by simpa using hj), List.getElem_map, Nat.mul_comm]
    rfl
  · intro j hj
    simp only []
    rw [hc j, if_neg (by omega)]

/-- Witness of the amended C13 at the payload sequence `[0x1F1, 0x002]`. -/
theorem outbound_length_is_last_index_witness :
    valid_payloads [0x1F1, 0x002] ∧
    ∃ s' d', send_datagram tx_zero (datagram_of [0x1F1, 0x002] (fun _ => 0)) = some (s', d')
      ∧ frame_from_datagram_loop 256 d' 0 0 tx_zero.tx_buffer
          = some (s'.tx_buffer, (wire_runs [0x1F1, 0x002]).length)
      ∧ s'.tx_buffer_pointer_max + 1 = (wire_runs [0x1F1, 0x002]).length
      ∧ 1 ≤ s'.tx_buffer_pointer_max
      ∧ (∀ j, j < (wire_runs [0x1F1, 0x002]).length →
          s'.tx_buffer j = 208 * ((wire_runs [0x1F1, 0x002]).getD j (false, 0)).2)
      ∧ (∀ j, (wire_runs [0x1F1, 0x002]).length ≤ j → s'.tx_buffer j = tx_zero.tx_buffer j) :=
  ⟨by unfold valid_payloads; decide,
    outbound_length_is_last_index tx_zero [0x1F1, 0x002] (fun _ => 0)
      (by unfold valid_payloads; decide)⟩

/-- C14, the code at a failing input. The valid sequence of 7 payloads
`[0x155, 0x0AA, 0x0AA, 0x0AA, 0x0AA, 0x0AA, 0x0AA]` has 70 runs: sent from a
zeroed transmit state, `send_datagram` writes the cells 64 to 69, outside the
64 entries of `_tx_buffer`, and records the outbound length 69. -/
theorem send_datagram_overflows_tx_buffer :
    valid_payloads [0x155, 0x0AA, 0x0AA, 0x0AA, 0x0AA, 0x0AA, 0x0AA]
    ∧ (send_datagram tx_zero
          (datagram_of [0x155, 0x0AA, 0x0AA, 0x0AA, 0x0AA, 0x0AA, 0x0AA] (fun _ => 0))).map
        (fun r => (r.1.tx_buffer_pointer_max, (List.range' 63 8).map r.1.tx_buffer))
      = some (69, [208, 208, 208, 208, 208, 208, 208, 0])
    ∧ (List.range' 63 8).map tx_zero.tx_buffer = [0, 0, 0, 0, 0, 0, 0, 0]
    ∧ SUP_BUFFER_SIZE = 64 := by
  refine ⟨by unfold valid_payloads; decide, by rfl, by rfl, by rfl⟩

/-- C15. Receive with nothing buffered is a no-op: when the inbound length is
0, `load_datagram` returns with the caller's array, the inbound buffer and the
inbound length (the whole receive state) unchanged. -/
theorem load_datagram_nothing_buffered (s : RxState) (rx_datagram : Cells)
    (h : s.rx_buffer_pointer_max = 0) :
    load_datagram s rx_datagram = some (s, rx_datagram) := by
  unfold load_datagram
  simp only [h, if_true]

/-- Witness of C15 at the start-up state and an array of twelve 0x1234. -/
theorem load_datagram_nothing_buffered_witness :
    (rx_init (fun _ => 7)).rx_buffer_pointer_max = 0 ∧
    load_datagram (rx_init (fun _ => 7)) (fun _ => 0x1234)
      = some (rx_init (fun _ => 7), fun _ => 0x1234) :=
  ⟨rfl, load_datagram_nothing_buffered (rx_init (fun _ => 7)) (fun _ => 0x1234) rfl⟩

/-- C16. Transmit drain: from a state with cursor 0 and outbound length `L`,
`1 ≤ L ≤ 63`, the state before firing `i` of `OCR2A_ISR` (`i < L`) has the
cursor at `i` and the length still `L`; firing `i` drives the logical bus
level 0 when `i` is even and 1 (idle) when `i` is odd, arms `OCR2A` with
`uint8_t((_tx_buffer[i] >> 4) - 1)`, which is `(_tx_buffer[i] >> 4) - 1` when
that fits a `uint8_t` and `13 * k - 1` for a run of `k` bits, leaves the buffer
unchanged, and leaves the length `L` unless `i = L - 1`, when it makes it 0. -/
theorem transmit_drain (s : TxState) (L i : Nat) (hL1 : 1 ≤ L) (hL : L ≤ 63)
    (hc : s.tx_buffer_pointer = 0) (hmax : s.tx_buffer_pointer_max = L) (hi : i < L) :
    (OCR2A_ISR^[i] s).tx_buffer_pointer = i
      ∧ (OCR2A_ISR^[i] s).tx_buffer_pointer_max = L
      ∧ bus_level (OCR2A_ISR^[i + 1] s).tx_port = (if i % 2 = 0 then 0 else 1)
      ∧ (OCR2A_ISR^[i + 1] s).OCR2A = ((s.tx_buffer i >>> 4) + 256 - 1) % 256
      ∧ (16 ≤ s.tx_buffer i → s.tx_buffer i < 4112 →
          (OCR2A_ISR^[i + 1] s).OCR2A = (s.tx_buffer i >>> 4) - 1)
      ∧ (∀ k, 1 ≤ k → k ≤ 19 → s.tx_buffer i = k * 208 →
          (OCR2A_ISR^[i + 1] s).OCR2A = 13 * k - 1)
      ∧ (OCR2A_ISR^[i + 1] s).tx_buffer = s.tx_buffer
      ∧ (OCR2A_ISR^[i + 1] s).tx_buffer_pointer_max = (if i = L - 1 then 0 else L) := by
  obtain ⟨h1, h2, h3⟩ := OCR2A_ISR_draining s L hL hc hmax i hi
  have hne : ¬ (OCR2A_ISR^[i] s).tx_buffer_pointer_max = 0 := by omega
  obtain ⟨b1, b2, b3, b4, b5, _⟩ := OCR2A_ISR_busy _ hne
  rw [Function.iterate_succ_apply', b1, b3, b4, b5, h1, h2, h3]
  have hocr : ((s.tx_buffer i >>> 4) + 256 - 1) % 256
      = (s.tx_buffer i / 16 + 255) % 256 := by
    rw [Nat.shiftRight_eq_div_pow]; rfl
  refine ⟨rfl, rfl, ?_, rfl, ?_, ?_, rfl, ?_⟩
  · rw [Nat.and_one_is_mod]
    rcases Nat.mod_two_eq_zero_or_one i with h | h
    · rw [if_neg (by omega), bus_level_set, if_pos h]
    · rw [if_pos (by omega), bus_level_clear, if_neg (by omega)]
  · intro ha hb
    rw [hocr, Nat.shiftRight_eq_div_pow]
    have e : (2 : Nat) ^ 4 = 16 := by norm_num
    rw [e]
    omega
  · intro k hk1 hk2 hk
    rw [hocr, hk]
    omega
  · by_cases hlast : i = L - 1
    · rw [if_pos hlast, if_pos (by omega)]
    · rw [if_neg hlast, if_neg (by omega)]

/-- Witness of C16 at `drain_example` (`L = 3`): firing 1 drives the idle
level and arms 25 ticks for the run of 2 bits, firing 2 drives level 0, arms 38
ticks for the run of 3 bits and makes the length 0. -/
theorem transmit_drain_witness :
    (bus_level (OCR2A_ISR^[2] drain_example).tx_port = 1
      ∧ (OCR2A_ISR^[2] drain_example).OCR2A = 25
      ∧ (OCR2A_ISR^[2] drain_example).tx_buffer_pointer_max = 3)
    ∧ (bus_level (OCR2A_ISR^[3] drain_example).tx_port = 0
      ∧ (OCR2A_ISR^[3] drain_example).OCR2A = 38
      ∧ (OCR2A_ISR^[3] drain_example).tx_buffer_pointer_max = 0) :=
  have h1 := transmit_drain drain_example 3 1 (by decide) (by decide) rfl rfl (by decide)
  have h2 := transmit_drain drain_example 3 2 (by decide) (by decide) rfl rfl (by decide)
  ⟨⟨h1.2.2.1, h1.2.2.2.2.2.1 2 (by decide) (by decide) rfl, h1.2.2.2.2.2.2.2⟩,
    ⟨h2.2.2.1, h2.2.2.2.2.2.1 3 (by decide) (by decide) rfl, h2.2.2.2.2.2.2.2⟩⟩

/-- C17, the code at a failing input. After `[0x1F1, 0x002]` is sent from a
zeroed state (length 7), firing 7 of `OCR2A_ISR` resets the length to 0 and
leaves the cursor at 7: a reachable state with length 0 and cursor 7.  The
producer then observes length 0 (`tx_buffer_empty()`) and sends `[0x100]`
(length 1, run 0 of 1872 microseconds); the first firing on the new buffer
reads cell 7 (208, left by the previous datagram), drives the idle level,
moves the cursor to 8 and resets the length: run index 0 is never driven and
the datagram is not sent. -/
theorem cursor_not_reset_on_handback :
    (send_datagram tx_zero (datagram_of [0x1F1, 0x002] (fun _ => 0))).map
        (fun r => ((OCR2A_ISR^[6] r.1).tx_buffer_pointer_max,
          (OCR2A_ISR^[7] r.1).tx_buffer_pointer_max, (OCR2A_ISR^[7] r.1).tx_buffer_pointer))
      = some (7, 0, 7)
    ∧ ((send_datagram tx_zero (datagram_of [0x1F1, 0x002] (fun _ => 0))).bind
          (fun r => send_datagram (OCR2A_ISR^[7] r.1) (datagram_of [0x100] (fun _ => 0)))).map
        (fun r => (r.1.tx_buffer_pointer_max, r.1.tx_buffer 0, r.1.tx_buffer_pointer,
          (OCR2A_ISR r.1).this_run_duration, bus_level (OCR2A_ISR r.1).tx_port,
          (OCR2A_ISR r.1).tx_buffer_pointer, (OCR2A_ISR r.1).tx_buffer_pointer_max))
      = some (1, 1872, 7, 208, 1, 8, 0) := by
  constructor <;> rfl

/-- Where `OCR2A_ISR` does reset the cursor: in the firing that observes the
outbound length 0, not in the firing that resets the length.  After any firing
that observes length 0 the length and the cursor are both 0, and when the
producer then writes a buffer with a nonzero length `L`, the first firing on it
drives run index 0 (duration `_tx_buffer[0]`, bus level 0) and moves the
cursor to 1. -/
theorem cursor_reset_by_idle_firing (s : TxState) (tx_buffer : Cells) (L : Nat)
    (h0 : s.tx_buffer_pointer_max = 0) (hL : L ≠ 0) :
    (OCR2A_ISR s).tx_buffer_pointer_max = 0
      ∧ (OCR2A_ISR s).tx_buffer_pointer = 0
      ∧ (OCR2A_ISR { OCR2A_ISR s with
            tx_buffer := tx_buffer, tx_buffer_pointer_max := L }).this_run_duration
          = tx_buffer 0
      ∧ bus_level (OCR2A_ISR { OCR2A_ISR s with
            tx_buffer := tx_buffer, tx_buffer_pointer_max := L }).tx_port = 0
      ∧ (OCR2A_ISR { OCR2A_ISR s with
            tx_buffer := tx_buffer, tx_buffer_pointer_max := L }).tx_buffer_pointer = 1 := by
  obtain ⟨_, i2, i3, _, _⟩ := OCR2A_ISR_idle s h0
  obtain ⟨_, b2, _, _, b5, b6⟩ := OCR2A_ISR_busy
    { OCR2A_ISR s with tx_buffer := tx_buffer, tx_buffer_pointer_max := L } hL
  refine ⟨i3, i2, ?_, ?_, ?_⟩
  · rw [b6]; simp only [i2]
  · rw [b5]; simp only [i2]
    rw [if_neg (by decide), bus_level_set]
  · rw [b2]; simp only [i2]

/-- An instance of `cursor_reset_by_idle_firing`: a state after a handback
(length 0, cursor 7), one idle firing, then a buffer of length 1. -/
theorem cursor_reset_by_idle_firing_witness :
    (OCR2A_ISR { drain_example with tx_buffer_pointer_max := 0, tx_buffer_pointer := 7 }).tx_buffer_pointer_max = 0
      ∧ (OCR2A_ISR { drain_example with tx_buffer_pointer_max := 0, tx_buffer_pointer := 7 }).tx_buffer_pointer = 0
      ∧ (OCR2A_ISR { OCR2A_ISR { drain_example with tx_buffer_pointer_max := 0, tx_buffer_pointer := 7 } with
            tx_buffer := fun _ => 1872, tx_buffer_pointer_max := 1 }).this_run_duration
          = 1872
      ∧ bus_level (OCR2A_ISR { OCR2A_ISR { drain_example with tx_buffer_pointer_max := 0, tx_buffer_pointer := 7 } with
            tx_buffer := fun _ => 1872, tx_buffer_pointer_max := 1 }).tx_port = 0
      ∧ (OCR2A_ISR { OCR2A_ISR { drain_example with tx_buffer_pointer_max := 0, tx_buffer_pointer := 7 } with
            tx_buffer := fun _ => 1872, tx_buffer_pointer_max := 1 }).tx_buffer_pointer = 1 :=
  cursor_reset_by_idle_firing
    { drain_example with tx_buffer_pointer_max := 0, tx_buffer_pointer := 7 }
    (fun _ => 1872) 1 rfl (by decide)

/-- C18. Shape of a published inbound buffer: in every state reachable from
start-up by edges (`PCINT_ISR`) and consumer resets of the length, whenever the
published inbound length `L` is nonzero the engine has stopped capturing,
`_rx_buffer[L] == 2291`, `L` equals the write cursor, and every entry
`_rx_buffer[i]` with `i < L` is strictly less than 2291. -/
theorem published_buffer_shape (rx_buffer : Cells) (es : List RxEvent)
    (h : (rx_run (rx_init rx_buffer) es).rx_buffer_pointer_max ≠ 0) :
    (rx_run (rx_init rx_buffer) es).capturing = false
      ∧ (rx_run (rx_init rx_buffer) es).rx_buffer
          (rx_run (rx_init rx_buffer) es).rx_buffer_pointer_max = 2291
      ∧ (rx_run (rx_init rx_buffer) es).rx_buffer_pointer_max
          = (rx_run (rx_init rx_buffer) es).rx_buffer_pointer
      ∧ ∀ i, i < (rx_run (rx_init rx_buffer) es).rx_buffer_pointer_max →
          (rx_run (rx_init rx_buffer) es).rx_buffer i < 2291 :=
  (rx_shape_run (rx_init rx_buffer) es (rx_shape_init rx_buffer)).2 h

/-- Witness of C18: an idle gap, two edges 208 microseconds apart, an idle gap;
the engine publishes the length 2. -/
theorem published_buffer_shape_witness :
    (rx_run (rx_init (fun _ => 0))
        [RxEvent.edge 3000, RxEvent.edge 3208, RxEvent.edge 3416, RxEvent.edge 6000]).rx_buffer_pointer_max = 2
    ∧ (rx_run (rx_init (fun _ => 0))
        [RxEvent.edge 3000, RxEvent.edge 3208, RxEvent.edge 3416, RxEvent.edge 6000]).capturing = false
    ∧ (rx_run (rx_init (fun _ => 0))
        [RxEvent.edge 3000, RxEvent.edge 3208, RxEvent.edge 3416, RxEvent.edge 6000]).rx_buffer 2 = 2291 :=
  have h := published_buffer_shape (fun _ => 0)
    [RxEvent.edge 3000, RxEvent.edge 3208, RxEvent.edge 3416, RxEvent.edge 6000] (by decide)
  ⟨rfl, h.1, h.2.1⟩

/-- C19, counterexample. From start-up, an edge at 2291 microseconds begins a
capture and the next edge, at 4582 microseconds, finalizes it: the capturing
flag goes from true to false and the length published is 0. -/
theorem zero_length_datagram_published :
    (rx_edges (rx_init (fun _ => 0)) [2291]).capturing = true
    ∧ (rx_edges (rx_init (fun _ => 0)) [2291, 4582]).capturing = false
    ∧ (rx_edges (rx_init (fun _ => 0)) [2291, 4582]).rx_buffer_pointer_max = 0
    ∧ (rx_edges (rx_init (fun _ => 0)) [2291, 4582]).rx_buffer 0 = 2291 := by
  refine ⟨rfl, rfl, rfl, rfl⟩

/-- C19, amended. For every sequence of edges from start-up, whenever
`PCINT_ISR` finalizes a capture (the capturing flag goes from true to false),
the length it publishes is the write cursor, and it is 0 exactly when the
capture was begun by the edge just before (no run was captured in between);
in every other case it is nonzero. -/
theorem finalize_publishes_cursor (rx_buffer : Cells) (ts : List Nat) (t : Nat)
    (hc : (rx_edges (rx_init rx_buffer) ts).capturing = true)
    (hf : (PCINT_ISR t (rx_edges (rx_init rx_buffer) ts)).capturing = false) :
    (PCINT_ISR t (rx_edges (rx_init rx_buffer) ts)).rx_buffer_pointer_max
        = (rx_edges (rx_init rx_buffer) ts).rx_buffer_pointer
      ∧ ((PCINT_ISR t (rx_edges (rx_init rx_buffer) ts)).rx_buffer_pointer_max = 0
          ↔ ∃ ts' t', ts = ts' ++ [t']
              ∧ (rx_edges (rx_init rx_buffer) ts').capturing = false) := by
  have hpub := PCINT_ISR_finalize t _ hc hf
  refine ⟨hpub, ?_⟩
  rw [hpub]
  rcases List.eq_nil_or_concat ts with hnil | ⟨ts', t', hts⟩
  · subst hnil
    simp [rx_edges, rx_init] at hc
  · rw [List.concat_eq_append] at hts
    subst hts
    rw [rx_edges_append] at hc ⊢
    rcases PCINT_ISR_capturing t' _ hc with ⟨h1, h2⟩ | ⟨h1, h2⟩
    · constructor
      · intro _; exact ⟨ts', t', rfl, h1⟩
      · intro _; exact h2
    · constructor
      · intro h; exact absurd h h2
      · rintro ⟨ts2, t2, heq, hcap⟩
        obtain ⟨h3, _⟩ := List.append_inj' heq rfl
        subst h3
        rw [h1] at hcap
        exact absurd hcap (by simp)

/-- Witness of the amended C19: an idle gap, one edge 208 microseconds later,
an idle gap; the capture is finalized with the length 1. -/
theorem finalize_publishes_cursor_witness :
    (PCINT_ISR 6000 (rx_edges (rx_init (fun _ => 0)) [3000, 3208])).rx_buffer_pointer_max
        = (rx_edges (rx_init (fun _ => 0)) [3000, 3208]).rx_buffer_pointer
      ∧ ((PCINT_ISR 6000 (rx_edges (rx_init (fun _ => 0)) [3000, 3208])).rx_buffer_pointer_max = 0
          ↔ ∃ ts' t', [3000, 3208] = ts' ++ [t']
              ∧ (rx_edges (rx_init (fun _ => 0)) ts').capturing = false) :=
  finalize_publishes_cursor (fun _ => 0) [3000, 3208] 6000 rfl rfl

/-- C20. Corruption is reported exactly when a frame is invalid. For every
receive state with nonzero inbound length: `load_datagram` returns whenever
the buffer is finalized (`_rx_buffer[L] == 2291`, as `PCINT_ISR` publishes
it); and whenever `datagram_from_frame` returns, with frames in the cells
`0 .. n-1` and the terminator in cell `n`, `load_datagram` returns with the
inbound length reset, and its result has `rx_datagram[0] == 0xFFFF` if and
only if some reconstructed frame has bit 0 set or bit 10 clear; otherwise the
result is, in order, `(f >> 1) & 0x01FF` for each reconstructed frame `f`,
followed by `0xFFFF`. -/
theorem load_datagram_corrupted_iff (s : RxState) (rx_datagram : Cells)
    (hlen : s.rx_buffer_pointer_max ≠ 0) :
    (s.rx_buffer_pointer_max < 256 →
        s.rx_buffer s.rx_buffer_pointer_max = MICROSECONDS_PER_FRAME →
        ∃ res, load_datagram s rx_datagram = some res)
      ∧ ∀ frames, datagram_from_frame s.rx_buffer rx_datagram s.rx_buffer_pointer_max
            = some frames →
          ∃ n d, 1 ≤ n ∧ n ≤ 11 ∧ (∀ i, i < n → frames i < 2048) ∧ frames n = 0xFFFF
            ∧ load_datagram s rx_datagram = some ({ s with rx_buffer_pointer_max := 0 }, d)
            ∧ (d 0 = 0xFFFF ↔
                ∃ i, i < n ∧ ((frames i).testBit 0 = true ∨ (frames i).testBit 10 = false))
            ∧ ((¬ ∃ i, i < n ∧ ((frames i).testBit 0 = true ∨ (frames i).testBit 10 = false)) →
                (∀ i, i < n → d i = (frames i >>> 1) &&& 0x01FF) ∧ d n = 0xFFFF) := by
  exact ⟨fun hL hT => load_datagram_returns s rx_datagram hL hT,
    load_datagram_of_frames s rx_datagram hlen⟩

/-- Witness of C20: on `rx_example` decoding returns the payloads
`[0x1F1, 0x002]` and the terminator; on `rx_example_bad`, whose only frame has
the stop bit clear, it returns the empty datagram. Both reset the length. -/
theorem load_datagram_corrupted_iff_witness :
    (rx_example.rx_buffer_pointer_max ≠ 0
      ∧ ∃ res, load_datagram rx_example (fun _ => 0) = some res)
    ∧ (load_datagram rx_example (fun _ => 0)).map
        (fun r => (r.1.rx_buffer_pointer_max, (List.range 3).map r.2))
      = some (0, [0x1F1, 0x002, 0xFFFF])
    ∧ (load_datagram rx_example_bad (fun _ => 0)).map
        (fun r => (r.1.rx_buffer_pointer_max, (List.range 2).map r.2))
      = some (0, [0xFFFF, 0xFFFF]) :=
  ⟨⟨by decide,
      (load_datagram_corrupted_iff rx_example (fun _ => 0) (by decide)).1 (by decide) rfl⟩,
    by rfl, by rfl⟩

/-- C21. Frame/run inverse with idle clipping: for every 11-bit frame `f` whose
start bit is 0, `frame_from_run` applied to the durations that `run_from_frame`
wrote for `f` returns `f` and leaves the run index exactly behind those runs;
and if `f` also has stop bit 1, replacing the duration of the final run by any
longer duration up to the idle value 2291 still returns `f`. -/
theorem frame_run_inverse (f r run_index_max : Nat) (tx_buffer : Cells)
    (hf : f < 2048) (h0 : f.testBit 0 = false) (hr : r + 11 < 256) :
    frame_from_run r run_index_max (run_from_frame f r tx_buffer).1
        = some (f, (run_from_frame f r tx_buffer).2)
      ∧ (run_from_frame f r tx_buffer).2 = r + (frame_run_lengths f).length
      ∧ (f.testBit 10 = true → ∀ dur,
          (run_from_frame f r tx_buffer).1 ((run_from_frame f r tx_buffer).2 - 1) ≤ dur →
          dur ≤ 2291 →
          frame_from_run r run_index_max
              (store (run_from_frame f r tx_buffer).1 ((run_from_frame f r tx_buffer).2 - 1) dur)
            = some (f, (run_from_frame f r tx_buffer).2)) := by
  have hl := frame_run_lengths_length f
  obtain ⟨hidx, hcells, _⟩ := run_from_frame_cells f r tx_buffer hr
  have hle : ∀ i, i < (frame_run_lengths f).length → (frame_run_lengths f).getD i 0 ≤ 11 := by
    intro i hi
    rw [List.getD_eq_getElem _ _ hi]
    exact frame_run_lengths_le f _ (List.getElem_mem _)
  have hdec := decoded_frame_eq f h0 hf
  refine ⟨?_, hidx, ?_⟩
  · rw [hidx]
    have h := frame_from_run_runs (run_from_frame f r tx_buffer).1 r run_index_max f (by omega)
      (by
        intro i hi
        have := run_from_rx_buffer_exact _ (r + i) _ (hle i hi) (hcells i hi)
        exact ⟨by omega, fun _ => this⟩)
    rw [hdec] at h
    exact h
  · intro _ dur hdur1 hdur2
    rw [hidx] at hdur1 ⊢
    have h := frame_from_run_runs
      (store (run_from_frame f r tx_buffer).1 (r + (frame_run_lengths f).length - 1) dur)
      r run_index_max f (by omega)
      (by
        intro i hi
        by_cases hlast : i + 1 < (frame_run_lengths f).length
        · have hcell : store (run_from_frame f r tx_buffer).1
              (r + (frame_run_lengths f).length - 1) dur (r + i)
              = (frame_run_lengths f).getD i 0 * MICROSECONDS_PER_BIT := by
            rw [store_other _ _ _ _ (by omega)]
            exact hcells i hi
          have := run_from_rx_buffer_exact _ (r + i) _ (hle i hi) hcell
          exact ⟨by omega, fun _ => this⟩
        · have hi2 : r + i = r + (frame_run_lengths f).length - 1 := by omega
          refine ⟨?_, fun h => absurd h hlast⟩
          have hc := hcells i hi
          rw [hi2] at hc
          rw [hc] at hdur1
          have hli := hle i hi
          unfold run_from_rx_buffer
          rw [hi2, store_same]
          unfold MICROSECONDS_PER_BIT at hdur1 ⊢
          simp only []
          split <;> omega)
    rw [hdec] at h
    exact h

/-- Witness of C21 at the frame `0x7E2` of the payload `0x1F1`, written from
cell 0: its four runs decode to `0x7E2`, also when the last run (6 bits, 1248
microseconds) is lengthened to the idle value. -/
theorem frame_run_inverse_witness :
    frame_from_run 0 0 (run_from_frame 0x7E2 0 (fun _ => 0)).1
        = some (0x7E2, (run_from_frame 0x7E2 0 (fun _ => 0)).2)
      ∧ (run_from_frame 0x7E2 0 (fun _ => 0)).2 = 4
      ∧ frame_from_run 0 0 (store (run_from_frame 0x7E2 0 (fun _ => 0)).1 3 2291)
        = some (0x7E2, 4) :=
  have h := frame_run_inverse 0x7E2 0 0 (fun _ => 0) (by decide) (by decide) (by decide)
  ⟨h.1, rfl, h.2.2 (by decide) 2291 (by decide) (by decide)⟩

/-- C23, the code at a failing input. On `rx_example_bad` (inbound length 1,
one frame with the stop bit clear) the legacy `load_sentence` marks the result
corrupted and returns with the inbound length still 1; the legacy `PCINT2_ISR`
then does not begin a capture at the next idle gap.  On the same input
`load_datagram` marks the result corrupted and resets the length to 0. -/
theorem load_sentence_keeps_length_on_corruption :
    (load_sentence rx_example_bad (fun _ => 7)).map
        (fun r => (r.1.rx_buffer_pointer_max, (List.range 3).map r.2,
          (PCINT2_ISR 9000 r.1).capturing, (PCINT2_ISR 9000 r.1).rx_buffer_pointer_max))
      = some (1, [0xFFFF, 0xFFFF, 7], false, 1)
    ∧ (load_datagram rx_example_bad (fun _ => 7)).map
        (fun r => (r.1.rx_buffer_pointer_max, (List.range 3).map r.2,
          (PCINT_ISR 9000 r.1).capturing))
      = some (0, [0xFFFF, 0xFFFF, 7], true) := by
  constructor <;> rfl

/-- C24, the code at the failing input. For an array whose first element is
the terminator, `send_datagram` returns with the outbound buffer and the
caller's array unchanged and with the outbound length field set to 255
(`run_index - 1` with `run_index = 0`, as a `uint8_t`), whatever it was. -/
theorem send_datagram_empty_sets_length (s : TxState) (rest : Cells) :
    send_datagram s (datagram_of [] rest)
      = some ({ s with tx_buffer_pointer_max := 255 }, datagram_of [] rest) := by
  have h1 := send_datagram_check_ok [] [] rest 256 (by decide) (by decide)
    (fun i hi => absurd hi (by simp))
  have h2 := send_datagram_frames_ok [] [] rest 256 (by decide) (by decide)
    (fun x hx => absurd hx (by simp))
  have h3 := frame_from_datagram_loop_ok [] [] rest 256 0 s.tx_buffer (by decide) (by decide)
    (fun x hx => absurd hx (by simp))
  simp only [List.nil_append, List.length_nil, List.map_nil, List.flatten_nil, emit_runs]
    at h1 h2 h3
  unfold send_datagram
  rw [h1]
  simp only []
  rw [h2]
  simp only [frame_from_datagram]
  rw [h3]

/-- C25. In-place framing of the caller's array: for every terminator-delimited
payload sequence `l` that `send_datagram` accepts (no element is `0xFFFF`, bit
8 is set on the first element and clear on the others), on return each
element before the terminator has been replaced in the caller's array by
`((p << 1) & 0x03FF) | 0x0400`, the terminator and the later cells are
unchanged, and that frame depends only on the low 9 bits of `p`. -/
theorem send_datagram_frames_in_place (s : TxState) (l : List Nat) (rest : Cells)
    (hlen : l.length < 256)
    (hacc : ∀ i, i < l.length →
      l.getD i 0 ≠ 0xFFFF ∧ ((l.getD i 0).testBit 8 = true ↔ i = 0)) :
    (∃ s1, send_datagram s (datagram_of l rest)
        = some (s1, datagram_of (l.map (fun p => ((p <<< 1) &&& 0x03FF) ||| 0x0400)) rest))
      ∧ ∀ p, ((p <<< 1) &&& 0x03FF) ||| 0x0400 = (((p % 512) <<< 1) &&& 0x03FF) ||| 0x0400 := by
  refine ⟨?_, fun p => spec_frame_mod p⟩
  have hne : ∀ x ∈ l, x ≠ 0xFFFF := by
    intro x hx
    obtain ⟨i, hi, rfl⟩ := List.getElem_of_mem hx
    have := (hacc i hi).1
    rw [List.getD_eq_getElem _ _ hi] at this
    exact this
  have h1 := send_datagram_check_ok l [] rest 256 (by omega) (by simpa using hlen)
    (by simpa using hacc)
  have h2 := send_datagram_frames_ok l [] rest 256 (by omega) (by simpa using hlen) hne
  have h3 := frame_from_datagram_loop_ok (l.map frame_of_payload) [] rest 256 0 s.tx_buffer
    (by simp only [List.length_map]; omega)
    (by simpa using hlen)
    (by
      intro x hx
      simp only [List.mem_map] at hx
      obtain ⟨p, _, rfl⟩ := hx
      exact frame_of_payload_ne p)
  simp only [List.nil_append, List.length_nil] at h1 h2 h3
  have hmap : l.map (fun p => ((p <<< 1) &&& 0x03FF) ||| 0x0400) = l.map frame_of_payload := by
    apply List.map_congr_left
    intro p _
    exact (frame_of_payload_eq_spec p).symm
  rw [hmap]
  unfold send_datagram
  rw [h1]
  simp only []
  rw [h2]
  simp only [frame_from_datagram]
  rw [h3]
  exact ⟨_, rfl⟩

/-- Witness of C25: `[0x3F1, 0x002]`, whose first element has bit 9 set as
well; its frame is that of `0x1F1`. -/
theorem send_datagram_frames_in_place_witness :
    (∃ s1, send_datagram tx_zero (datagram_of [0x3F1, 0x002] (fun _ => 7))
        = some (s1, datagram_of ([0x3F1, 0x002].map (fun p => ((p <<< 1) &&& 0x03FF) ||| 0x0400))
            (fun _ => 7)))
    ∧ (List.range 4).map
        (datagram_of ([0x3F1, 0x002].map (fun p => ((p <<< 1) &&& 0x03FF) ||| 0x0400))
          (fun _ => 7))
      = [0x7E2, 0x404, 0xFFFF, 7] :=
  ⟨(send_datagram_frames_in_place tx_zero [0x3F1, 0x002] (fun _ => 7) (by decide)
      (by decide)).1, by rfl⟩

/-- C26. Run parity is preserved across frames: for every payload `p`, the
runs that `run_from_frame` emits for the frame of `p` (the maximal runs of its
11 bits) are even in number, between 2 and 10, the first a run of 0s and the
last a run of 1s, each of 1 to 10 bits, so of at most 2080 microseconds; hence
in the buffer that `send_datagram` writes for a valid payload sequence every
entry at an even index is the duration of a run of 0s and every entry at an
odd index that of a run of 1s, which is the level that a firing of
`OCR2A_ISR` with the cursor at that index puts on the bus. -/
theorem run_parity (p r : Nat) (tx_buffer : Cells) (s : TxState) (P : List Nat) (rest : Cells)
    (hP : valid_payloads P) :
    (frame_of_payload p = spec_frame p
      ∧ run_from_frame (frame_of_payload p) r tx_buffer
          = emit_runs ((frame_runs (spec_frame p)).map Prod.snd) r tx_buffer
      ∧ (frame_runs (spec_frame p)).length % 2 = 0
      ∧ 2 ≤ (frame_runs (spec_frame p)).length
      ∧ (frame_runs (spec_frame p)).length ≤ 10
      ∧ (∃ l tl, frame_runs (spec_frame p) = (false, l) :: tl)
      ∧ (∃ l, (frame_runs (spec_frame p)).getLast? = some (true, l))
      ∧ (∀ x ∈ frame_runs (spec_frame p), 1 ≤ x.2 ∧ x.2 ≤ 10 ∧ 208 * x.2 ≤ 2080))
    ∧ ∃ s1 d1, send_datagram s (datagram_of P rest) = some (s1, d1)
        ∧ ∀ i, i < (wire_runs P).length →
            s1.tx_buffer i = 208 * ((wire_runs P).getD i (false, 0)).2
              ∧ ((wire_runs P).getD i (false, 0)).1 = decide (i % 2 = 1)
              ∧ ∀ t : TxState, t.tx_buffer_pointer_max ≠ 0 → t.tx_buffer_pointer = i →
                  bus_level (OCR2A_ISR t).tx_port
                    = (if ((wire_runs P).getD i (false, 0)).1 then 1 else 0) := by
  constructor
  · have heven := frame_runs_even p
    have h2 := frame_runs_two p
    have h11 := (frame_runs_length (spec_frame p)).2
    obtain ⟨l, tl, hhead⟩ := frame_runs_head (spec_frame p)
    rw [spec_frame_bit0] at hhead
    obtain ⟨l2, hlast⟩ := frame_runs_last (spec_frame p)
    rw [spec_frame_bit10] at hlast
    refine ⟨frame_of_payload_eq_spec p, ?_, heven, h2, by omega, ⟨l, tl, hhead⟩, ⟨l2, hlast⟩, ?_⟩
    · rw [frame_of_payload_eq_spec, run_from_frame_eq_emit]
      rfl
    · intro x hx
      have hmem : x.2 ∈ frame_run_lengths (spec_frame p) := by
        unfold frame_run_lengths
        exact List.mem_map_of_mem Prod.snd hx
      have h1 := frame_run_lengths_pos (spec_frame p) x.2 hmem
      have h3 := le_sum_of_mem_pos _ (frame_run_lengths_pos (spec_frame p)) x.2 hmem
      rw [frame_run_lengths_sum] at h3
      have hl : (frame_run_lengths (spec_frame p)).length = (frame_runs (spec_frame p)).length := by
        unfold frame_run_lengths; rw [List.length_map]
      rw [hl] at h3
      omega
  · obtain ⟨s1, hsend, hcells, _⟩ := send_datagram_cells s P rest hP
    refine ⟨s1, _, hsend, ?_⟩
    intro i hi
    refine ⟨?_, wire_runs_parity P i hi, ?_⟩
    · rw [hcells i, if_pos hi, List.getD_eq_getElem _ _ hi,
        List.getD_eq_getElem _ _ (by simpa using hi), List.getElem_map, Nat.mul_comm]
      rfl
    · intro t ht hti
      obtain ⟨_, _, _, _, hport, _⟩ := OCR2A_ISR_busy t ht
      rw [hport, hti, wire_runs_parity P i hi, Nat.and_one_is_mod]
      by_cases hodd : i % 2 = 1
      · rw [if_pos (by omega), bus_level_clear, decide_eq_true hodd, if_pos rfl]
      · rw [if_neg (by omega), bus_level_set, decide_eq_false hodd, if_neg (by decide)]

/-- Witness of C26 at the payload `0x155`, whose frame has 10 runs, and the
payload sequence `[0x1F1, 0x002]`. -/
theorem run_parity_witness :
    (frame_runs (spec_frame 0x155)).length = 10
    ∧ ∃ s1 d1, send_datagram tx_zero (datagram_of [0x1F1, 0x002] (fun _ => 0)) = some (s1, d1)
        ∧ ∀ i, i < (wire_runs [0x1F1, 0x002]).length →
            s1.tx_buffer i = 208 * ((wire_runs [0x1F1, 0x002]).getD i (false, 0)).2
              ∧ ((wire_runs [0x1F1, 0x002]).getD i (false, 0)).1 = decide (i % 2 = 1)
              ∧ ∀ t : TxState, t.tx_buffer_pointer_max ≠ 0 → t.tx_buffer_pointer = i →
                  bus_level (OCR2A_ISR t).tx_port
                    = (if ((wire_runs [0x1F1, 0x002]).getD i (false, 0)).1 then 1 else 0) :=
  ⟨by rfl,
    (run_parity 0x155 0 (fun _ => 0) tx_zero [0x1F1, 0x002] (fun _ => 0)
      (by unfold valid_payloads; decide)).2⟩

/-- C27. Decode is terminating and bounds-safe on any published buffer: for
every inbound buffer and length `L` with `1 ≤ L ≤ 63` and
`_rx_buffer[L] == 2291`, whatever the other entries are, `datagram_from_frame`
returns; every call of `frame_from_run` it makes (they start at or before cell
`L`) returns a frame below 0x0800 and leaves the run index at most at `L + 1`,
and the result is the same on every buffer that agrees on the cells `0 .. L`
(no cell behind `L` is read); between 1 and 11 frames are produced, each below
0x0800 (so not the terminator), the terminator is written at index `n ≤ 11`,
and the cells behind it are left as they were. -/
theorem decode_bounded (rx_buffer rx_datagram : Cells) (L : Nat)
    (hL1 : 1 ≤ L) (hL : L ≤ 63) (hT : rx_buffer L = 2291) :
    (∀ run_index, run_index ≤ L →
        ∃ f r, frame_from_run run_index L rx_buffer = some (f, r) ∧ r ≤ L + 1 ∧ f < 0x0800
          ∧ ∀ other : Cells, (∀ j, j ≤ L → other j = rx_buffer j) →
              frame_from_run run_index L other = some (f, r))
      ∧ ∃ out n, datagram_from_frame rx_buffer rx_datagram L = some out
          ∧ 1 ≤ n ∧ n ≤ 11 ∧ out n = 0xFFFF
          ∧ (∀ i, i < n → out i < 0x0800)
          ∧ (∀ i, n < i → out i = rx_datagram i)
          ∧ ∀ other : Cells, (∀ j, j ≤ L → other j = rx_buffer j) →
              datagram_from_frame other rx_datagram L = some out := by
  constructor
  · intro run_index hr
    exact frame_from_run_bounded rx_buffer L (by omega) hT run_index L hr
  · obtain ⟨out, ho1⟩ := datagram_from_frame_loop_returns rx_buffer L (by omega) hT 11
      rx_datagram 0 0 rfl (by decide) (Nat.zero_le _)
    have ho2 : ∀ other : Cells, (∀ j, j ≤ L → other j = rx_buffer j) →
        datagram_from_frame other rx_datagram L = some out := by
      intro other hother
      unfold datagram_from_frame
      rw [datagram_from_frame_loop_congr rx_buffer other L (by omega) hT hother _ _ _ _
        (Nat.zero_le _)]
      exact ho1
    obtain ⟨n, h1, h2, h3, h4, h5⟩ := datagram_from_frame_loop_shape _ _ _ _ _ _ _ ho1
    have hn11 : n ≤ 11 := by
      have : max (0 + 1) 11 = 11 := by decide
      omega
    exact ⟨out, n, ho1, by omega, hn11, h3, fun i hi => h4 i (Nat.zero_le _) hi,
      fun i hi => h5 i (Or.inr hi), ho2⟩

/-- Witness of C27: a finalized buffer of length 3 whose first entries round
to 0 bits; decoding returns one frame and the terminator. -/
theorem decode_bounded_witness :
    ∃ out n, datagram_from_frame (fun i => if i = 3 then 2291 else 50) (fun _ => 7) 3 = some out
      ∧ 1 ≤ n ∧ n ≤ 11 ∧ out n = 0xFFFF
      ∧ (∀ i, i < n → out i < 0x0800)
      ∧ (∀ i, n < i → out i = (fun _ => 7) i)
      ∧ ∀ other : Cells, (∀ j, j ≤ 3 → other j = (fun i => if i = 3 then 2291 else 50) j) →
          datagram_from_frame other (fun _ => 7) 3 = some out :=
  (decode_bounded (fun i => if i = 3 then 2291 else 50) (fun _ => 7) 3 (by decide) (by decide)
    rfl).2

end StProtocol
